import Mathlib

/-!
Verification of the on-chain limit-order-book engine in `runtime/src/trade.rs`.

The module is shallowly embedded: prices (`T::Price = u64`) and balances
(`T::Balance = u128`) become `Nat` with explicit `% 2^64` / `% 2^128`
truncation wherever the Rust code performs a machine-width operation or a
narrowing cast; `U256` arithmetic carries an explicit `% 2^256`.  Content
hashes become an inductive data type whose constructors record exactly the
tuples the Rust code feeds to `Hashing::hash`.  Storage maps become total
functions to `Option`, and fallible code returns `Except` values paired with
the state at the point of failure (the Substrate host at this revision does
not roll back storage writes made before an error).  Loops whose termination
depends on heap shape (the ladder walk, the matcher's outer loop) take an
explicit fuel argument; theorems quantify over sufficiently large fuel.
-/

set_option maxHeartbeats 2000000

namespace Dex

/-- `price_factor`: the fixed-point scale used by `trade.rs`. -/
def price_factor : ℕ := 100000000

/-- Modulus of the 64-bit machine integers (`u64`, `T::Price`). -/
def u64Mod : ℕ := 2 ^ 64

/-- Modulus of the 128-bit machine integers (`u128`, `T::Balance`). -/
def u128Mod : ℕ := 2 ^ 128

/-- Modulus of the 256-bit `U256` integers used by `ensure_counterparty_amount_bonds`. -/
def u256Mod : ℕ := 2 ^ 256

/-- `T::Price::min_value()` for `Price = u64`. -/
def pmin : ℕ := 0

/-- `T::Price::max_value()` for `Price = u64`. -/
def pmax : ℕ := 2 ^ 64 - 1

/-- `T::Balance::max_value()` for `Balance = u128`. -/
def balanceMax : ℕ := 2 ^ 128 - 1

/-- `OrderType` from `trade.rs`. -/
inductive OrderType where
  | Buy : OrderType
  | Sell : OrderType
deriving DecidableEq

/-- The `Not` implementation on `OrderType` (`!otype`). -/
def OrderType.not : OrderType → OrderType
  | .Buy => .Sell
  | .Sell => .Buy

/-- `OrderStatus` from `trade.rs`. -/
inductive OrderStatus where
  | Created : OrderStatus
  | PartialFilled : OrderStatus
  | Filled : OrderStatus
  | Canceled : OrderStatus
deriving DecidableEq

/-- Content hashes.  Each constructor records the exact tuple the source
encodes and hashes: `LimitOrder::new` hashes
`(base, quote, price, sell_amount, buy_amount, owner, random_seed)`;
`Trade::new` hashes `(base, quote, base_amount, quote_amount, nonce, random_seed)`;
`do_create_trade_pair` hashes `(base, quote, nonce, sender, random_seed)`.
`token` stands for externally created token hashes. -/
inductive HashData where
  | token : ℕ → HashData
  | pairH : HashData → HashData → ℕ → ℕ → ℕ → HashData
  | orderH : HashData → HashData → ℕ → ℕ → ℕ → ℕ → ℕ → HashData
  | tradeH : HashData → HashData → ℕ → ℕ → ℕ → ℕ → HashData
deriving DecidableEq

/-- The nonce recorded inside a hash, when the hashed tuple contains one. -/
def HashData.nonceOf : HashData → Option ℕ
  | .pairH _ _ n _ _ => some n
  | .tradeH _ _ _ _ n _ => some n
  | _ => none

/-- `TradePair` from `trade.rs`. -/
structure TradePair where
  hash : HashData
  base : HashData
  quote : HashData
deriving DecidableEq

/-- `LimitOrder` from `trade.rs`; `owner` is an `AccountId` (modelled as `ℕ`). -/
structure LimitOrder where
  hash : HashData
  base : HashData
  quote : HashData
  owner : ℕ
  price : ℕ
  sell_amount : ℕ
  remained_sell_amount : ℕ
  buy_amount : ℕ
  remained_buy_amount : ℕ
  otype : OrderType
  status : OrderStatus
deriving DecidableEq

/-- `LimitOrder::is_finished`. -/
def LimitOrder.is_finished (o : LimitOrder) : Bool :=
  (decide (o.remained_buy_amount = 0) && decide (o.status = OrderStatus.Filled))
    || decide (o.status = OrderStatus.Canceled)

/-- `LimitOrder::new`: the hash ignores the nonce and the constructor does not
touch it; `seed` is the host's `random_seed()`. -/
def LimitOrder.new (base quote : HashData) (owner price sell_amount buy_amount : ℕ)
    (otype : OrderType) (seed : ℕ) : LimitOrder :=
  { hash := .orderH base quote price sell_amount buy_amount owner seed
    base := base, quote := quote, owner := owner, price := price
    sell_amount := sell_amount, buy_amount := buy_amount
    status := OrderStatus.Created
    remained_sell_amount := sell_amount
    remained_buy_amount := buy_amount
    otype := otype }

/-- `Trade` record from `trade.rs`. -/
structure TradeRec where
  hash : HashData
  base : HashData
  quote : HashData
  buyer : ℕ
  seller : ℕ
  maker : ℕ
  taker : ℕ
  otype : OrderType
  price : ℕ
  base_amount : ℕ
  quote_amount : ℕ
deriving DecidableEq

/-- `Trade::new` (minus the `Nonce` mutation, which the caller threads):
builds the record from maker, taker and the exchanged amounts at nonce `n`. -/
def TradeRec.new (base quote : HashData) (maker_order taker_order : LimitOrder)
    (base_amount quote_amount n seed : ℕ) : TradeRec :=
  { hash := .tradeH base quote base_amount quote_amount n seed
    base := base, quote := quote
    buyer := if taker_order.otype = OrderType.Buy then taker_order.owner else maker_order.owner
    seller := if taker_order.otype = OrderType.Buy then maker_order.owner else taker_order.owner
    maker := maker_order.owner
    taker := taker_order.owner
    otype := taker_order.otype
    price := maker_order.price
    base_amount := base_amount
    quote_amount := quote_amount }

/-- `ensure_counterparty_amount_bonds`, faithfully: `amount.as_()` (line 508,
`Balance: As<u64>`) first narrows the 128-bit amount to 64 bits, then all
products are taken in `U256` (`% 2^256`), the round-trip check compares
against the narrowed amount, the balance bound compares against
`T::Balance::max_value().as_()` which truncates `u128::MAX` to `u64::MAX`,
and the final `try_into::<u64>` fails above `u64::MAX`. -/
def ensure_counterparty_amount_bonds (otype : OrderType) (price amount : ℕ) :
    Except String ℕ :=
  let counterparty_amount : ℕ :=
    match otype with
    | .Buy => amount % u64Mod * price_factor % u256Mod / price
    | .Sell => amount % u64Mod * price % u256Mod / price_factor
  let amount_v2 : ℕ :=
    match otype with
    | .Buy => counterparty_amount * price % u256Mod / price_factor
    | .Sell => counterparty_amount * price_factor % u256Mod / price
  if amount_v2 ≠ amount % u64Mod then Except.error "amount have digits parts"
  else if counterparty_amount = 0 ∨ counterparty_amount > balanceMax % u64Mod then
    Except.error "counterparty bound check failed"
  else if counterparty_amount ≥ u64Mod then Except.error "Overflow error"
  else Except.ok counterparty_amount

/-- Exact-arithmetic counterpart of `ensure_counterparty_amount_bonds`,
following the spec's words (§4.1): the same computation in an unbounded
integer domain, for comparison with the machine-width version. -/
def ensure_counterparty_amount_bonds_exact (otype : OrderType) (price amount : ℕ) :
    Except String ℕ :=
  let counterparty_amount : ℕ :=
    match otype with
    | .Buy => amount * price_factor / price
    | .Sell => amount * price / price_factor
  let amount_v2 : ℕ :=
    match otype with
    | .Buy => counterparty_amount * price / price_factor
    | .Sell => counterparty_amount * price_factor / price
  if amount_v2 ≠ amount then Except.error "amount have digits parts"
  else if counterparty_amount = 0 ∨ counterparty_amount > balanceMax % u64Mod then
    Except.error "counterparty bound check failed"
  else if counterparty_amount ≥ u64Mod then Except.error "Overflow error"
  else Except.ok counterparty_amount

/-- Ceiling division, used to state the spec's `ceil(a / b)`. -/
def ceilDiv (a b : ℕ) : ℕ := if a % b = 0 then a / b else a / b + 1

/-- `calculate_ex_amount`, faithfully: the branch guards compare full
128-bit balances, but the quantity arithmetic is done in `u64`
(`.as_()` truncates, products wrap at `2^64`). -/
def calculate_ex_amount (maker_order taker_order : LimitOrder) :
    Except String (ℕ × ℕ) :=
  let buyer_order := if taker_order.otype = OrderType.Buy then taker_order else maker_order
  let seller_order := if taker_order.otype = OrderType.Buy then maker_order else taker_order
  if seller_order.remained_buy_amount ≤ buyer_order.remained_sell_amount then
    let s64 := seller_order.remained_buy_amount % u64Mod
    let quote_qty := s64 * price_factor % u64Mod / maker_order.price
    let buy_amount_v2 := quote_qty * maker_order.price % u64Mod / price_factor
    let quote_qty2 := if buy_amount_v2 ≠ s64 then (quote_qty + 1) % u64Mod else quote_qty
    Except.ok (seller_order.remained_buy_amount, quote_qty2)
  else if buyer_order.remained_buy_amount ≤ seller_order.remained_sell_amount then
    let b64 := buyer_order.remained_buy_amount % u64Mod
    let base_qty := b64 * maker_order.price % u64Mod / price_factor
    let buy_amount_v2 := base_qty * price_factor % u64Mod / maker_order.price
    let base_qty2 := if buy_amount_v2 ≠ b64 then (base_qty + 1) % u64Mod else base_qty
    Except.ok (base_qty2, buyer_order.remained_buy_amount)
  else Except.error "should never executed here"

/-- Exact-arithmetic counterpart of `calculate_ex_amount`, following the
spec's words (§4.1): base leg `S.remained_buy_amount` with quote leg
`ceil(S.remained_buy_amount · price_factor / M.price)`, and symmetrically. -/
def calculate_ex_amount_exact (maker_order taker_order : LimitOrder) :
    Except String (ℕ × ℕ) :=
  let buyer_order := if taker_order.otype = OrderType.Buy then taker_order else maker_order
  let seller_order := if taker_order.otype = OrderType.Buy then maker_order else taker_order
  if seller_order.remained_buy_amount ≤ buyer_order.remained_sell_amount then
    Except.ok (seller_order.remained_buy_amount,
      ceilDiv (seller_order.remained_buy_amount * price_factor) maker_order.price)
  else if buyer_order.remained_buy_amount ≤ seller_order.remained_sell_amount then
    Except.ok (ceilDiv (buyer_order.remained_buy_amount * maker_order.price) price_factor,
      buyer_order.remained_buy_amount)
  else Except.error "should never executed here"

/-- `LinkedItem` from `trade.rs` (`K1 = Hash`, `K2 = Price`). -/
structure Item where
  price : Option ℕ
  next : Option ℕ
  prev : Option ℕ
  orders : List HashData
deriving DecidableEq

/-- The per-pair slice of the `LinkedItemList` storage map:
`Option Price → Option LinkedItem` (the trade-pair hash component of the key
is fixed throughout each `LinkedList` operation). -/
def Store : Type := Option ℕ → Option Item

/-- The `Orders` storage map. -/
def OrdersMap : Type := HashData → Option LimitOrder

/-- `S::insert` on the ladder slice. -/
def swrite (s : Store) (k : Option ℕ) (it : Item) : Store :=
  fun k2 => if k2 = k then some it else s k2

/-- The Bottom sentinel record built by `read`'s lazy initialisation. -/
def bottomItem : Item := { price := some pmin, next := none, prev := some pmax, orders := [] }

/-- The Top sentinel record built by `read`'s lazy initialisation. -/
def topItem : Item := { price := some pmax, next := some pmin, prev := none, orders := [] }

/-- The Head sentinel record built by `read`'s lazy initialisation. -/
def headItem : Item := { price := none, next := some pmax, prev := some pmin, orders := [] }

/-- `LinkedList::read`: returns the stored item, or lazily writes, in this
order, the Head-shaped `item` under the *requested* key, `bottom` under
`Some(PMIN)` and `top` under `Some(PMAX)`, and returns the Head-shaped item. -/
def lread (s : Store) (k : Option ℕ) : Item × Store :=
  match s k with
  | some it => (it, s)
  | none =>
      (headItem, swrite (swrite (swrite s k headItem) (some pmin) bottomItem) (some pmax) topItem)

/-- `LinkedList::read_head`. -/
def read_head (s : Store) : Item × Store := lread s none

/-- `LinkedList::read_bottom`. -/
def read_bottom (s : Store) : Item × Store := lread s (some pmin)

/-- `LinkedList::read_top`. -/
def read_top (s : Store) : Item × Store := lread s (some pmax)

/-- The walk inside `LinkedList::append`: advance along `next` until `next`
equals the terminator, or `key2 < next.price`; fuel bounds the iteration. -/
def appendWalk (endk : Option ℕ) (key2 : ℕ) : ℕ → Item × Store → Item × Store
  | 0, p => p
  | fuel + 1, (it, s) =>
      if it.next = endk then (it, s)
      else
        match it.next with
        | some price => if key2 < price then (it, s) else appendWalk endk key2 fuel (lread s (some price))
        | none => appendWalk endk key2 fuel (lread s none)

/-- `LinkedList::append`. -/
def append (fuel : ℕ) (s : Store) (key2 : ℕ) (order_hash : HashData) (otype : OrderType) :
    Store :=
  match s (some key2) with
  | some it => swrite s (some key2) { it with orders := it.orders ++ [order_hash] }
  | none =>
      let startk : Option ℕ := match otype with | .Buy => some pmin | .Sell => none
      let endk : Option ℕ := match otype with | .Buy => none | .Sell => some pmax
      let ws := appendWalk endk key2 fuel (lread s startk)
      let it := ws.1
      let s1 := ws.2
      let new_prev : Item := { it with next := some key2 }
      let s2 := swrite s1 new_prev.price new_prev
      let rs := lread s2 it.next
      let nx := rs.1
      let s3 := rs.2
      let new_next : Item := { nx with prev := some key2 }
      let s4 := swrite s3 new_next.price new_next
      swrite s4 (some key2) { price := some key2, next := new_next.price, prev := new_prev.price, orders := [order_hash] }

/-- The `while item.orders.len() > 0` loop of `remove_item`: pop finished
orders from the front, writing the level back after every pop; stop with an
error at the first non-finished (or missing) order.  The returned store
reflects all writes made before the failure. -/
def popOrders (om : OrdersMap) (key2 : ℕ) : List HashData → Item → Store → Store × Option String
  | [], _, s => (s, none)
  | oh :: rest, it, s =>
      match om oh with
      | none => (s, some "can not get order")
      | some ord =>
          if ord.is_finished then
            popOrders om key2 rest { it with orders := rest }
              (swrite s (some key2) { it with orders := rest })
          else (s, some "try to remove not finished order")

/-- `LinkedList::remove_item`.  On success the emptied level is taken out of
the map and its neighbours are rewired (`prev.next ← self.next`,
`next.prev ← self.prev`); on failure the store keeps every write made so far. -/
def remove_item (om : OrdersMap) (s : Store) (key2 : ℕ) : Store × Option String :=
  match s (some key2) with
  | none => (s, none)
  | some it =>
      let pr := popOrders om key2 it.orders it s
      match pr.2 with
      | some e => (pr.1, some e)
      | none =>
          match pr.1 (some key2) with
          | none => (pr.1, none)
          | some item =>
              let s2 : Store := fun k => if k = some key2 then none else pr.1 k
              let s3 : Store :=
                match s2 item.prev with
                | some x => swrite s2 item.prev { x with next := item.next }
                | none => s2
              let s4 : Store :=
                match s3 item.next with
                | some x => swrite s3 item.next { x with prev := item.prev }
                | none => s3
              (s4, none)

/-- The loop of `remove_items`; `key2.unwrap()` on `None` is a panic,
modelled as an error. -/
def removeItemsGo (om : OrdersMap) (endk : Option ℕ) (otype : OrderType) :
    ℕ → Item × Store → Store × Option String
  | 0, (_, s) => (s, some "out of fuel")
  | fuel + 1, (head, s) =>
      let key2 := match otype with | .Buy => head.prev | .Sell => head.next
      if key2 = endk then (s, none)
      else
        match key2 with
        | none => (s, some "panicked at unwrap of None")
        | some p =>
            let r := remove_item om s p
            match r.2 with
            | some e => (r.1, some e)
            | none => removeItemsGo om endk otype fuel (read_head r.1)

/-- `LinkedList::remove_items`. -/
def remove_items (om : OrdersMap) (fuel : ℕ) (s : Store) (otype : OrderType) :
    Store × Option String :=
  let endk : Option ℕ := match otype with | .Buy => some pmin | .Sell => some pmax
  removeItemsGo om endk otype fuel (read_head s)

/-- `next_match_price` from `trade.rs`. -/
def next_match_price (item : Item) (otype : OrderType) : Option ℕ :=
  if otype = OrderType.Buy then item.prev else item.next

/-- The candidate price computed on each iteration of `order_match`'s loop:
the source calls `Self::next_match_price(&head, !otype)` (line 587). -/
def orderMatchCandidate (head : Item) (otype : OrderType) : Option ℕ :=
  next_match_price head otype.not

/-- The terminator price of `order_match`'s loop (lines 560–564):
`Price::min_value()` for a Buy taker, `Price::max_value()` for a Sell taker. -/
def endItemPrice (otype : OrderType) : Option ℕ :=
  if otype = OrderType.Buy then some pmin else some pmax

/-- `price_matched` from `trade.rs`. -/
def price_matched (order_price : ℕ) (order_type : OrderType) (linked_item_price : ℕ) : Bool :=
  match order_type with
  | .Buy => decide (order_price ≥ linked_item_price)
  | .Sell => decide (order_price ≤ linked_item_price)

/-- Pointwise update of a function-backed storage map. -/
def fupd {α β : Type} [DecidableEq α] (f : α → β) (a : α) (b : β) : α → β :=
  fun x => if x = a then b else f x

/-- The whole `trade` module state, together with the external token module's
balances (free, frozen) and token-owner table, the host nonce and the host
random seed. -/
structure ModState where
  store : HashData → Store
  orders : OrdersMap
  pairs : HashData → Option TradePair
  pairHashByBQ : HashData × HashData → Option HashData
  ownedOrdersIndex : ℕ → ℕ
  ownedOrders : ℕ × ℕ → Option HashData
  tpOwnedOrdersIndex : HashData → ℕ
  tpOwnedOrders : HashData × ℕ → Option HashData
  trades : HashData → Option TradeRec
  ownedTrades : ℕ → Option (List HashData)
  ownedTPTrades : ℕ × HashData → Option (List HashData)
  tpOwnedTrades : HashData → Option (List HashData)
  orderOwnedTrades : HashData → Option (List HashData)
  nonce : ℕ
  free : ℕ × HashData → ℕ
  frozen : ℕ × HashData → ℕ
  tokenOwner : HashData → Option ℕ
  seed : ℕ

/-- Replace the ladder slice of one trade pair. -/
def setStore (st : ModState) (tpHash : HashData) (s : Store) : ModState :=
  { st with store := fupd st.store tpHash s }

/-- Modelled from the spec: the external token collaborator's
`ensure_free_balance(account, token, amount)` (the token module itself is not
part of this repository's sources) — succeeds iff the account's free balance
of the token is at least `amount`. -/
def ensure_free_balance (st : ModState) (acct : ℕ) (tok : HashData) (amount : ℕ) :
    Except String Unit :=
  if amount ≤ st.free (acct, tok) then Except.ok () else Except.error "insufficient free balance"

/-- Modelled from the spec: the token collaborator's `freeze` — moves
`amount` from the account's free balance to its frozen balance, failing if
the free balance is insufficient. -/
def do_freeze (st : ModState) (acct : ℕ) (tok : HashData) (amount : ℕ) :
    Except (String × ModState) ModState :=
  if amount ≤ st.free (acct, tok) then
    Except.ok { st with
      free := fupd st.free (acct, tok) (st.free (acct, tok) - amount),
      frozen := fupd st.frozen (acct, tok) (st.frozen (acct, tok) + amount) }
  else Except.error ("can not freeze balance", st)

/-- Modelled from the spec: the token collaborator's `unfreeze` — moves
`amount` from the account's frozen balance back to its free balance, failing
if the frozen balance is insufficient. -/
def do_unfreeze (st : ModState) (acct : ℕ) (tok : HashData) (amount : ℕ) :
    Except (String × ModState) ModState :=
  if amount ≤ st.frozen (acct, tok) then
    Except.ok { st with
      frozen := fupd st.frozen (acct, tok) (st.frozen (acct, tok) - amount),
      free := fupd st.free (acct, tok) (st.free (acct, tok) + amount) }
  else Except.error ("can not unfreeze balance", st)

/-- Modelled from the spec: the token collaborator's `transfer` — moves
`amount` of free balance from one account to another. -/
def do_transfer (st : ModState) (src dst : ℕ) (tok : HashData) (amount : ℕ) :
    Except (String × ModState) ModState :=
  if amount ≤ st.free (src, tok) then
    let st1 := { st with free := fupd st.free (src, tok) (st.free (src, tok) - amount) }
    Except.ok { st1 with free := fupd st1.free (dst, tok) (st1.free (dst, tok) + amount) }
  else Except.error ("can not transfer balance", st)

/-- The `add_trade` pattern shared by the four trade indices: read the list
(absence is the empty list), push, write back. -/
def addTradeTo {γ : Type} [DecidableEq γ] (m : γ → Option (List HashData)) (k : γ)
    (h : HashData) : γ → Option (List HashData) :=
  fupd m k (some ((m k).getD [] ++ [h]))

/-- The four token operations of one match step (two `do_unfreeze`, two
`do_transfer`), in source order. -/
def exchangeTokens (st : ModState) (taker_owner maker_owner : ℕ) (give hv : HashData)
    (give_qty have_qty : ℕ) : Except (String × ModState) ModState :=
  match do_unfreeze st taker_owner give give_qty with
  | .error e => Except.error e
  | .ok st1 =>
  match do_unfreeze st1 maker_owner hv have_qty with
  | .error e => Except.error e
  | .ok st2 =>
  match do_transfer st2 taker_owner maker_owner give give_qty with
  | .error e => Except.error e
  | .ok st3 => do_transfer st3 maker_owner taker_owner hv have_qty

/-- `Created → PartialFilled` on first touch. -/
def touchStatus (ord : LimitOrder) : LimitOrder :=
  if ord.status = OrderStatus.Created then { ord with status := OrderStatus.PartialFilled }
  else ord

/-- The two `checked_sub` deductions on one side's order. -/
def deductAmounts (ord : LimitOrder) (sell_dec buy_dec : ℕ) : Except String LimitOrder :=
  if sell_dec ≤ ord.remained_sell_amount then
    if buy_dec ≤ ord.remained_buy_amount then
      Except.ok { ord with
        remained_sell_amount := ord.remained_sell_amount - sell_dec,
        remained_buy_amount := ord.remained_buy_amount - buy_dec }
    else Except.error "substract error"
  else Except.error "substract error"

/-- The fill check on one side: when `remained_buy_amount` hits zero, mark
`Filled` and unfreeze any residual sell dust back to the owner. -/
def settleFilled (st : ModState) (tok : HashData) (ord : LimitOrder) :
    Except (String × ModState) (LimitOrder × ModState) :=
  if ord.remained_buy_amount = 0 then
    let ord2 := { ord with status := OrderStatus.Filled }
    if ord2.remained_sell_amount ≠ 0 then
      match do_unfreeze st ord2.owner tok ord2.remained_sell_amount with
      | .error e => Except.error e
      | .ok st2 => Except.ok ({ ord2 with remained_sell_amount := 0 }, st2)
    else Except.ok (ord2, st)
  else Except.ok (ord, st)

/-- Persist both orders, create the `Trade` record (incrementing the nonce)
and register it under all four trade indices. -/
def recordTrade (st : ModState) (tpHash : HashData) (tp : TradePair)
    (o order : LimitOrder) (base_qty quote_qty : ℕ) : ModState :=
  let st1 := { st with orders := fupd (fupd st.orders order.hash (some order)) o.hash (some o) }
  let n := st1.nonce
  let trade := TradeRec.new tp.base tp.quote o order base_qty quote_qty n st1.seed
  { st1 with
    nonce := n + 1,
    trades := fupd st1.trades trade.hash (some trade),
    orderOwnedTrades :=
      (addTradeTo (addTradeTo st1.orderOwnedTrades order.hash trade.hash) o.hash trade.hash),
    ownedTrades :=
      (addTradeTo (addTradeTo st1.ownedTrades order.owner trade.hash) o.owner trade.hash),
    ownedTPTrades :=
      (addTradeTo (addTradeTo st1.ownedTPTrades (order.owner, tpHash) trade.hash) (o.owner, tpHash) trade.hash),
    tpOwnedTrades := addTradeTo st1.tpOwnedTrades tpHash trade.hash }

/-- The body of `order_match`'s inner `for o in item.orders.iter()` loop for a
single resting maker hash `oh`: compute the exchanged quantities, perform the
token operations, update both orders' statuses and remaining amounts
(`checked_sub` failures abort with the current state), persist both orders,
and record the new `Trade` under all its indices.  Errors carry the state at
the failure point: earlier writes persist. -/
def matchOneMaker (st : ModState) (tpHash : HashData) (tp : TradePair)
    (give hv : HashData) (otype : OrderType) (order : LimitOrder) (oh : HashData) :
    Except (String × ModState) (LimitOrder × ModState) :=
  match st.orders oh with
  | none => Except.error ("can not get order", st)
  | some o =>
    match calculate_ex_amount o order with
    | .error e => Except.error (e, st)
    | .ok (base_qty, quote_qty) =>
      let give_qty := match otype with | .Buy => base_qty | .Sell => quote_qty
      let have_qty := match otype with | .Buy => quote_qty | .Sell => base_qty
      match exchangeTokens st order.owner o.owner give hv give_qty have_qty with
      | .error e => Except.error e
      | .ok st1 =>
        let order1 := touchStatus order
        let o1 := touchStatus o
        match deductAmounts order1 give_qty have_qty with
        | .error e => Except.error (e, st1)
        | .ok order2 =>
        match deductAmounts o1 have_qty give_qty with
        | .error e => Except.error (e, st1)
        | .ok o2 =>
        match settleFilled st1 give order2 with
        | .error e => Except.error e
        | .ok (order3, st2) =>
        match settleFilled st2 hv o2 with
        | .error e => Except.error e
        | .ok (o3, st3) =>
            Except.ok (order3, recordTrade st3 tpHash tp o3 order3 base_qty quote_qty)

/-- The inner loop of `order_match` over one level's FIFO queue, breaking as
soon as the taker order is `Filled`. -/
def matchLevel (tpHash : HashData) (tp : TradePair) (give hv : HashData)
    (otype : OrderType) : List HashData → LimitOrder → ModState →
    Except (String × ModState) (LimitOrder × ModState)
  | [], order, st => Except.ok (order, st)
  | oh :: rest, order, st =>
      match matchOneMaker st tpHash tp give hv otype order oh with
      | .error e => Except.error e
      | .ok (order2, st2) =>
          if order2.status = OrderStatus.Filled then Except.ok (order2, st2)
          else matchLevel tpHash tp give hv otype rest order2 st2

/-- The outer loop of `order_match`: determine the candidate price from the
current `head` via `next_match_price(&head, !otype)`, stop at the terminator
or on a failed price cross, process the level's queue, then re-read `head` at
the level's key. -/
def orderMatchGo (tpHash : HashData) (tp : TradePair) (give hv : HashData)
    (otype : OrderType) (oprice : ℕ) : ℕ → LimitOrder → Item → ModState →
    Except (String × ModState) (LimitOrder × ModState)
  | 0, _, _, st => Except.error ("out of fuel", st)
  | fuel + 1, order, head, st =>
      if order.status = OrderStatus.Filled then Except.ok (order, st)
      else
        let item_price := next_match_price head otype.not
        if item_price = endItemPrice otype then Except.ok (order, st)
        else
          match item_price with
          | none => Except.error ("can not get item price", st)
          | some ip =>
              if ¬ price_matched oprice otype ip then Except.ok (order, st)
              else
                match st.store tpHash (some ip) with
                | none => Except.error ("can not unwrap linked list item", st)
                | some item =>
                    match matchLevel tpHash tp give hv otype item.orders order st with
                    | .error e => Except.error e
                    | .ok (order2, st2) =>
                        let rh := lread (st2.store tpHash) (some ip)
                        orderMatchGo tpHash tp give hv otype oprice fuel order2 rh.1
                          (setStore st2 tpHash rh.2)

/-- `order_match` from `trade.rs`.  After the loop, `remove_items` is invoked
on the opposite side and its `Result` is discarded (line 687): its mutations
persist, its error does not propagate. -/
def order_match (fuel : ℕ) (st : ModState) (tp_hash : HashData) (order : LimitOrder) :
    Except (String × ModState) (Bool × ModState) :=
  let rh := read_head (st.store tp_hash)
  let st1 := setStore st tp_hash rh.2
  match st1.pairs tp_hash with
  | none => Except.error ("can not get trade pair", st1)
  | some tp =>
      let give := match order.otype with | .Buy => tp.base | .Sell => tp.quote
      let hv := match order.otype with | .Buy => tp.quote | .Sell => tp.base
      match orderMatchGo tp_hash tp give hv order.otype order.price fuel order rh.1 st1 with
      | .error e => Except.error e
      | .ok (order2, st2) =>
          let rr := remove_items st2.orders fuel (st2.store tp_hash) order.otype.not
          Except.ok (decide (order2.status = OrderStatus.Filled), setStore st2 tp_hash rr.1)

/-- `ensure_trade_pair` from `trade.rs` (its error strings are empty). -/
def ensure_trade_pair (st : ModState) (base quote : HashData) : Except String HashData :=
  match st.pairHashByBQ (base, quote) with
  | some tp => Except.ok tp
  | none => Except.error ""

/-- `ensure_bonds` from `trade.rs`. -/
def ensure_bonds (price sell_amount : ℕ) : Except String Unit :=
  if 0 < price ∧ price ≤ pmax then
    if 0 < sell_amount ∧ sell_amount ≤ balanceMax then Except.ok ()
    else Except.error "sell amount bonds check failed"
  else Except.error "price bonds check failed"

/-- `create_limit_order` from `trade.rs`: validate, build the order, freeze
the sell-side funds, persist the order and its indices, run the matcher, and
append the residual to the ladder when not fully filled. -/
def create_limit_order (fuel : ℕ) (st : ModState) (sender : ℕ) (base quote : HashData)
    (otype : OrderType) (price sell_amount : ℕ) : Except (String × ModState) ModState :=
  match ensure_trade_pair st base quote with
  | .error e => Except.error (e, st)
  | .ok tp =>
  match ensure_bonds price sell_amount with
  | .error e => Except.error (e, st)
  | .ok _ =>
  match ensure_counterparty_amount_bonds otype price sell_amount with
  | .error e => Except.error (e, st)
  | .ok buy_amount =>
  let op_token_hash := match otype with | .Buy => base | .Sell => quote
  let order := LimitOrder.new base quote sender price sell_amount buy_amount otype st.seed
  let hash := order.hash
  match ensure_free_balance st sender op_token_hash sell_amount with
  | .error e => Except.error (e, st)
  | .ok _ =>
  match do_freeze st sender op_token_hash sell_amount with
  | .error e => Except.error e
  | .ok st =>
  let st := { st with orders := fupd st.orders hash (some order) }
  let owned_index := st.ownedOrdersIndex sender
  let st := { st with
    ownedOrders := fupd st.ownedOrders (sender, owned_index) (some hash),
    ownedOrdersIndex := fupd st.ownedOrdersIndex sender (owned_index + 1) }
  let tp_owned_index := st.tpOwnedOrdersIndex tp
  let st := { st with
    tpOwnedOrders := fupd st.tpOwnedOrders (tp, tp_owned_index) (some hash),
    tpOwnedOrdersIndex := fupd st.tpOwnedOrdersIndex tp (tp_owned_index + 1) }
  match order_match fuel st tp order with
  | .error e => Except.error e
  | .ok (filled, st) =>
      if filled then Except.ok st
      else Except.ok (setStore st tp (append fuel (st.store tp) price hash otype))

/-- `do_create_trade_pair` from `trade.rs`. -/
def do_create_trade_pair (st : ModState) (sender : ℕ) (base quote : HashData) :
    Except (String × ModState) ModState :=
  if base = quote then Except.error ("base can not equal to quote", st)
  else
    match st.tokenOwner base, st.tokenOwner quote with
    | some base_owner, some quote_owner =>
        if sender = base_owner ∨ sender = quote_owner then
          match st.pairHashByBQ (base, quote), st.pairHashByBQ (quote, base) with
          | none, none =>
              let nonce := st.nonce
              let hash := HashData.pairH base quote nonce sender st.seed
              let tp : TradePair := { hash := hash, base := base, quote := quote }
              Except.ok { st with
                nonce := nonce + 1,
                pairs := fupd st.pairs hash (some tp),
                pairHashByBQ := fupd st.pairHashByBQ (base, quote) (some hash) }
          | _, _ => Except.error ("", st)
        else Except.error ("", st)
    | _, _ => Except.error ("", st)

/-- The kind of a hash-creating event. -/
inductive CKind where
  | pair : CKind
  | ord : CKind
  | trade : CKind
deriving DecidableEq

/-- A hash-creating operation: `do_create_trade_pair`, `LimitOrder::new`, or
`Trade::new` (the latter given as the raw data it hashes). -/
inductive COp where
  | pairOp : ℕ → HashData → HashData → COp
  | orderOp : HashData → HashData → ℕ → ℕ → ℕ → ℕ → OrderType → COp
  | tradeOp : HashData → HashData → LimitOrder → LimitOrder → ℕ → ℕ → COp

/-- Run a sequence of hash-creating operations, logging for every hash
actually created the creation kind, the hash, and the value of the global
nonce at the moment of creation. -/
def runCreations : List COp → ModState → ModState × List (CKind × HashData × ℕ)
  | [], st => (st, [])
  | op :: rest, st =>
      match op with
      | .pairOp sender base quote =>
          match do_create_trade_pair st sender base quote with
          | .error e =>
              runCreations rest e.2
          | .ok st2 =>
              let h := HashData.pairH base quote st.nonce sender st.seed
              let r := runCreations rest st2
              (r.1, (CKind.pair, h, st.nonce) :: r.2)
      | .orderOp base quote owner price sell buy ot =>
          let o := LimitOrder.new base quote owner price sell buy ot st.seed
          let r := runCreations rest st
          (r.1, (CKind.ord, o.hash, st.nonce) :: r.2)
      | .tradeOp base quote maker taker bAmt qAmt =>
          let t := TradeRec.new base quote maker taker bAmt qAmt st.nonce st.seed
          let st2 := { st with nonce := st.nonce + 1 }
          let r := runCreations rest st2
          (r.1, (CKind.trade, t.hash, st.nonce) :: r.2)

/-- The nonce values logged at pair- and trade-hash creations (order
creations excluded). -/
def pairTradeNonces (log : List (CKind × HashData × ℕ)) : List ℕ :=
  (log.filter (fun e => decide (e.1 ≠ CKind.ord))).map (fun e => e.2.2)

/-- The nonce values logged at all hash creations. -/
def allNonces (log : List (CKind × HashData × ℕ)) : List ℕ :=
  log.map (fun e => e.2.2)

/-- The empty per-pair ladder slice. -/
def emptyStore : Store := fun _ => none

/-- The ladder slice of a freshly initialised trade pair: the state written
by `read_head`'s lazy initialisation on first access. -/
def ladderInit : Store := (read_head emptyStore).2

/-- The least element of `l` above `p` (for a sorted `l`). -/
def succAbove (l : List ℕ) (p : ℕ) : Option ℕ := (l.filter (fun x => p < x)).head?

/-- The greatest element of `l` below `p` (for a sorted `l`). -/
def predBelow (l : List ℕ) (p : ℕ) : Option ℕ := (l.filter (fun x => x < p)).getLast?

/-- The `next` pointer of the canonically-shaped ladder with buy levels
`buys` and sell levels `sells` (both sorted ascending): Bottom chains through
the buys to Head (key `none`), Head chains through the sells to Top, and Top
wraps to Bottom. -/
def lnext (buys sells : List ℕ) : Option ℕ → Option ℕ
  | none =>
      match sells.head? with
      | some s => some s
      | none => some pmax
  | some p =>
      if p = pmax then some pmin
      else if p ∈ sells then
        match succAbove sells p with
        | some s => some s
        | none => some pmax
      else
        match succAbove buys p with
        | some b => some b
        | none => none

/-- The `prev` pointer of the canonically-shaped ladder. -/
def lprev (buys sells : List ℕ) : Option ℕ → Option ℕ
  | none =>
      match buys.getLast? with
      | some b => some b
      | none => some pmin
  | some p =>
      if p = pmin then some pmax
      else if p = pmax then
        match sells.getLast? with
        | some s => some s
        | none => none
      else if p ∈ buys then
        match predBelow buys p with
        | some b => some b
        | none => some pmin
      else
        match predBelow sells p with
        | some s => some s
        | none => none

/-- Whether `k` is a key of the canonically-shaped ladder. -/
def inKeys (buys sells : List ℕ) : Option ℕ → Bool
  | none => true
  | some p => decide (p = pmin) || decide (p = pmax) || decide (p ∈ buys) || decide (p ∈ sells)

/-- The record of the canonically-shaped ladder at key `k`. -/
def lnode (buys sells : List ℕ) (q : Option ℕ → List HashData) (k : Option ℕ) : Item :=
  { price := k, next := lnext buys sells k, prev := lprev buys sells k, orders := q k }

/-- The canonically-shaped ladder store: the three sentinels plus one level
per price in `buys`/`sells`, doubly linked in ascending order per side, with
FIFO queues given by `q`. -/
def ladderStore (buys sells : List ℕ) (q : Option ℕ → List HashData) : Store :=
  fun k => if inKeys buys sells k then some (lnode buys sells q k) else none

/-- The ladder key of the node holding the last element of a buy-side
segment: Bottom when the segment is empty. -/
def lastKeyB (l : List ℕ) : Option ℕ :=
  match l.getLast? with
  | some x => some x
  | none => some pmin

/-- The ladder key following a sell-side segment: Top when the segment is
empty. -/
def headKeyS (l : List ℕ) : Option ℕ :=
  match l.head? with
  | some x => some x
  | none => some pmax

/-- Sorted insertion of a new price into one side's level list. -/
def insertSorted (p : ℕ) : List ℕ → List ℕ
  | [] => [p]
  | x :: xs => if p < x then p :: x :: xs else x :: insertSorted p xs

/-- Collect the keys on the `next` chain starting at `k`, stopping at Top. -/
def nextChain (s : Store) : ℕ → Option ℕ → List (Option ℕ)
  | 0, _ => []
  | fuel + 1, k =>
      k :: (match s k with
        | none => []
        | some it => if k = some pmax then [] else nextChain s fuel it.next)

/-- Collect the keys on the `prev` chain starting at `k`, stopping at Bottom. -/
def prevChain (s : Store) : ℕ → Option ℕ → List (Option ℕ)
  | 0, _ => []
  | fuel + 1, k =>
      k :: (match s k with
        | none => []
        | some it => if k = some pmin then [] else prevChain s fuel it.prev)

/-- The prices seen along a chain (the Head sentinel carries none). -/
def chainPrices (l : List (Option ℕ)) : List ℕ := l.filterMap id

/-- A raw ladder operation: an `append` or a `remove_item` (the latter seen
against whatever `Orders` map is current at call time). -/
inductive LOp where
  | appendOp : ℕ → HashData → OrderType → LOp
  | removeOp : OrdersMap → ℕ → LOp

/-- Run a sequence of ladder operations (each `append` walk gets `fuel`). -/
def runLOps (fuel : ℕ) : List LOp → Store → Store
  | [], s => s
  | op :: rest, s =>
      match op with
      | .appendOp p h ot => runLOps fuel rest (append fuel s p h ot)
      | .removeOp om p => runLOps fuel rest (remove_item om s p).1

/-- A ladder operation avoids the sentinel keys when removing. -/
def LOp.nonSentinel : LOp → Prop
  | .appendOp _ _ _ => True
  | .removeOp _ p => p ≠ pmin ∧ p ≠ pmax

/-- Well-formedness of one canonical ladder shape: both sides sorted
strictly, no level at a sentinel price, sides disjoint. -/
def GoodLadder (buys sells : List ℕ) : Prop :=
  List.Pairwise (· < ·) buys ∧ List.Pairwise (· < ·) sells ∧
    (∀ p ∈ buys, p ≠ pmin ∧ p ≠ pmax) ∧ (∀ p ∈ sells, p ≠ pmin ∧ p ≠ pmax) ∧
    (∀ p ∈ buys, p ∉ sells)

/-- A base token hash. -/
def tok1 : HashData := .token 1

/-- A quote token hash. -/
def tok2 : HashData := .token 2

/-- The all-empty module state (every map empty, every balance zero). -/
def zeroState : ModState :=
  { store := fun _ => emptyStore
    orders := fun _ => none
    pairs := fun _ => none
    pairHashByBQ := fun _ => none
    ownedOrdersIndex := fun _ => 0
    ownedOrders := fun _ => none
    tpOwnedOrdersIndex := fun _ => 0
    tpOwnedOrders := fun _ => none
    trades := fun _ => none
    ownedTrades := fun _ => none
    ownedTPTrades := fun _ => none
    tpOwnedTrades := fun _ => none
    orderOwnedTrades := fun _ => none
    nonce := 0
    free := fun _ => 0
    frozen := fun _ => 0
    tokenOwner := fun _ => none
    seed := 0 }

/-- Start state of the crossed-book scenario: Alice (10) owns the base token
with a huge free balance, Bob (20) owns the quote token. -/
def c8Start : ModState :=
  { zeroState with
    tokenOwner := fun h => if h = tok1 then some 10 else if h = tok2 then some 20 else none
    free := fun a => if a = (10, tok1) then pmax else if a = (20, tok2) then 10000000 else 0 }

/-- The pair hash created by `do_create_trade_pair` in the scenario. -/
def c8TpHash : HashData := .pairH tok1 tok2 0 10 0

/-- The crossed-book scenario: create the pair, submit a Buy limit order at
`price = Price::max_value()`, then a Sell limit order at price 10. -/
def c8Run : Except (String × ModState) ModState :=
  match do_create_trade_pair c8Start 10 tok1 tok2 with
  | .error e => Except.error e
  | .ok st1 =>
      match create_limit_order 10 st1 10 tok1 tok2 OrderType.Buy pmax pmax with
      | .error e => Except.error e
      | .ok st2 => create_limit_order 10 st2 20 tok1 tok2 OrderType.Sell 10 10000000

/-- The Buy order's hash in the crossed-book scenario. -/
def c8BuyHash : HashData := .orderH tok1 tok2 pmax pmax 100000000 10 0

/-- The Sell order's hash in the crossed-book scenario. -/
def c8SellHash : HashData := .orderH tok1 tok2 10 10000000 1 20 0

/-- The registered pair hash of the precision-loss scenario. -/
def c9TpHash : HashData := .pairH tok1 tok2 0 10 0

/-- Start state of the precision-loss scenario: the pair (tok1, tok2) is
registered. -/
def c9Start : ModState :=
  { zeroState with
    pairHashByBQ := fun k => if k = (tok1, tok2) then some c9TpHash else none
    pairs := fun h => if h = c9TpHash then some { hash := c9TpHash, base := tok1, quote := tok2 } else none }

/-- Pair hash for the canceled-maker scenario. -/
def c10TpHash : HashData := .pairH tok1 tok2 0 10 0

/-- Hash of the canceled resting maker order. -/
def c10MakerHash : HashData := .orderH tok1 tok2 100000000 10 10 20 0

/-- A canceled Sell maker order resting at price `10^8` with nonzero
remaining amounts. -/
def c10Maker : LimitOrder :=
  { hash := c10MakerHash, base := tok1, quote := tok2, owner := 20, price := 100000000
    sell_amount := 10, remained_sell_amount := 10, buy_amount := 10, remained_buy_amount := 10
    otype := OrderType.Sell, status := OrderStatus.Canceled }

/-- Hash of the Buy taker order in the canceled-maker scenario. -/
def c10TakerHash : HashData := .orderH tok1 tok2 100000000 10 10 10 0

/-- The fresh Buy taker order in the canceled-maker scenario. -/
def c10Taker : LimitOrder :=
  { hash := c10TakerHash, base := tok1, quote := tok2, owner := 10, price := 100000000
    sell_amount := 10, remained_sell_amount := 10, buy_amount := 10, remained_buy_amount := 10
    otype := OrderType.Buy, status := OrderStatus.Created }

/-- Ladder slice of the canceled-maker scenario: one sell level at `10^8`
holding the canceled maker. -/
def c10Sub : Store := fun k =>
  if k = none then some { price := none, next := some 100000000, prev := some pmin, orders := [] }
  else if k = some pmin then some bottomItem
  else if k = some pmax then some { price := some pmax, next := some pmin, prev := some 100000000, orders := [] }
  else if k = some 100000000 then
    some { price := some 100000000, next := some pmax, prev := none, orders := [c10MakerHash] }
  else none

/-- Start state of the canceled-maker scenario: the pair exists, the maker
rests in the ladder, and both parties hold the frozen funds the matcher will
unfreeze. -/
def c10Start : ModState :=
  { zeroState with
    store := fun h => if h = c10TpHash then c10Sub else emptyStore
    orders := fun h =>
      if h = c10MakerHash then some c10Maker
      else if h = c10TakerHash then some c10Taker else none
    pairs := fun h => if h = c10TpHash then some { hash := c10TpHash, base := tok1, quote := tok2 } else none
    frozen := fun a => if a = (10, tok1) then 10 else if a = (20, tok2) then 10 else 0 }

/-- Running the matcher for the Buy taker against the canceled maker. -/
def c10Run : Except (String × ModState) (Bool × ModState) :=
  order_match 10 c10Start c10TpHash c10Taker

/-- Maker order of the 64-bit rounding counterexample: Sell resting at price
`10^8` still owed `2^40` base units. -/
def c3Maker : LimitOrder :=
  { hash := .token 30, base := tok1, quote := tok2, owner := 20, price := 100000000
    sell_amount := 2 ^ 40, remained_sell_amount := 2 ^ 40
    buy_amount := 2 ^ 40, remained_buy_amount := 2 ^ 40
    otype := OrderType.Sell, status := OrderStatus.PartialFilled }

/-- Buy taker with enough budget to cover the maker of the 64-bit rounding
counterexample. -/
def c3Taker : LimitOrder :=
  { hash := .token 31, base := tok1, quote := tok2, owner := 10, price := 100000000
    sell_amount := 2 ^ 40, remained_sell_amount := 2 ^ 40
    buy_amount := 2 ^ 40, remained_buy_amount := 2 ^ 40
    otype := OrderType.Buy, status := OrderStatus.Created }

/-- Maker order of the 64-bit overflow counterexample: Sell at price 3 still
owed `2^61` base units (`2^61 · 10^8` is a multiple of `2^64`). -/
def c4Maker : LimitOrder :=
  { hash := .token 40, base := tok1, quote := tok2, owner := 20, price := 3
    sell_amount := 2 ^ 61, remained_sell_amount := 2 ^ 61
    buy_amount := 2 ^ 61, remained_buy_amount := 2 ^ 61
    otype := OrderType.Sell, status := OrderStatus.PartialFilled }

/-- Buy taker of the 64-bit overflow counterexample. -/
def c4Taker : LimitOrder :=
  { hash := .token 41, base := tok1, quote := tok2, owner := 10, price := 3
    sell_amount := 2 ^ 61, remained_sell_amount := 2 ^ 61
    buy_amount := 2 ^ 61, remained_buy_amount := 2 ^ 61
    otype := OrderType.Buy, status := OrderStatus.Created }

/-- A finished resting order (Filled with nothing left to buy). -/
def c5Fin : LimitOrder :=
  { hash := .token 100, base := tok1, quote := tok2, owner := 20, price := 18
    sell_amount := 5, remained_sell_amount := 0, buy_amount := 5, remained_buy_amount := 0
    otype := OrderType.Sell, status := OrderStatus.Filled }

/-- A non-finished resting order. -/
def c5Unf : LimitOrder :=
  { hash := .token 101, base := tok1, quote := tok2, owner := 20, price := 18
    sell_amount := 7, remained_sell_amount := 7, buy_amount := 7, remained_buy_amount := 7
    otype := OrderType.Sell, status := OrderStatus.Created }

/-- Orders map of the partial-pop scenario. -/
def c5OM : OrdersMap := fun h =>
  if h = .token 100 then some c5Fin else if h = .token 101 then some c5Unf else none

/-- Ladder slice of the partial-pop scenario: one sell level at price 18
whose FIFO queue is a finished order followed by a non-finished one. -/
def c5Store : Store := fun k =>
  if k = none then some { price := none, next := some 18, prev := some pmin, orders := [] }
  else if k = some pmin then some bottomItem
  else if k = some pmax then some { price := some pmax, next := some pmin, prev := some 18, orders := [] }
  else if k = some 18 then
    some { price := some 18, next := some pmax, prev := none, orders := [.token 100, .token 101] }
  else none

/-- The head item used to refute the claimed candidate direction. -/
def c1Head : Item := { price := none, next := some 7, prev := some 3, orders := [] }

/-- A small maker order at price 3 for the rounding-law witness. -/
def c3WitMaker : LimitOrder :=
  { hash := .token 32, base := tok1, quote := tok2, owner := 20, price := 3
    sell_amount := 10, remained_sell_amount := 10, buy_amount := 10, remained_buy_amount := 10
    otype := OrderType.Sell, status := OrderStatus.Created }

/-- A small Buy taker covering `c3WitMaker` for the rounding-law witness. -/
def c3WitTaker : LimitOrder :=
  { hash := .token 33, base := tok1, quote := tok2, owner := 10, price := 5
    sell_amount := 100, remained_sell_amount := 100, buy_amount := 100, remained_buy_amount := 100
    otype := OrderType.Buy, status := OrderStatus.Created }

/-- A properly finished maker order (Filled, both remaining amounts zero). -/
def c10FilledMaker : LimitOrder :=
  { hash := .token 50, base := tok1, quote := tok2, owner := 20, price := 5
    sell_amount := 10, remained_sell_amount := 0, buy_amount := 10, remained_buy_amount := 0
    otype := OrderType.Sell, status := OrderStatus.Filled }

/-- A state holding only the finished maker order. -/
def c10WitState : ModState :=
  { zeroState with orders := fun h => if h = .token 50 then some c10FilledMaker else none }

/-- The seller among maker and taker, as `calculate_ex_amount` identifies it. -/
def sellerOf (maker_order taker_order : LimitOrder) : LimitOrder :=
  if taker_order.otype = OrderType.Buy then maker_order else taker_order

/-- The buyer among maker and taker, as `calculate_ex_amount` identifies it. -/
def buyerOf (maker_order taker_order : LimitOrder) : LimitOrder :=
  if taker_order.otype = OrderType.Buy then taker_order else maker_order

/-- The module state carried by a match-step outcome, successful or not. -/
def stateOf : Except (String × ModState) (LimitOrder × ModState) → ModState
  | .ok (_, s) => s
  | .error (_, s) => s

/-- The final state of the crossed-book scenario, when it succeeds. -/
def c8State : Option ModState := c8Run.toOption

end Dex

deriving instance DecidableEq for Except

namespace Dex

/-- Claim C1, counterexample: in `order_match`'s loop the candidate price is
`Self::next_match_price(&head, !otype)`; for a Buy taker and the concrete
head `c1Head` (prev = 3, next = 7) the candidate is `head.next = 7`, not
`head.prev = 3` as the claim states. -/
theorem claim1_counterexample :
    orderMatchCandidate c1Head OrderType.Buy ≠ c1Head.prev ∧
      orderMatchCandidate c1Head OrderType.Buy = c1Head.next ∧
      c1Head.prev = some 3 ∧ c1Head.next = some 7 := by
  decide

/-- Claim C1, amended: on every iteration of `order_match`'s loop the
candidate price is `head.next` for a Buy taker and `head.prev` for a Sell
taker (the source applies `next_match_price` to `!otype`), and the loop
exits when the candidate equals the end sentinel price, `PMIN` for a Buy
taker and `PMAX` for a Sell taker. -/
theorem claim1_amended (tpHash : HashData) (tp : TradePair) (give hv : HashData)
    (otype : OrderType) (oprice fuel : ℕ) (order : LimitOrder) (head : Item) (st : ModState)
    (hst : order.status ≠ OrderStatus.Filled)
    (hc : orderMatchCandidate head otype = endItemPrice otype) :
    orderMatchGo tpHash tp give hv otype oprice (fuel + 1) order head st = Except.ok (order, st) ∧
      orderMatchCandidate head otype = (if otype = OrderType.Buy then head.next else head.prev) ∧
      endItemPrice otype = (if otype = OrderType.Buy then some pmin else some pmax) := by
  refine ⟨?_, ?_, ?_⟩
  · have hc2 : next_match_price head otype.not = endItemPrice otype := hc
    simp only [orderMatchGo, if_neg hst, hc2, if_pos rfl]
    simp
  · cases otype <;> simp [orderMatchCandidate, next_match_price, OrderType.not]
  · cases otype <;> simp [endItemPrice]

/-- Claim C1, amended, witness at a concrete loop state. -/
theorem claim1_amended_witness :
    orderMatchGo c9TpHash { hash := c9TpHash, base := tok1, quote := tok2 } tok1 tok2
        OrderType.Buy 5 (3 + 1) c10Taker { price := none, next := some pmin, prev := some 4, orders := [] }
        zeroState = Except.ok (c10Taker, zeroState) ∧
      orderMatchCandidate { price := none, next := some pmin, prev := some 4, orders := [] }
          OrderType.Buy =
        (if OrderType.Buy = OrderType.Buy then (some pmin : Option ℕ) else some 4) ∧
      endItemPrice OrderType.Buy = (if OrderType.Buy = OrderType.Buy then some pmin else some pmax) :=
  claim1_amended c9TpHash { hash := c9TpHash, base := tok1, quote := tok2 } tok1 tok2
    OrderType.Buy 5 3 c10Taker { price := none, next := some pmin, prev := some 4, orders := [] }
    zeroState (by decide) (by decide)

/-- Claim C2, counterexample: the raw ladder operations do not keep the
whole Bottom-to-Top chain strictly increasing.  Appending a Sell at 10 and
then a Buy at 20 on a freshly initialised pair yields the next-chain
Bottom, 20, Head, 10, Top, whose price sequence 0, 20, 10, PMAX is not
strictly increasing; and `remove_item` invoked at the Bottom sentinel's
price deletes the Bottom record outright. -/
theorem claim2_counterexample :
    (nextChain (runLOps 5 [LOp.appendOp 10 (.token 7) OrderType.Sell,
        LOp.appendOp 20 (.token 8) OrderType.Buy] ladderInit) 10 (some pmin) =
      [some 0, some 20, none, some 10, some pmax] ∧
      ¬ List.Chain' (· < ·)
        (chainPrices [some 0, some 20, none, some 10, some pmax])) ∧
      (remove_item (fun _ => none) ladderInit pmin).1 (some pmin) = none := by
  refine ⟨⟨by decide, ?_⟩, by decide⟩
  have hcp : chainPrices [some 0, some 20, none, some 10, some pmax] = [0, 20, 10, pmax] := by
    decide
  rw [hcp]
  simp [List.chain'_cons]

/-- Claim C3, counterexample: `calculate_ex_amount` computes the quote leg
in 64-bit arithmetic; for a maker at price `10^8` owed `2^40` base units the
product `2^40 · 10^8` wraps at `2^64` and the returned quote leg
177174424091 differs from `ceil(2^40 · 10^8 / 10^8) = 2^40`; the `+1`
ceiling bump fires even though the exact division has remainder zero. -/
theorem claim3_counterexample :
    calculate_ex_amount c3Maker c3Taker = Except.ok (2 ^ 40, 177174424091) ∧
      (sellerOf c3Maker c3Taker).remained_buy_amount = 2 ^ 40 ∧
      (sellerOf c3Maker c3Taker).remained_buy_amount ≤ (buyerOf c3Maker c3Taker).remained_sell_amount ∧
      ceilDiv ((sellerOf c3Maker c3Taker).remained_buy_amount * price_factor) c3Maker.price = 2 ^ 40 ∧
      (sellerOf c3Maker c3Taker).remained_buy_amount * price_factor % c3Maker.price = 0 ∧
      (177174424091 : ℕ) ≠ 2 ^ 40 := by
  decide

/-- Claim C4, counterexample: the quantity arithmetic of
`calculate_ex_amount` is 64-bit, not 256-bit; at maker price 3 with
`2^61` base units owed (an admissible 128-bit amount and 64-bit price), the
product `2^61 · 10^8` is a multiple of `2^64`, wraps to zero, and the
function returns quote leg 1 where exact (widened) arithmetic returns
76861433640456465066666667. -/
theorem claim4_counterexample :
    calculate_ex_amount c4Maker c4Taker ≠ calculate_ex_amount_exact c4Maker c4Taker ∧
      calculate_ex_amount c4Maker c4Taker = Except.ok (2 ^ 61, 1) ∧
      calculate_ex_amount_exact c4Maker c4Taker = Except.ok (2 ^ 61, 76861433640456465066666667) ∧
      c4Maker.remained_buy_amount ≤ balanceMax ∧ c4Maker.price ≤ pmax := by
  decide

/-- Claim C5, counterexample: `remove_item` on a level whose queue holds a
finished order followed by a non-finished one fails with the
try-to-remove-unfinished error, but the finished order has already been
popped and the write persists: the level's queue afterwards is the single
remaining order, not the original queue. -/
theorem claim5_counterexample :
    (remove_item c5OM c5Store 18).2 = some "try to remove not finished order" ∧
      ((remove_item c5OM c5Store 18).1 (some 18)).map Item.orders = some [.token 101] ∧
      (c5Store (some 18)).map Item.orders = some [.token 100, .token 101] ∧
      ([HashData.token 101] ≠ [HashData.token 100, HashData.token 101]) := by
  decide

/-- Claim C6, counterexample: on an uninitialised pair, `read_bottom`
returns the Head-shaped record rather than the Bottom sentinel, stores
nothing under the Head key `None`, and a `read` at an arbitrary price key
stores a Head-shaped record under that key. -/
theorem claim6_counterexample :
    (read_bottom emptyStore).1 = headItem ∧ headItem ≠ bottomItem ∧
      (read_bottom emptyStore).2 none = none ∧
      (lread emptyStore (some 5)).2 (some 5) = some headItem := by
  decide

/-- Claim C6, amended: for an uninitialised pair, `read(pair, key)` writes a
Head-shaped record under the requested key, then the Bottom record under
`Some(PMIN)` and the Top record under `Some(PMAX)` (overwriting the first
write when the key collides), and always returns the Head-shaped record —
only `read_head` creates exactly the three sentinels and returns the record
its key requests. -/
theorem claim6_amended (s : Store) (k : Option ℕ) (h : s k = none) :
    lread s k = (headItem, fun k2 =>
      if k2 = some pmax then some topItem
      else if k2 = some pmin then some bottomItem
      else if k2 = k then some headItem else s k2) := by
  simp only [lread, h]
  rfl

/-- Claim C6, amended, witness at key `Some 3` of the empty store. -/
theorem claim6_amended_witness :
    lread emptyStore (some 3) = (headItem, fun k2 =>
      if k2 = some pmax then some topItem
      else if k2 = some pmin then some bottomItem
      else if k2 = some 3 then some headItem else emptyStore k2) :=
  claim6_amended emptyStore (some 3) rfl

/-- Claim C7, counterexample: `LimitOrder::new` neither reads nor increments
the nonce: two successive order creations are both logged at nonce 0 (not
strictly increasing), and an order hash contains no nonce at all. -/
theorem claim7_counterexample :
    allNonces (runCreations [COp.orderOp tok1 tok2 10 18 100 555 OrderType.Buy,
        COp.orderOp tok1 tok2 10 18 100 555 OrderType.Buy] zeroState).2 = [0, 0] ∧
      ¬ List.Chain' (· < ·) ([0, 0] : List ℕ) ∧
      (runCreations [COp.orderOp tok1 tok2 10 18 100 555 OrderType.Buy,
        COp.orderOp tok1 tok2 10 18 100 555 OrderType.Buy] zeroState).2.map
          (fun e => HashData.nonceOf e.2.1) = [none, none] := by
  refine ⟨by decide, ?_, by decide⟩
  simp [List.chain'_cons]

/-- Claim C8: a successful `create_limit_order` can leave the book crossed.
A Buy at `price = Price::max_value()` is appended into the Top sentinel's
own queue (the level at `Some(PMAX)` already exists, so `append` just
pushes); a later Sell resting at price 10 then coexists with that
unfinished Buy at PMAX: the highest resting buy price (PMAX) exceeds the
lowest sell price (10) after both calls returned Ok. -/
theorem claim8_crossed_book :
    c8State.map (fun st => (st.store c8TpHash (some pmax)).map Item.orders) =
        some (some [c8BuyHash]) ∧
      c8State.map (fun st => (st.store c8TpHash (some 10)).map Item.orders) =
        some (some [c8SellHash]) ∧
      c8State.map (fun st => (st.orders c8BuyHash).map LimitOrder.status) =
        some (some OrderStatus.Created) ∧
      c8State.map (fun st => (st.orders c8BuyHash).map LimitOrder.price) = some (some pmax) ∧
      c8State.map (fun st => (st.orders c8BuyHash).map LimitOrder.otype) =
        some (some OrderType.Buy) ∧
      c8State.map (fun st => (st.orders c8SellHash).map LimitOrder.status) =
        some (some OrderStatus.Created) ∧
      c8State.map (fun st => (st.orders c8SellHash).map LimitOrder.price) = some (some 10) ∧
      10 < pmax := by
  decide

/-- Claim C9: with `price_factor = 10^8`, a Sell at price 3 and
`sell_amount = 1` computes counterparty `1·3/10^8 = 0` and
`ensure_counterparty_amount_bonds` rejects it (round-trip failure), so
`create_limit_order` fails before any storage write: the returned state is
exactly the input state. -/
theorem claim9_precision_loss :
    create_limit_order 10 c9Start 20 tok1 tok2 OrderType.Sell 3 1 =
        Except.error ("amount have digits parts", c9Start) ∧
      ensure_counterparty_amount_bonds OrderType.Sell 3 1 =
        Except.error "amount have digits parts" ∧
      1 * 3 % u256Mod / price_factor = 0 := by
  refine ⟨rfl, by decide, by decide⟩

/-- Claim C4, amended: `ensure_counterparty_amount_bonds` first narrows the
128-bit amount to 64 bits (`amount.as_()`, line 508) and only then forms its
products in `U256`; on the narrowed operands none of the four products
reaches `2^256`, and whenever the amount fits in 64 bits the function agrees
with its exact-integer counterpart — while an amount of `2^64 + 10^8` at
price `10^8` is silently truncated to `10^8` and accepted where exact
arithmetic rejects it.  The multiplications of `calculate_ex_amount`, by
contrast, are 64-bit and wrap (the counterexample). -/
theorem claim4_amended (otype : OrderType) (price amount : ℕ)
    (hp : price ≤ pmax) (ha : amount < u64Mod) :
    (amount % u64Mod * price_factor < u256Mod ∧
      amount % u64Mod * price < u256Mod ∧
      amount % u64Mod * price_factor % u256Mod / price * price < u256Mod ∧
      amount % u64Mod * price % u256Mod / price_factor * price_factor < u256Mod) ∧
    ensure_counterparty_amount_bonds otype price amount =
      ensure_counterparty_amount_bonds_exact otype price amount ∧
    ensure_counterparty_amount_bonds OrderType.Buy (10 ^ 8) (2 ^ 64 + 10 ^ 8) =
      Except.ok (10 ^ 8) ∧
    ensure_counterparty_amount_bonds_exact OrderType.Buy (10 ^ 8) (2 ^ 64 + 10 ^ 8) =
      Except.error "counterparty bound check failed" := by
  have hmod : amount % u64Mod = amount := Nat.mod_eq_of_lt ha
  have h1 : amount * price_factor < u256Mod := by
    calc amount * price_factor ≤ u64Mod * price_factor :=
          Nat.mul_le_mul_right _ (Nat.le_of_lt ha)
      _ < u256Mod := by decide
  have h1b : amount * price < u256Mod := by
    calc amount * price ≤ u64Mod * pmax := Nat.mul_le_mul (Nat.le_of_lt ha) hp
      _ < u256Mod := by decide
  have h2 : amount * price_factor / price * price < u256Mod :=
    lt_of_le_of_lt (Nat.div_mul_le_self _ _) h1
  have h2b : amount * price / price_factor * price_factor < u256Mod :=
    lt_of_le_of_lt (Nat.div_mul_le_self _ _) h1b
  refine ⟨⟨?_, ?_, ?_, ?_⟩, ?_, by decide, by decide⟩
  · rw [hmod]
    exact h1
  · rw [hmod]
    exact h1b
  · rw [hmod, Nat.mod_eq_of_lt h1]
    exact h2
  · rw [hmod, Nat.mod_eq_of_lt h1b]
    exact h2b
  · cases otype with
    | Buy =>
        simp only [ensure_counterparty_amount_bonds, ensure_counterparty_amount_bonds_exact,
          hmod, Nat.mod_eq_of_lt h1, Nat.mod_eq_of_lt h2]
    | Sell =>
        simp only [ensure_counterparty_amount_bonds, ensure_counterparty_amount_bonds_exact,
          hmod, Nat.mod_eq_of_lt h1b, Nat.mod_eq_of_lt h2b]

/-- Claim C4, amended, witness: the theorem instantiated at a concrete
admissible Buy conversion (price 3, amount 1000). -/
theorem claim4_amended_witness :
    (1000 % u64Mod * price_factor < u256Mod ∧
      1000 % u64Mod * 3 < u256Mod ∧
      1000 % u64Mod * price_factor % u256Mod / 3 * 3 < u256Mod ∧
      1000 % u64Mod * 3 % u256Mod / price_factor * price_factor < u256Mod) ∧
    ensure_counterparty_amount_bonds OrderType.Buy 3 1000 =
      ensure_counterparty_amount_bonds_exact OrderType.Buy 3 1000 ∧
    ensure_counterparty_amount_bonds OrderType.Buy (10 ^ 8) (2 ^ 64 + 10 ^ 8) =
      Except.ok (10 ^ 8) ∧
    ensure_counterparty_amount_bonds_exact OrderType.Buy (10 ^ 8) (2 ^ 64 + 10 ^ 8) =
      Except.error "counterparty bound check failed" :=
  claim4_amended OrderType.Buy 3 1000 (by decide) (by decide)

/-- Claim C3, amended: when the seller's need is coverable and the u64
quantity arithmetic does not overflow (`S.remained_buy_amount · price_factor
< 2^64`, maker price positive), `calculate_ex_amount` returns base leg
`S.remained_buy_amount` and quote leg
`ceil(S.remained_buy_amount · price_factor / M.price)`, the ceiling bump
firing exactly when the division has a nonzero remainder. -/
theorem quoteQty2_spec (s p : ℕ) (hs : s * price_factor < u64Mod) (hp : 0 < p) :
    (if s % u64Mod * price_factor % u64Mod / p * p % u64Mod / price_factor ≠ s % u64Mod
      then (s % u64Mod * price_factor % u64Mod / p + 1) % u64Mod
      else s % u64Mod * price_factor % u64Mod / p) = ceilDiv (s * price_factor) p := by
  have hpf0 : 0 < price_factor := by decide
  have hu64 : u64Mod = 18446744073709551616 := by decide
  have hslt : s < u64Mod := by
    have := Nat.le_mul_of_pos_right s hpf0
    omega
  rw [Nat.mod_eq_of_lt hslt, Nat.mod_eq_of_lt hs]
  have hqp : s * price_factor / p * p ≤ s * price_factor := Nat.div_mul_le_self _ _
  rw [Nat.mod_eq_of_lt (show s * price_factor / p * p < u64Mod by omega)]
  by_cases hr : s * price_factor % p = 0
  · have hqc : s * price_factor / p * p = s * price_factor :=
      Nat.div_mul_cancel (Nat.dvd_of_mod_eq_zero hr)
    rw [hqc, Nat.mul_div_cancel s hpf0]
    simp [ceilDiv, hr]
  · have hmod := Nat.div_add_mod (s * price_factor) p
    have hrlt : s * price_factor % p < p := Nat.mod_lt _ hp
    have hv2lt : s * price_factor / p * p / price_factor < s := by
      rw [Nat.div_lt_iff_lt_mul hpf0, Nat.mul_comm (s * price_factor / p) p]
      omega
    rw [if_pos (Nat.ne_of_lt hv2lt)]
    have hp1 : p ≠ 1 := by
      intro h1; rw [h1] at hr; exact hr (Nat.mod_one _)
    have h2q : 2 * (s * price_factor / p) ≤ p * (s * price_factor / p) :=
      Nat.mul_le_mul_right _ (by omega)
    have hq1 : s * price_factor / p + 1 < u64Mod := by omega
    rw [Nat.mod_eq_of_lt hq1]
    simp [ceilDiv, hr]

theorem claim3_amended (maker taker : LimitOrder)
    (hcov : (sellerOf maker taker).remained_buy_amount ≤
      (buyerOf maker taker).remained_sell_amount)
    (hs : (sellerOf maker taker).remained_buy_amount * price_factor < u64Mod)
    (hp : 0 < maker.price) :
    calculate_ex_amount maker taker =
      Except.ok ((sellerOf maker taker).remained_buy_amount,
        ceilDiv ((sellerOf maker taker).remained_buy_amount * price_factor) maker.price) ∧
      ((sellerOf maker taker).remained_buy_amount * price_factor % maker.price = 0 →
        ceilDiv ((sellerOf maker taker).remained_buy_amount * price_factor) maker.price =
          (sellerOf maker taker).remained_buy_amount * price_factor / maker.price) ∧
      ((sellerOf maker taker).remained_buy_amount * price_factor % maker.price ≠ 0 →
        ceilDiv ((sellerOf maker taker).remained_buy_amount * price_factor) maker.price =
          (sellerOf maker taker).remained_buy_amount * price_factor / maker.price + 1) := by
  refine ⟨?_, fun h => by simp [ceilDiv, h], fun h => by simp [ceilDiv, h]⟩
  have hq := quoteQty2_spec (sellerOf maker taker).remained_buy_amount maker.price hs hp
  have hcond : (if taker.otype = OrderType.Buy then maker else taker).remained_buy_amount ≤
      (if taker.otype = OrderType.Buy then taker else maker).remained_sell_amount := hcov
  simp only [calculate_ex_amount, if_pos hcond]
  simp only [sellerOf] at hq ⊢
  rw [hq]

/-- Claim C3, amended, witness: maker price 3, seller owed 10 base units
with budget available; the quote leg is `ceil(10 · 10^8 / 3)`. -/
theorem claim3_amended_witness :
    calculate_ex_amount c3WitMaker c3WitTaker =
      Except.ok ((sellerOf c3WitMaker c3WitTaker).remained_buy_amount,
        ceilDiv ((sellerOf c3WitMaker c3WitTaker).remained_buy_amount * price_factor) c3WitMaker.price) ∧
      ((sellerOf c3WitMaker c3WitTaker).remained_buy_amount * price_factor % c3WitMaker.price = 0 →
        ceilDiv ((sellerOf c3WitMaker c3WitTaker).remained_buy_amount * price_factor) c3WitMaker.price =
          (sellerOf c3WitMaker c3WitTaker).remained_buy_amount * price_factor / c3WitMaker.price) ∧
      ((sellerOf c3WitMaker c3WitTaker).remained_buy_amount * price_factor % c3WitMaker.price ≠ 0 →
        ceilDiv ((sellerOf c3WitMaker c3WitTaker).remained_buy_amount * price_factor) c3WitMaker.price =
          (sellerOf c3WitMaker c3WitTaker).remained_buy_amount * price_factor / c3WitMaker.price + 1) :=
  claim3_amended c3WitMaker c3WitTaker (by decide) (by decide) (by decide)

/-- Claim C10, counterexample: a Canceled maker with nonzero remaining
amounts resting in a matched level is mutated by `order_match`: after the
run its stored record has status Filled and zero remaining amounts. -/
theorem claim10_counterexample :
    (match c10Run with
      | .ok r => some (((r.2.orders c10MakerHash).map
          (fun o => (o.status, o.remained_buy_amount, o.remained_sell_amount))), r.1)
      | .error _ => none) = some (some (OrderStatus.Filled, 0, 0), true) ∧
      c10Maker.status = OrderStatus.Canceled ∧ c10Maker.remained_buy_amount = 10 ∧
      OrderStatus.Filled ≠ OrderStatus.Canceled := by
  decide

theorem popOrders_partial (om : OrdersMap) (p : ℕ) (u : HashData) (rest : List HashData)
    (uo : LimitOrder) (hu : om u = some uo) (huf : uo.is_finished = false) :
    ∀ (pre : List HashData) (it : Item) (s : Store),
      (∀ h ∈ pre, ∃ o, om h = some o ∧ o.is_finished = true) →
      (popOrders om p (pre ++ u :: rest) it s).2 = some "try to remove not finished order" ∧
      (popOrders om p (pre ++ u :: rest) it s).1 (some p) =
        (if pre = [] then s (some p) else some { it with orders := u :: rest }) ∧
      ∀ k, k ≠ some p → (popOrders om p (pre ++ u :: rest) it s).1 k = s k := by
  intro pre
  induction pre with
  | nil =>
      intro it s _
      simp [popOrders, hu, huf]
  | cons h0 pre2 ih =>
      intro it s hpre
      obtain ⟨o, ho, hof⟩ := hpre h0 (List.mem_cons_self _ _)
      have hrec := ih { it with orders := pre2 ++ u :: rest }
        (swrite s (some p) { it with orders := pre2 ++ u :: rest })
        (fun x hx => hpre x (List.mem_cons_of_mem _ hx))
      simp only [List.cons_append, popOrders, ho, hof, if_pos, List.append_eq] at hrec ⊢
      refine ⟨hrec.1, ?_, ?_⟩
      · rw [hrec.2.1]
        by_cases hp2 : pre2 = []
        · subst hp2
          simp [swrite]
        · simp [hp2]
      · intro k hk
        rw [hrec.2.2 k hk]
        simp [swrite, hk]

/-- Claim C5, amended: called on a level whose FIFO queue is a run of
finished orders followed by a non-finished one, `remove_item` fails with the
try-to-remove-unfinished error; the finished orders have been popped and
those writes persist (the level's stored queue afterwards starts at the
non-finished order), the level keeps its prev/next links and is not
unlinked, and no other ladder key changes.  (`order_match` additionally
discards the error of its `remove_items` call at line 687, so the failure
does not abort the enclosing call.) -/
theorem claim5_amended (om : OrdersMap) (s : Store) (p : ℕ) (it : Item)
    (pre rest : List HashData) (u : HashData) (uo : LimitOrder)
    (hstore : s (some p) = some it) (horders : it.orders = pre ++ u :: rest)
    (hpre : ∀ h ∈ pre, ∃ o, om h = some o ∧ o.is_finished = true)
    (hu : om u = some uo) (huf : uo.is_finished = false) :
    (remove_item om s p).2 = some "try to remove not finished order" ∧
      (remove_item om s p).1 (some p) = some { it with orders := u :: rest } ∧
      ∀ k, k ≠ some p → (remove_item om s p).1 k = s k := by
  have hpp := popOrders_partial om p u rest uo hu huf pre it s hpre
  simp only [remove_item, hstore, horders]
  rw [hpp.1]
  refine ⟨rfl, ?_, fun k hk => hpp.2.2 k hk⟩
  rw [hpp.2.1]
  by_cases hp0 : pre = []
  · subst hp0
    rw [hstore]
    simp only [List.nil_append] at horders
    cases it
    simp only at horders
    simp [horders]
  · simp [hp0]

/-- Claim C5, amended, witness: the queue [finished, non-finished] at price
18; the failure leaves the queue holding only the non-finished order and all
other keys untouched. -/
theorem claim5_amended_witness :
    (remove_item c5OM c5Store 18).2 = some "try to remove not finished order" ∧
      (remove_item c5OM c5Store 18).1 (some 18) =
        some { price := some 18, next := some pmax, prev := none,
               orders := [HashData.token 101] } ∧
      ∀ k, k ≠ some 18 → (remove_item c5OM c5Store 18).1 k = c5Store k :=
  claim5_amended c5OM c5Store 18
    { price := some 18, next := some pmax, prev := none,
      orders := [HashData.token 100, HashData.token 101] }
    [HashData.token 100] [] (HashData.token 101) c5Unf rfl rfl
    (by
      intro h hh
      simp only [List.mem_singleton] at hh
      subst hh
      exact ⟨c5Fin, rfl, by decide⟩)
    rfl (by decide)

theorem dctp_error (st : ModState) (sender : ℕ) (b q : HashData) (e : String × ModState)
    (h : do_create_trade_pair st sender b q = Except.error e) : e.2 = st := by
  unfold do_create_trade_pair at h
  repeat' split at h
  all_goals first
    | (injection h with h2; rw [← h2])
    | cases h

theorem dctp_ok_nonce (st : ModState) (sender : ℕ) (b q : HashData) (st2 : ModState)
    (h : do_create_trade_pair st sender b q = Except.ok st2) : st2.nonce = st.nonce + 1 := by
  unfold do_create_trade_pair at h
  repeat' split at h
  all_goals first
    | (injection h with h2; rw [← h2])
    | cases h

theorem runCreations_lb (ops : List COp) : ∀ (st : ModState) (e : CKind × HashData × ℕ),
    e ∈ (runCreations ops st).2 → st.nonce ≤ e.2.2 := by
  induction ops with
  | nil =>
      intro st e he
      simp [runCreations] at he
  | cons op rest ih =>
      intro st e he
      cases op with
      | pairOp sender b q =>
          cases hd : do_create_trade_pair st sender b q with
          | error err =>
              simp only [runCreations, hd] at he
              have h2 := ih err.2 e he
              rwa [dctp_error st sender b q err hd] at h2
          | ok st2 =>
              simp only [runCreations, hd, List.mem_cons] at he
              rcases he with rfl | he
              · exact le_refl _
              · have h2 := ih st2 e he
                have h3 := dctp_ok_nonce st sender b q st2 hd
                omega
      | orderOp b q owner price sell buy ot =>
          simp only [runCreations, List.mem_cons] at he
          rcases he with rfl | he
          · exact le_refl _
          · exact ih st e he
      | tradeOp b q mk tk ba qa =>
          simp only [runCreations, List.mem_cons] at he
          rcases he with rfl | he
          · exact le_refl _
          · have h2 := ih { st with nonce := st.nonce + 1 } e he
            simp only at h2
            omega

/-- Claim C7, amended: across every run of the three hash-creating
operations, the nonce values used at pair and trade creations are strictly
increasing, and each pair or trade hash embeds the nonce value it was
created at; limit-order creations do not use the nonce. -/
theorem claim7_amended (ops : List COp) (st : ModState) :
    List.Chain' (· < ·) (pairTradeNonces (runCreations ops st).2) ∧
      ∀ e ∈ (runCreations ops st).2, e.1 ≠ CKind.ord →
        HashData.nonceOf e.2.1 = some e.2.2 := by
  induction ops generalizing st with
  | nil => simp [runCreations, pairTradeNonces]
  | cons op rest ih =>
      cases op with
      | pairOp sender b q =>
          cases hd : do_create_trade_pair st sender b q with
          | error err =>
              simpa only [runCreations, hd] using ih err.2
          | ok st2 =>
              have hih := ih st2
              have hn2 := dctp_ok_nonce st sender b q st2 hd
              constructor
              · simp only [runCreations, hd, pairTradeNonces, List.filter_cons]
                rw [if_pos (show decide (CKind.pair ≠ CKind.ord) = true from rfl)]
                simp only [List.map_cons]
                refine List.chain'_cons'.mpr ⟨?_, ?_⟩
                · intro b2 hb2
                  have hb2mem := List.mem_of_mem_head? hb2
                  obtain ⟨e2, he2, rfl⟩ := List.mem_map.mp hb2mem
                  have he2b := List.mem_of_mem_filter he2
                  have hlb := runCreations_lb rest st2 e2 he2b
                  omega
                · exact hih.1
              · intro e he hne
                simp only [runCreations, hd, List.mem_cons] at he
                rcases he with rfl | he
                · rfl
                · exact hih.2 e he hne
      | orderOp b q owner price sell buy ot =>
          have hih := ih st
          constructor
          · simp only [runCreations, pairTradeNonces, List.filter_cons]
            rw [if_neg (by simp)]
            exact hih.1
          · intro e he hne
            simp only [runCreations, List.mem_cons] at he
            rcases he with rfl | he
            · exact absurd rfl hne
            · exact hih.2 e he hne
      | tradeOp b q mk tk ba qa =>
          have hih := ih { st with nonce := st.nonce + 1 }
          constructor
          · simp only [runCreations, pairTradeNonces, List.filter_cons]
            rw [if_pos (show decide (CKind.trade ≠ CKind.ord) = true from rfl)]
            simp only [List.map_cons]
            refine List.chain'_cons'.mpr ⟨?_, ?_⟩
            · intro b2 hb2
              have hb2mem := List.mem_of_mem_head? hb2
              obtain ⟨e2, he2, rfl⟩ := List.mem_map.mp hb2mem
              have he2b := List.mem_of_mem_filter he2
              have hlb := runCreations_lb rest { st with nonce := st.nonce + 1 } e2 he2b
              simp only at hlb
              omega
            · exact hih.1
          · intro e he hne
            simp only [runCreations, List.mem_cons] at he
            rcases he with rfl | he
            · rfl
            · exact hih.2 e he hne

theorem calc_zero_maker (o order : LimitOrder) (hrb : o.remained_buy_amount = 0)
    (hrs : o.remained_sell_amount = 0) : calculate_ex_amount o order = Except.ok (0, 0) := by
  by_cases ht : order.otype = OrderType.Buy
  · simp [calculate_ex_amount, ht, hrb, hrs]
  · by_cases h2 : order.remained_buy_amount = 0
    · simp [calculate_ex_amount, ht, hrb, hrs, h2]
    · have h3 : ¬ order.remained_buy_amount ≤ o.remained_sell_amount := by
        rw [hrs]; omega
      simp [calculate_ex_amount, ht, hrb, hrs, h3]
      exact fun hc => absurd hc h2

theorem exchange_zero (st : ModState) (a b2 : ℕ) (g h2 : HashData) :
    ∃ st2, exchangeTokens st a b2 g h2 0 0 = Except.ok st2 ∧ st2.orders = st.orders := by
  simp only [exchangeTokens, do_unfreeze, do_transfer, Nat.zero_le, if_true, if_pos]
  exact ⟨_, rfl, rfl⟩

theorem deduct_zero (ord : LimitOrder) : deductAmounts ord 0 0 = Except.ok ord := by
  cases ord
  simp [deductAmounts]

theorem touch_terminal (ord : LimitOrder) (h : ord.status ≠ OrderStatus.Created) :
    touchStatus ord = ord := by
  simp [touchStatus, h]

theorem settle_orders (st : ModState) (tok : HashData) (ord : LimitOrder) :
    (match settleFilled st tok ord with
      | .ok r => r.2.orders
      | .error e => e.2.orders) = st.orders := by
  unfold settleFilled
  by_cases h1 : ord.remained_buy_amount = 0
  · simp only [if_pos h1]
    by_cases h2 : ({ ord with status := OrderStatus.Filled } : LimitOrder).remained_sell_amount ≠ 0
    · simp only [if_pos h2]
      unfold do_unfreeze
      by_cases h3 : ({ ord with status := OrderStatus.Filled } : LimitOrder).remained_sell_amount ≤
          st.frozen (({ ord with status := OrderStatus.Filled } : LimitOrder).owner, tok)
      · simp only [if_pos h3]
      · simp only [if_neg h3]
    · simp only [if_neg h2]
  · simp only [if_neg h1]

theorem settle_filled_ok (st : ModState) (tok : HashData) (ord : LimitOrder)
    (hst2 : ord.status = OrderStatus.Filled) (hrb : ord.remained_buy_amount = 0)
    (hrs : ord.remained_sell_amount = 0) :
    settleFilled st tok ord = Except.ok (ord, st) := by
  simp only [settleFilled, hrb, hrs, if_pos]
  cases ord
  simp_all

/-- Claim C10, amended: a maker order that is Filled with both remaining
amounts zero (the state the matcher leaves every filled order in) is left
unchanged in the order store by any further matching step against it,
whether the step completes or aborts; a Canceled order with nonzero
remaining amounts enjoys no such protection (see the counterexample). -/
theorem claim10_amended (st : ModState) (tpHash : HashData) (tp : TradePair)
    (give hv : HashData) (otype : OrderType) (order o : LimitOrder) (oh : HashData)
    (hlook : st.orders oh = some o) (hhash : o.hash = oh)
    (hst : o.status = OrderStatus.Filled) (hrb : o.remained_buy_amount = 0)
    (hrs : o.remained_sell_amount = 0) (hp : 0 < o.price) :
    (stateOf (matchOneMaker st tpHash tp give hv otype order oh)).orders oh = some o := by
  have hcalc := calc_zero_maker o order hrb hrs
  obtain ⟨stX, hex, hordX⟩ := exchange_zero st order.owner o.owner give hv
  have htouch : touchStatus o = o := touch_terminal o (by rw [hst]; intro hcon; cases hcon)
  unfold matchOneMaker
  cases otype <;>
  · simp only [hlook, hcalc, hex, htouch, deduct_zero]
    cases hs1 : settleFilled stX give (touchStatus order) with
    | error e =>
        have hso := settle_orders stX give (touchStatus order)
        rw [hs1] at hso
        have hso2 : e.2.orders = stX.orders := hso
        simp only [stateOf]
        rw [hso2, hordX]
        exact hlook
    | ok r =>
        obtain ⟨order3, stY⟩ := r
        simp only [settle_filled_ok stY hv o hst hrb hrs, stateOf, recordTrade]
        simp [fupd, hhash]

/-- Claim C10, amended, witness: a Buy taker matched against a finished
(Filled, zero-remaining) maker leaves the maker's stored record unchanged. -/
theorem claim10_amended_witness :
    (stateOf (matchOneMaker c10WitState c10TpHash
        { hash := c10TpHash, base := tok1, quote := tok2 } tok1 tok2 OrderType.Buy c10Taker
        (.token 50))).orders (.token 50) = some c10FilledMaker :=
  claim10_amended c10WitState c10TpHash { hash := c10TpHash, base := tok1, quote := tok2 }
    tok1 tok2 OrderType.Buy c10Taker c10FilledMaker (.token 50)
    rfl rfl rfl rfl rfl (by decide)

theorem getLast?_decomp (l : List ℕ) (x : ℕ) (h : l.getLast? = some x) :
    ∃ l1, l = l1 ++ [x] := by
  have hne : l ≠ [] := by intro h0; subst h0; simp at h
  refine ⟨l.dropLast, ?_⟩
  rw [List.getLast?_eq_getLast l hne, Option.some_inj] at h
  rw [← h]
  exact (List.dropLast_append_getLast hne).symm

theorem succAbove_split (L M : List ℕ) (x : ℕ) (hL : ∀ a ∈ L, a ≤ x) (hM : ∀ b ∈ M, x < b) :
    succAbove (L ++ M) x = M.head? := by
  unfold succAbove
  rw [List.filter_append]
  have h1 : L.filter (fun y => decide (x < y)) = [] := by
    refine List.filter_eq_nil_iff.mpr ?_
    intro a ha
    simpa using Nat.not_lt.mpr (hL a ha)
  have h2 : M.filter (fun y => decide (x < y)) = M := by
    refine List.filter_eq_self.mpr ?_
    intro b hb
    simpa using hM b hb
  rw [h1, h2, List.nil_append]

theorem predBelow_split (L M : List ℕ) (x : ℕ) (hL : ∀ a ∈ L, a < x) (hM : ∀ b ∈ M, x ≤ b) :
    predBelow (L ++ M) x = L.getLast? := by
  unfold predBelow
  rw [List.filter_append]
  have h1 : L.filter (fun y => decide (y < x)) = L := by
    refine List.filter_eq_self.mpr ?_
    intro a ha
    simpa using hL a ha
  have h2 : M.filter (fun y => decide (y < x)) = [] := by
    refine List.filter_eq_nil_iff.mpr ?_
    intro b hb
    simpa using Nat.not_lt.mpr (hM b hb)
  rw [h1, h2, List.append_nil]

theorem pmin_ne_pmax : pmin ≠ pmax := by decide

theorem lnext_buyBranch (b se : List ℕ) (x : ℕ) (hmax : x ≠ pmax) (hse : x ∉ se) :
    lnext b se (some x) = succAbove b x := by
  simp only [lnext]
  rw [if_neg hmax, if_neg hse]
  rcases hsa : succAbove b x with _ | y <;> simp

theorem lnext_sellBranch (b se : List ℕ) (x : ℕ) (hmax : x ≠ pmax) (hse : x ∈ se) :
    lnext b se (some x) =
      (match succAbove se x with | some s => some s | none => some pmax) := by
  simp only [lnext]
  rw [if_neg hmax, if_pos hse]

theorem lnext_topKey (b se : List ℕ) : lnext b se (some pmax) = some pmin := by
  simp [lnext]

theorem lnext_headKey (b se : List ℕ) :
    lnext b se none = (match se.head? with | some s => some s | none => some pmax) := rfl

theorem lprev_buyBranch (b se : List ℕ) (x : ℕ) (h0 : x ≠ pmin) (hmax : x ≠ pmax)
    (hb : x ∈ b) :
    lprev b se (some x) =
      (match predBelow b x with | some y => some y | none => some pmin) := by
  simp only [lprev]
  rw [if_neg h0, if_neg hmax, if_pos hb]

theorem lprev_sellBranch (b se : List ℕ) (x : ℕ) (h0 : x ≠ pmin) (hmax : x ≠ pmax)
    (hb : x ∉ b) :
    lprev b se (some x) =
      (match predBelow se x with | some y => some y | none => none) := by
  simp only [lprev]
  rw [if_neg h0, if_neg hmax, if_neg hb]

theorem lprev_bottomKey (b se : List ℕ) : lprev b se (some pmin) = some pmax := by
  simp [lprev]

theorem lprev_topKey (b se : List ℕ) :
    lprev b se (some pmax) =
      (match se.getLast? with | some s => some s | none => none) := by
  simp only [lprev]
  rw [if_neg (show ¬ pmax = pmin from fun h2 => pmin_ne_pmax h2.symm)]
  simp

theorem lprev_headKey (b se : List ℕ) :
    lprev b se none = (match b.getLast? with | some y => some y | none => some pmin) := rfl

theorem lnext_lastKeyB (se L M : List ℕ)
    (hsortL : List.Pairwise (· < ·) L)
    (hse0 : ∀ y ∈ se, y ≠ pmin)
    (hLse : ∀ a ∈ L, a ∉ se)
    (hLmax : ∀ a ∈ L, a ≠ pmax)
    (hLM : ∀ a ∈ L, ∀ c ∈ M, a < c)
    (hM0 : ∀ c ∈ M, c ≠ pmin) :
    lnext (L ++ M) se (lastKeyB L) = M.head? := by
  cases hLl : L.getLast? with
  | none =>
      have hLnil : L = [] := List.getLast?_eq_none_iff.mp hLl
      subst hLnil
      have h1 : lnext ([] ++ M) se (some pmin) = succAbove ([] ++ M) pmin :=
        lnext_buyBranch _ se pmin pmin_ne_pmax (fun hmem => hse0 pmin hmem rfl)
      have h2 : succAbove ([] ++ M) pmin = M.head? := by
        have h3 : succAbove ([] ++ M) pmin = M.head? :=
          succAbove_split [] M pmin (by simp)
            (fun c hc => Nat.pos_of_ne_zero (hM0 c hc))
        exact h3
      rw [show lastKeyB ([] : List ℕ) = some pmin from rfl, h1, h2]
  | some x =>
      obtain ⟨L1, rfl⟩ := getLast?_decomp L x hLl
      have hxL : x ∈ L1 ++ [x] := by simp
      have hlk : lastKeyB (L1 ++ [x]) = some x := by
        unfold lastKeyB
        rw [List.getLast?_append_of_ne_nil L1 (by simp)]
        rfl
      have h1 : lnext ((L1 ++ [x]) ++ M) se (some x) = succAbove ((L1 ++ [x]) ++ M) x :=
        lnext_buyBranch _ se x (hLmax x hxL) (hLse x hxL)
      have h2 : succAbove ((L1 ++ [x]) ++ M) x = M.head? := by
        refine succAbove_split (L1 ++ [x]) M x ?_ (fun c hc => hLM x hxL c hc)
        intro a ha
        rcases List.mem_append.mp ha with h3 | h3
        · exact le_of_lt ((List.pairwise_append.mp hsortL).2.2 a h3 x (by simp))
        · simp only [List.mem_singleton] at h3
          omega
      rw [hlk, h1, h2]

theorem lprev_memBuys (se A B : List ℕ) (x : ℕ)
    (h0 : x ≠ pmin) (hmax : x ≠ pmax)
    (hA : ∀ a ∈ A, a < x) (hB : ∀ c ∈ B, x < c) :
    lprev (A ++ x :: B) se (some x) = lastKeyB A := by
  have h1 := lprev_buyBranch (A ++ x :: B) se x h0 hmax (by simp)
  have h2 : predBelow (A ++ x :: B) x = A.getLast? := by
    refine predBelow_split A (x :: B) x hA ?_
    intro c hc
    rcases List.mem_cons.mp hc with rfl | hc
    · exact le_refl _
    · exact le_of_lt (hB c hc)
  rw [h1, h2]
  unfold lastKeyB
  rcases A.getLast? with _ | y <;> rfl

theorem lnode_next (b se : List ℕ) (q : Option ℕ → List HashData) (k : Option ℕ) :
    (lnode b se q k).next = lnext b se k := rfl

theorem lnode_prev (b se : List ℕ) (q : Option ℕ → List HashData) (k : Option ℕ) :
    (lnode b se q k).prev = lprev b se k := rfl

theorem lnode_price (b se : List ℕ) (q : Option ℕ → List HashData) (k : Option ℕ) :
    (lnode b se q k).price = k := rfl

theorem lnode_orders (b se : List ℕ) (q : Option ℕ → List HashData) (k : Option ℕ) :
    (lnode b se q k).orders = q k := rfl

theorem lnode_queue (b se : List ℕ) (q : Option ℕ → List HashData) (k : Option ℕ)
    (rest : List HashData) :
    { lnode b se q k with orders := rest } = lnode b se (fupd q k rest) k := by
  simp [lnode, fupd]

theorem lastKeyB_nil : lastKeyB ([] : List ℕ) = some pmin := rfl

theorem lastKeyB_concat (P : List ℕ) (d : ℕ) : lastKeyB (P ++ [d]) = some d := by
  unfold lastKeyB
  rw [List.getLast?_append_of_ne_nil P (by simp)]
  rfl

theorem lastKeyB_ne_none (L : List ℕ) : lastKeyB L ≠ none := by
  unfold lastKeyB
  cases L.getLast? <;> simp

theorem lastKeyB_cases (L : List ℕ) :
    lastKeyB L = some pmin ∨ ∃ x, x ∈ L ∧ lastKeyB L = some x := by
  cases hLl : L.getLast? with
  | none => left; unfold lastKeyB; rw [hLl]
  | some x =>
      right
      obtain ⟨L1, rfl⟩ := getLast?_decomp L x hLl
      exact ⟨x, by simp, by unfold lastKeyB; rw [hLl]⟩

theorem inKeys_bottom (b se : List ℕ) : inKeys b se (some pmin) = true := by simp [inKeys]

theorem inKeys_top (b se : List ℕ) : inKeys b se (some pmax) = true := by simp [inKeys]

theorem inKeys_head (b se : List ℕ) : inKeys b se none = true := rfl

theorem inKeys_memB (b se : List ℕ) (x : ℕ) (hx : x ∈ b) : inKeys b se (some x) = true := by
  simp [inKeys, hx]

theorem inKeys_memS (b se : List ℕ) (x : ℕ) (hx : x ∈ se) : inKeys b se (some x) = true := by
  simp [inKeys, hx]

theorem inKeys_false (b se : List ℕ) (x : ℕ) (h0 : x ≠ pmin) (hmax : x ≠ pmax)
    (hb : x ∉ b) (hs : x ∉ se) : inKeys b se (some x) = false := by
  simp [inKeys, h0, hmax, hb, hs]

theorem inKeys_lastKeyB (b se : List ℕ) (L : List ℕ) (hL : ∀ a ∈ L, a ∈ b) :
    inKeys b se (lastKeyB L) = true := by
  rcases lastKeyB_cases L with h | ⟨x, hx, h⟩
  · rw [h]; exact inKeys_bottom b se
  · rw [h]; exact inKeys_memB b se x (hL x hx)

theorem ladderStore_at (b se : List ℕ) (q : Option ℕ → List HashData) (k : Option ℕ)
    (hk : inKeys b se k = true) : ladderStore b se q k = some (lnode b se q k) := by
  simp [ladderStore, hk]

theorem ladderStore_not (b se : List ℕ) (q : Option ℕ → List HashData) (k : Option ℕ)
    (hk : inKeys b se k = false) : ladderStore b se q k = none := by
  simp [ladderStore, hk]

theorem lread_some (s : Store) (k : Option ℕ) (it : Item) (h : s k = some it) :
    lread s k = (it, s) := by
  unfold lread
  rw [h]

theorem lread_at (b se : List ℕ) (q : Option ℕ → List HashData) (k : Option ℕ)
    (hk : inKeys b se k = true) :
    lread (ladderStore b se q) k = (lnode b se q k, ladderStore b se q) :=
  lread_some _ _ _ (ladderStore_at b se q k hk)

theorem headq_left (l1 l2 : List ℕ) (h : l1 ≠ []) : (l1 ++ l2).head? = l1.head? := by
  cases l1 with
  | nil => exact absurd rfl h
  | cons x xs => rfl

theorem succAbove_all (l : List ℕ) (x : ℕ) (h : ∀ y ∈ l, x < y) :
    succAbove l x = l.head? := by
  unfold succAbove
  rw [List.filter_eq_self.mpr (fun a ha => by simpa using h a ha)]

theorem swrite_at (s : Store) (k : Option ℕ) (it : Item) : swrite s k it k = some it := by
  simp [swrite]

theorem swrite_ne (s : Store) (k k2 : Option ℕ) (it : Item) (h : k2 ≠ k) :
    swrite s k it k2 = s k2 := by
  simp [swrite, h]

theorem swrite_queue (b se : List ℕ) (q : Option ℕ → List HashData) (p : ℕ)
    (rest : List HashData) (hk : inKeys b se (some p) = true) :
    swrite (ladderStore b se q) (some p) { lnode b se q (some p) with orders := rest } =
      ladderStore b se (fupd q (some p) rest) := by
  funext k
  by_cases hkp : k = some p
  · subst hkp
    rw [swrite_at, ladderStore_at b se _ _ hk, lnode_queue]
  · rw [swrite_ne _ _ _ _ hkp]
    unfold ladderStore lnode
    rw [show fupd q (some p) rest k = q k from if_neg hkp]

theorem walkBuy (b se L R : List ℕ) (q : Option ℕ → List HashData) (p : ℕ)
    (hb : b = L ++ R)
    (hsort : List.Pairwise (· < ·) b)
    (hB0 : ∀ y ∈ b, y ≠ pmin ∧ y ≠ pmax)
    (hbs : ∀ y ∈ b, y ∉ se)
    (hs0 : ∀ y ∈ se, y ≠ pmin ∧ y ≠ pmax)
    (hL : ∀ a ∈ L, a < p) (hR : ∀ c ∈ R, p < c)
    (D : List ℕ) :
    ∀ (P : List ℕ) (fuel : ℕ), L = P ++ D → D.length + 1 ≤ fuel →
      appendWalk none p fuel (lnode b se q (lastKeyB P), ladderStore b se q) =
        (lnode b se q (lastKeyB L), ladderStore b se q) := by
  induction D with
  | nil =>
      intro P fuel hP hfuel
      obtain ⟨f, rfl⟩ : ∃ f, fuel = f + 1 := ⟨fuel - 1, by omega⟩
      have hPL : L = P := by simpa using hP
      subst hPL
      have hsortLR : List.Pairwise (· < ·) (L ++ R) := by rw [← hb]; exact hsort
      have hmemL : ∀ a ∈ L, a ∈ b := fun a ha => by
        rw [hb]; exact List.mem_append_left R ha
      have hmemR : ∀ c ∈ R, c ∈ b := fun c hc => by
        rw [hb]; exact List.mem_append_right L hc
      have hnext : lnext b se (lastKeyB L) = R.head? := by
        rw [hb]
        exact lnext_lastKeyB se L R (List.pairwise_append.mp hsortLR).1
          (fun y hy => (hs0 y hy).1)
          (fun a ha => hbs a (hmemL a ha))
          (fun a ha => (hB0 a (hmemL a ha)).2)
          (fun a ha c hc => lt_trans (hL a ha) (hR c hc))
          (fun c hc => (hB0 c (hmemR c hc)).1)
      simp only [appendWalk, lnode_next, hnext]
      cases R with
      | nil => simp
      | cons r R2 =>
          have hpr : p < r := hR r (List.mem_cons_self r R2)
          simp [hpr]
  | cons d D2 ih =>
      intro P fuel hP hfuel
      obtain ⟨f, rfl⟩ : ∃ f, fuel = f + 1 := ⟨fuel - 1, by omega⟩
      have hbPM : b = P ++ (d :: (D2 ++ R)) := by rw [hb, hP]; simp
      have hsortP : List.Pairwise (· < ·) (P ++ (d :: (D2 ++ R))) := by
        rw [← hbPM]; exact hsort
      have hmem : ∀ x ∈ P ++ (d :: (D2 ++ R)), x ∈ b := fun x hx => by
        rw [hbPM]; exact hx
      have hnext : lnext b se (lastKeyB P) = some d := by
        rw [hbPM]
        have h2 := lnext_lastKeyB se P (d :: (D2 ++ R)) (List.pairwise_append.mp hsortP).1
          (fun y hy => (hs0 y hy).1)
          (fun a ha => hbs a (hmem a (List.mem_append_left _ ha)))
          (fun a ha => (hB0 a (hmem a (List.mem_append_left _ ha))).2)
          ((List.pairwise_append.mp hsortP).2.2)
          (fun c hc => (hB0 c (hmem c (List.mem_append_right _ hc))).1)
        rw [h2]
        rfl
      have hdL : d ∈ L := by
        rw [hP]; exact List.mem_append_right P (List.mem_cons_self d D2)
      have hdp : ¬ p < d := Nat.not_lt.mpr (Nat.le_of_lt (hL d hdL))
      have hdb : d ∈ b := by
        rw [hbPM]; exact List.mem_append_right P (List.mem_cons_self _ _)
      have hread : lread (ladderStore b se q) (some d) =
          (lnode b se q (some d), ladderStore b se q) :=
        lread_at b se q (some d) (inKeys_memB b se d hdb)
      have hkey : lastKeyB (P ++ [d]) = some d := lastKeyB_concat P d
      have hih := ih (P ++ [d]) f (by rw [hP]; simp) (by simp at hfuel ⊢; omega)
      rw [hkey] at hih
      simp only [appendWalk, lnode_next, hnext]
      rw [if_neg (Option.some_ne_none d), if_neg hdp, hread]
      exact hih

theorem lnext_lastKeyS (b se L M : List ℕ)
    (hse : se = L ++ M)
    (hsortL : List.Pairwise (· < ·) L)
    (hLmax : ∀ a ∈ L, a ≠ pmax)
    (hLM : ∀ a ∈ L, ∀ c ∈ M, a < c) :
    lnext b se L.getLast? = headKeyS M := by
  cases hLl : L.getLast? with
  | none =>
      have hLnil : L = [] := List.getLast?_eq_none_iff.mp hLl
      subst hLnil
      simp only [List.nil_append] at hse
      subst hse
      rw [lnext_headKey]
      unfold headKeyS
      rfl
  | some x =>
      obtain ⟨L1, rfl⟩ := getLast?_decomp L x hLl
      have hxL : x ∈ L1 ++ [x] := by simp
      have hxse : x ∈ se := by rw [hse]; exact List.mem_append_left M hxL
      have h1 : lnext b se (some x) =
          (match succAbove se x with | some s => some s | none => some pmax) :=
        lnext_sellBranch b se x (hLmax x hxL) hxse
      have h2 : succAbove se x = M.head? := by
        rw [hse]
        exact succAbove_split (L1 ++ [x]) M x
          (fun a ha => by
            rcases List.mem_append.mp ha with h3 | h3
            · exact Nat.le_of_lt ((List.pairwise_append.mp hsortL).2.2 a h3 x (by simp))
            · simp only [List.mem_singleton] at h3; omega)
          (fun c hc => hLM x hxL c hc)
      rw [h1, h2]
      unfold headKeyS
      rfl

theorem walkSell (b se L R : List ℕ) (q : Option ℕ → List HashData) (p : ℕ)
    (hse : se = L ++ R)
    (hsort : List.Pairwise (· < ·) se)
    (hS0 : ∀ y ∈ se, y ≠ pmin ∧ y ≠ pmax)
    (hL : ∀ a ∈ L, a < p) (hR : ∀ c ∈ R, p < c)
    (D : List ℕ) :
    ∀ (P : List ℕ) (fuel : ℕ), L = P ++ D → D.length + 1 ≤ fuel →
      appendWalk (some pmax) p fuel (lnode b se q P.getLast?, ladderStore b se q) =
        (lnode b se q L.getLast?, ladderStore b se q) := by
  induction D with
  | nil =>
      intro P fuel hP hfuel
      obtain ⟨f, rfl⟩ : ∃ f, fuel = f + 1 := ⟨fuel - 1, by omega⟩
      have hPL : L = P := by simpa using hP
      subst hPL
      have hsortLR : List.Pairwise (· < ·) (L ++ R) := by rw [← hse]; exact hsort
      have hmemL : ∀ a ∈ L, a ∈ se := fun a ha => by
        rw [hse]; exact List.mem_append_left R ha
      have hmemR : ∀ c ∈ R, c ∈ se := fun c hc => by
        rw [hse]; exact List.mem_append_right L hc
      have hnext : lnext b se L.getLast? = headKeyS R :=
        lnext_lastKeyS b se L R hse (List.pairwise_append.mp hsortLR).1
          (fun a ha => (hS0 a (hmemL a ha)).2)
          (fun a ha c hc => lt_trans (hL a ha) (hR c hc))
      simp only [appendWalk, lnode_next, hnext]
      cases R with
      | nil => simp [headKeyS]
      | cons r R2 =>
          have hrse : r ∈ se := hmemR r (List.mem_cons_self r R2)
          have hrmax : r ≠ pmax := (hS0 r hrse).2
          have hpr : p < r := hR r (List.mem_cons_self r R2)
          simp [headKeyS, hrmax, hpr]
  | cons d D2 ih =>
      intro P fuel hP hfuel
      obtain ⟨f, rfl⟩ : ∃ f, fuel = f + 1 := ⟨fuel - 1, by omega⟩
      have hsePM : se = P ++ (d :: (D2 ++ R)) := by rw [hse, hP]; simp
      have hsortP : List.Pairwise (· < ·) (P ++ (d :: (D2 ++ R))) := by
        rw [← hsePM]; exact hsort
      have hmem : ∀ x ∈ P ++ (d :: (D2 ++ R)), x ∈ se := fun x hx => by
        rw [hsePM]; exact hx
      have hnext : lnext b se P.getLast? = some d := by
        have h2 := lnext_lastKeyS b se P (d :: (D2 ++ R)) hsePM
          (List.pairwise_append.mp hsortP).1
          (fun a ha => (hS0 a (hmem a (List.mem_append_left _ ha))).2)
          ((List.pairwise_append.mp hsortP).2.2)
        rw [h2]
        rfl
      have hdL : d ∈ L := by
        rw [hP]; exact List.mem_append_right P (List.mem_cons_self d D2)
      have hdse : d ∈ se := hmem d (List.mem_append_right P (List.mem_cons_self _ _))
      have hdmax : d ≠ pmax := (hS0 d hdse).2
      have hdp : ¬ p < d := Nat.not_lt.mpr (Nat.le_of_lt (hL d hdL))
      have hread : lread (ladderStore b se q) (some d) =
          (lnode b se q (some d), ladderStore b se q) :=
        lread_at b se q (some d) (inKeys_memS b se d hdse)
      have hkey : (P ++ [d]).getLast? = some d := by
        rw [List.getLast?_append_of_ne_nil P (by simp)]
        rfl
      have hih := ih (P ++ [d]) f (by rw [hP]; simp) (by simp at hfuel ⊢; omega)
      rw [hkey] at hih
      simp only [appendWalk, lnode_next, hnext]
      rw [if_neg (fun hcon => hdmax (Option.some_inj.mp hcon)), if_neg hdp, hread]
      exact hih

theorem getLastq_cons (p : ℕ) (R : List ℕ) (h : R ≠ []) : (p :: R).getLast? = R.getLast? := by
  have h2 : p :: R = [p] ++ R := rfl
  rw [h2, List.getLast?_append_of_ne_nil [p] h]

theorem pairwise_parts (A B : List ℕ) (y : ℕ) (h : List.Pairwise (· < ·) (A ++ y :: B)) :
    (∀ a ∈ A, a < y) ∧ (∀ c ∈ B, y < c) := by
  obtain ⟨h1, h2, h3⟩ := List.pairwise_append.mp h
  exact ⟨fun a ha => h3 a ha y (List.mem_cons_self _ _),
    fun c hc => (List.pairwise_cons.mp h2).1 c hc⟩

theorem pairwise_drop_mid (L R : List ℕ) (p : ℕ)
    (h : List.Pairwise (· < ·) (L ++ p :: R)) : List.Pairwise (· < ·) (L ++ R) := by
  obtain ⟨h1, h2, h3⟩ := List.pairwise_append.mp h
  exact List.pairwise_append.mpr ⟨h1, (List.pairwise_cons.mp h2).2,
    fun a ha c hc => h3 a ha c (List.mem_cons_of_mem p hc)⟩

theorem pairwise_insert_mid (L R : List ℕ) (p : ℕ)
    (h : List.Pairwise (· < ·) (L ++ R))
    (hL : ∀ a ∈ L, a < p) (hR : ∀ c ∈ R, p < c) :
    List.Pairwise (· < ·) (L ++ p :: R) := by
  obtain ⟨h1, h2, h3⟩ := List.pairwise_append.mp h
  refine List.pairwise_append.mpr ⟨h1, List.pairwise_cons.mpr ⟨hR, h2⟩, ?_⟩
  intro a ha c hc
  rcases List.mem_cons.mp hc with rfl | h4
  · exact hL a ha
  · exact h3 a ha c h4

theorem lnext_stable (se L R : List ℕ) (p : ℕ) (k : Option ℕ)
    (hsort2 : List.Pairwise (· < ·) (L ++ p :: R))
    (hB0 : ∀ y ∈ L ++ p :: R, y ≠ pmin ∧ y ≠ pmax)
    (hk : inKeys (L ++ R) se k = true)
    (hkf : k ≠ lastKeyB L) :
    lnext (L ++ R) se k = lnext (L ++ p :: R) se k := by
  have hmem12 : ∀ x ∈ L ++ R, x ∈ L ++ p :: R := by
    intro x hx
    rcases List.mem_append.mp hx with h | h
    · exact List.mem_append_left _ h
    · exact List.mem_append_right _ (List.mem_cons_of_mem p h)
  obtain ⟨hLp, hpR⟩ := pairwise_parts L R p hsort2
  cases k with
  | none => rw [lnext_headKey, lnext_headKey]
  | some y =>
      by_cases hymax : y = pmax
      · subst hymax
        rw [lnext_topKey, lnext_topKey]
      by_cases hyse : y ∈ se
      · rw [lnext_sellBranch _ _ _ hymax hyse, lnext_sellBranch _ _ _ hymax hyse]
      rw [lnext_buyBranch _ _ _ hymax hyse, lnext_buyBranch _ _ _ hymax hyse]
      have h5 := hk
      simp only [inKeys, Bool.or_eq_true, decide_eq_true_eq, List.mem_append] at h5
      have h6 : y = pmin ∨ y ∈ L ∨ y ∈ R := by tauto
      rcases h6 with h6 | h6 | h6
      · subst h6
        have hLne : L ≠ [] := by
          intro h7
          subst h7
          exact hkf rfl
        have hall1 : ∀ z ∈ L ++ R, pmin < z := fun z hz =>
          Nat.pos_of_ne_zero (hB0 z (hmem12 z hz)).1
        have hall2 : ∀ z ∈ L ++ p :: R, pmin < z := fun z hz =>
          Nat.pos_of_ne_zero (hB0 z hz).1
        rw [succAbove_all _ _ hall1, succAbove_all _ _ hall2,
          headq_left L R hLne, headq_left L (p :: R) hLne]
      · obtain ⟨A, B, hA⟩ := List.append_of_mem h6
        have hBne : B ≠ [] := by
          intro h7
          subst h7
          apply hkf
          rw [hA, lastKeyB_concat]
        have hsortL : List.Pairwise (· < ·) L := (List.pairwise_append.mp hsort2).1
        obtain ⟨hAy, hyB⟩ := pairwise_parts A B y (by rw [← hA]; exact hsortL)
        have hyp2 : y < p := hLp y h6
        have hle : ∀ a ∈ A ++ [y], a ≤ y := by
          intro a ha
          rcases List.mem_append.mp ha with h7 | h7
          · exact Nat.le_of_lt (hAy a h7)
          · simp only [List.mem_singleton] at h7
            omega
        have hgt1 : ∀ c ∈ B ++ R, y < c := by
          intro c hc
          rcases List.mem_append.mp hc with h7 | h7
          · exact hyB c h7
          · exact lt_trans hyp2 (hpR c h7)
        have hgt2 : ∀ c ∈ B ++ p :: R, y < c := by
          intro c hc
          rcases List.mem_append.mp hc with h7 | h7
          · exact hyB c h7
          · rcases List.mem_cons.mp h7 with rfl | h8
            · exact hyp2
            · exact lt_trans hyp2 (hpR c h8)
        have e1 : L ++ R = (A ++ [y]) ++ (B ++ R) := by rw [hA]; simp
        have e2 : L ++ p :: R = (A ++ [y]) ++ (B ++ p :: R) := by rw [hA]; simp
        rw [e1, e2, succAbove_split _ _ _ hle hgt1, succAbove_split _ _ _ hle hgt2,
          headq_left B R hBne, headq_left B (p :: R) hBne]
      · obtain ⟨A, B, hA⟩ := List.append_of_mem h6
        have hpy : p < y := hpR y h6
        have hsortR : List.Pairwise (· < ·) R :=
          (List.pairwise_cons.mp (List.pairwise_append.mp hsort2).2.1).2
        obtain ⟨hAy, hyB⟩ := pairwise_parts A B y (by rw [← hA]; exact hsortR)
        have hle1 : ∀ a ∈ (L ++ A) ++ [y], a ≤ y := by
          intro a ha
          rcases List.mem_append.mp ha with h7 | h7
          · rcases List.mem_append.mp h7 with h8 | h8
            · exact Nat.le_of_lt (lt_trans (hLp a h8) hpy)
            · exact Nat.le_of_lt (hAy a h8)
          · simp only [List.mem_singleton] at h7
            omega
        have hle2 : ∀ a ∈ (L ++ p :: A) ++ [y], a ≤ y := by
          intro a ha
          rcases List.mem_append.mp ha with h7 | h7
          · rcases List.mem_append.mp h7 with h8 | h8
            · exact Nat.le_of_lt (lt_trans (hLp a h8) hpy)
            · rcases List.mem_cons.mp h8 with rfl | h9
              · exact Nat.le_of_lt hpy
              · exact Nat.le_of_lt (hAy a h9)
          · simp only [List.mem_singleton] at h7
            omega
        have e1 : L ++ R = ((L ++ A) ++ [y]) ++ B := by rw [hA]; simp
        have e2 : L ++ p :: R = ((L ++ p :: A) ++ [y]) ++ B := by rw [hA]; simp
        rw [e1, e2, succAbove_split _ _ _ hle1 hyB, succAbove_split _ _ _ hle2 hyB]

theorem lprev_stable (se L R : List ℕ) (p : ℕ) (k : Option ℕ)
    (hsort2 : List.Pairwise (· < ·) (L ++ p :: R))
    (hbs : ∀ y ∈ L ++ p :: R, y ∉ se)
    (hk : inKeys (L ++ R) se k = true)
    (hkn : k ≠ R.head?) :
    lprev (L ++ R) se k = lprev (L ++ p :: R) se k := by
  have hmem12 : ∀ x ∈ L ++ R, x ∈ L ++ p :: R := by
    intro x hx
    rcases List.mem_append.mp hx with h | h
    · exact List.mem_append_left _ h
    · exact List.mem_append_right _ (List.mem_cons_of_mem p h)
  obtain ⟨hLp, hpR⟩ := pairwise_parts L R p hsort2
  cases k with
  | none =>
      have hRne : R ≠ [] := by
        intro h7
        subst h7
        exact hkn rfl
      rw [lprev_headKey, lprev_headKey, List.getLast?_append_of_ne_nil L hRne,
        List.getLast?_append_of_ne_nil L (List.cons_ne_nil p R), getLastq_cons p R hRne]
  | some y =>
      by_cases hy0 : y = pmin
      · subst hy0
        rw [lprev_bottomKey, lprev_bottomKey]
      by_cases hymax : y = pmax
      · subst hymax
        rw [lprev_topKey, lprev_topKey]
      by_cases hyse : y ∈ se
      · have hnb2 : y ∉ L ++ p :: R := fun hc => hbs y hc hyse
        have hnb1 : y ∉ L ++ R := fun hc => hnb2 (hmem12 y hc)
        rw [lprev_sellBranch _ _ _ hy0 hymax hnb1, lprev_sellBranch _ _ _ hy0 hymax hnb2]
      have h5 := hk
      simp only [inKeys, Bool.or_eq_true, decide_eq_true_eq, List.mem_append] at h5
      have h6 : y ∈ L ∨ y ∈ R := by tauto
      rcases h6 with h6 | h6
      · obtain ⟨A, B, hA⟩ := List.append_of_mem h6
        have hyb1 : y ∈ L ++ R := List.mem_append_left R h6
        have hyb2 : y ∈ L ++ p :: R := hmem12 y hyb1
        rw [lprev_buyBranch _ _ _ hy0 hymax hyb1, lprev_buyBranch _ _ _ hy0 hymax hyb2]
        have hsortL : List.Pairwise (· < ·) L := (List.pairwise_append.mp hsort2).1
        obtain ⟨hAy, hyB⟩ := pairwise_parts A B y (by rw [← hA]; exact hsortL)
        have hyp2 : y < p := hLp y h6
        have hge1 : ∀ c ∈ y :: (B ++ R), y ≤ c := by
          intro c hc
          rcases List.mem_cons.mp hc with rfl | h7
          · exact Nat.le_refl _
          · rcases List.mem_append.mp h7 with h8 | h8
            · exact Nat.le_of_lt (hyB c h8)
            · exact Nat.le_of_lt (lt_trans hyp2 (hpR c h8))
        have hge2 : ∀ c ∈ y :: (B ++ p :: R), y ≤ c := by
          intro c hc
          rcases List.mem_cons.mp hc with rfl | h7
          · exact Nat.le_refl _
          · rcases List.mem_append.mp h7 with h8 | h8
            · exact Nat.le_of_lt (hyB c h8)
            · rcases List.mem_cons.mp h8 with rfl | h9
              · exact Nat.le_of_lt hyp2
              · exact Nat.le_of_lt (lt_trans hyp2 (hpR c h9))
        have e1 : L ++ R = A ++ (y :: (B ++ R)) := by rw [hA]; simp
        have e2 : L ++ p :: R = A ++ (y :: (B ++ p :: R)) := by rw [hA]; simp
        rw [e1, e2, predBelow_split A _ y hAy hge1, predBelow_split A _ y hAy hge2]
      · obtain ⟨A, B, hA⟩ := List.append_of_mem h6
        have hAne : A ≠ [] := by
          intro h7
          subst h7
          apply hkn
          rw [hA]
          rfl
        have hyb1 : y ∈ L ++ R := List.mem_append_right L h6
        have hyb2 : y ∈ L ++ p :: R := hmem12 y hyb1
        rw [lprev_buyBranch _ _ _ hy0 hymax hyb1, lprev_buyBranch _ _ _ hy0 hymax hyb2]
        have hpy : p < y := hpR y h6
        have hsortR : List.Pairwise (· < ·) R :=
          (List.pairwise_cons.mp (List.pairwise_append.mp hsort2).2.1).2
        obtain ⟨hAy, hyB⟩ := pairwise_parts A B y (by rw [← hA]; exact hsortR)
        have hlt1 : ∀ a ∈ L ++ A, a < y := by
          intro a ha
          rcases List.mem_append.mp ha with h7 | h7
          · exact lt_trans (hLp a h7) hpy
          · exact hAy a h7
        have hlt2 : ∀ a ∈ L ++ p :: A, a < y := by
          intro a ha
          rcases List.mem_append.mp ha with h7 | h7
          · exact lt_trans (hLp a h7) hpy
          · rcases List.mem_cons.mp h7 with rfl | h8
            · exact hpy
            · exact hAy a h8
        have hge : ∀ c ∈ y :: B, y ≤ c := by
          intro c hc
          rcases List.mem_cons.mp hc with rfl | h7
          · exact Nat.le_refl _
          · exact Nat.le_of_lt (hyB c h7)
        have e1 : L ++ R = (L ++ A) ++ (y :: B) := by rw [hA]; simp
        have e2 : L ++ p :: R = (L ++ p :: A) ++ (y :: B) := by rw [hA]; simp
        rw [e1, e2, predBelow_split _ _ y hlt1 hge, predBelow_split _ _ y hlt2 hge,
          List.getLast?_append_of_ne_nil L hAne,
          List.getLast?_append_of_ne_nil L (List.cons_ne_nil p A), getLastq_cons p A hAne]

theorem lnext_stableS (bu L R : List ℕ) (p : ℕ) (k : Option ℕ)
    (hsort2 : List.Pairwise (· < ·) (L ++ p :: R))
    (hS0 : ∀ y ∈ L ++ p :: R, y ≠ pmin ∧ y ≠ pmax)
    (hsb : ∀ y ∈ L ++ p :: R, y ∉ bu)
    (hk : inKeys bu (L ++ R) k = true)
    (hkf : k ≠ L.getLast?) :
    lnext bu (L ++ R) k = lnext bu (L ++ p :: R) k := by
  have hmem12 : ∀ x ∈ L ++ R, x ∈ L ++ p :: R := by
    intro x hx
    rcases List.mem_append.mp hx with h | h
    · exact List.mem_append_left _ h
    · exact List.mem_append_right _ (List.mem_cons_of_mem p h)
  obtain ⟨hLp, hpR⟩ := pairwise_parts L R p hsort2
  cases k with
  | none =>
      have hLne : L ≠ [] := by
        intro h7
        subst h7
        exact hkf rfl
      rw [lnext_headKey, lnext_headKey, headq_left L R hLne, headq_left L (p :: R) hLne]
  | some y =>
      by_cases hymax : y = pmax
      · subst hymax
        rw [lnext_topKey, lnext_topKey]
      by_cases hyse : y ∈ L ++ R
      · have hyse2 : y ∈ L ++ p :: R := hmem12 y hyse
        rw [lnext_sellBranch _ _ _ hymax hyse, lnext_sellBranch _ _ _ hymax hyse2]
        have hsa : succAbove (L ++ R) y = succAbove (L ++ p :: R) y := by
          rcases List.mem_append.mp hyse with h6 | h6
          · obtain ⟨A, B, hA⟩ := List.append_of_mem h6
            have hBne : B ≠ [] := by
              intro h7
              subst h7
              apply hkf
              rw [hA, List.getLast?_append_of_ne_nil A (by simp)]
              rfl
            have hsortL : List.Pairwise (· < ·) L := (List.pairwise_append.mp hsort2).1
            obtain ⟨hAy, hyB⟩ := pairwise_parts A B y (by rw [← hA]; exact hsortL)
            have hyp2 : y < p := hLp y h6
            have hle : ∀ a ∈ A ++ [y], a ≤ y := by
              intro a ha
              rcases List.mem_append.mp ha with h7 | h7
              · exact Nat.le_of_lt (hAy a h7)
              · simp only [List.mem_singleton] at h7
                omega
            have hgt1 : ∀ c ∈ B ++ R, y < c := by
              intro c hc
              rcases List.mem_append.mp hc with h7 | h7
              · exact hyB c h7
              · exact lt_trans hyp2 (hpR c h7)
            have hgt2 : ∀ c ∈ B ++ p :: R, y < c := by
              intro c hc
              rcases List.mem_append.mp hc with h7 | h7
              · exact hyB c h7
              · rcases List.mem_cons.mp h7 with rfl | h8
                · exact hyp2
                · exact lt_trans hyp2 (hpR c h8)
            have e1 : L ++ R = (A ++ [y]) ++ (B ++ R) := by rw [hA]; simp
            have e2 : L ++ p :: R = (A ++ [y]) ++ (B ++ p :: R) := by rw [hA]; simp
            rw [e1, e2, succAbove_split _ _ _ hle hgt1, succAbove_split _ _ _ hle hgt2,
              headq_left B R hBne, headq_left B (p :: R) hBne]
          · obtain ⟨A, B, hA⟩ := List.append_of_mem h6
            have hpy : p < y := hpR y h6
            have hsortR : List.Pairwise (· < ·) R :=
              (List.pairwise_cons.mp (List.pairwise_append.mp hsort2).2.1).2
            obtain ⟨hAy, hyB⟩ := pairwise_parts A B y (by rw [← hA]; exact hsortR)
            have hle1 : ∀ a ∈ (L ++ A) ++ [y], a ≤ y := by
              intro a ha
              rcases List.mem_append.mp ha with h7 | h7
              · rcases List.mem_append.mp h7 with h8 | h8
                · exact Nat.le_of_lt (lt_trans (hLp a h8) hpy)
                · exact Nat.le_of_lt (hAy a h8)
              · simp only [List.mem_singleton] at h7
                omega
            have hle2 : ∀ a ∈ (L ++ p :: A) ++ [y], a ≤ y := by
              intro a ha
              rcases List.mem_append.mp ha with h7 | h7
              · rcases List.mem_append.mp h7 with h8 | h8
                · exact Nat.le_of_lt (lt_trans (hLp a h8) hpy)
                · rcases List.mem_cons.mp h8 with rfl | h9
                  · exact Nat.le_of_lt hpy
                  · exact Nat.le_of_lt (hAy a h9)
              · simp only [List.mem_singleton] at h7
                omega
            have e1 : L ++ R = ((L ++ A) ++ [y]) ++ B := by rw [hA]; simp
            have e2 : L ++ p :: R = ((L ++ p :: A) ++ [y]) ++ B := by rw [hA]; simp
            rw [e1, e2, succAbove_split _ _ _ hle1 hyB, succAbove_split _ _ _ hle2 hyB]
        rw [hsa]
      · have hyse2 : y ∉ L ++ p :: R := by
          intro hc
          rcases List.mem_append.mp hc with h7 | h7
          · exact hyse (List.mem_append_left R h7)
          · rcases List.mem_cons.mp h7 with h8 | h8
            · subst h8
              have hpmem : y ∈ L ++ y :: R := List.mem_append_right L (List.mem_cons_self y R)
              have h9 := hk
              rw [inKeys_false bu (L ++ R) y (hS0 y hpmem).1 (hS0 y hpmem).2
                (hsb y hpmem) hyse] at h9
              exact absurd h9 (by simp)
            · exact hyse (List.mem_append_right L h8)
        rw [lnext_buyBranch _ _ _ hymax hyse, lnext_buyBranch _ _ _ hymax hyse2]

theorem lprev_stableS (bu L R : List ℕ) (p : ℕ) (k : Option ℕ)
    (hsort2 : List.Pairwise (· < ·) (L ++ p :: R))
    (hS0 : ∀ y ∈ L ++ p :: R, y ≠ pmin ∧ y ≠ pmax)
    (hsb : ∀ y ∈ L ++ p :: R, y ∉ bu)
    (hk : inKeys bu (L ++ R) k = true)
    (hkn : k ≠ headKeyS R) :
    lprev bu (L ++ R) k = lprev bu (L ++ p :: R) k := by
  have hmem12 : ∀ x ∈ L ++ R, x ∈ L ++ p :: R := by
    intro x hx
    rcases List.mem_append.mp hx with h | h
    · exact List.mem_append_left _ h
    · exact List.mem_append_right _ (List.mem_cons_of_mem p h)
  obtain ⟨hLp, hpR⟩ := pairwise_parts L R p hsort2
  cases k with
  | none => rw [lprev_headKey, lprev_headKey]
  | some y =>
      by_cases hy0 : y = pmin
      · subst hy0
        rw [lprev_bottomKey, lprev_bottomKey]
      by_cases hymax : y = pmax
      · subst hymax
        have hRne : R ≠ [] := by
          intro h7
          subst h7
          exact hkn rfl
        rw [lprev_topKey, lprev_topKey, List.getLast?_append_of_ne_nil L hRne,
          List.getLast?_append_of_ne_nil L (List.cons_ne_nil p R), getLastq_cons p R hRne]
      by_cases hyse : y ∈ L ++ R
      · have hybu : y ∉ bu := hsb y (hmem12 y hyse)
        rw [lprev_sellBranch _ _ _ hy0 hymax hybu, lprev_sellBranch _ _ _ hy0 hymax hybu]
        have hpb : predBelow (L ++ R) y = predBelow (L ++ p :: R) y := by
          rcases List.mem_append.mp hyse with h6 | h6
          · obtain ⟨A, B, hA⟩ := List.append_of_mem h6
            have hsortL : List.Pairwise (· < ·) L := (List.pairwise_append.mp hsort2).1
            obtain ⟨hAy, hyB⟩ := pairwise_parts A B y (by rw [← hA]; exact hsortL)
            have hyp2 : y < p := hLp y h6
            have hge1 : ∀ c ∈ y :: (B ++ R), y ≤ c := by
              intro c hc
              rcases List.mem_cons.mp hc with rfl | h7
              · exact Nat.le_refl _
              · rcases List.mem_append.mp h7 with h8 | h8
                · exact Nat.le_of_lt (hyB c h8)
                · exact Nat.le_of_lt (lt_trans hyp2 (hpR c h8))
            have hge2 : ∀ c ∈ y :: (B ++ p :: R), y ≤ c := by
              intro c hc
              rcases List.mem_cons.mp hc with rfl | h7
              · exact Nat.le_refl _
              · rcases List.mem_append.mp h7 with h8 | h8
                · exact Nat.le_of_lt (hyB c h8)
                · rcases List.mem_cons.mp h8 with rfl | h9
                  · exact Nat.le_of_lt hyp2
                  · exact Nat.le_of_lt (lt_trans hyp2 (hpR c h9))
            have e1 : L ++ R = A ++ (y :: (B ++ R)) := by rw [hA]; simp
            have e2 : L ++ p :: R = A ++ (y :: (B ++ p :: R)) := by rw [hA]; simp
            rw [e1, e2, predBelow_split A _ y hAy hge1, predBelow_split A _ y hAy hge2]
          · obtain ⟨A, B, hA⟩ := List.append_of_mem h6
            have hAne : A ≠ [] := by
              intro h7
              subst h7
              apply hkn
              rw [hA]
              rfl
            have hpy : p < y := hpR y h6
            have hsortR : List.Pairwise (· < ·) R :=
              (List.pairwise_cons.mp (List.pairwise_append.mp hsort2).2.1).2
            obtain ⟨hAy, hyB⟩ := pairwise_parts A B y (by rw [← hA]; exact hsortR)
            have hlt1 : ∀ a ∈ L ++ A, a < y := by
              intro a ha
              rcases List.mem_append.mp ha with h7 | h7
              · exact lt_trans (hLp a h7) hpy
              · exact hAy a h7
            have hlt2 : ∀ a ∈ L ++ p :: A, a < y := by
              intro a ha
              rcases List.mem_append.mp ha with h7 | h7
              · exact lt_trans (hLp a h7) hpy
              · rcases List.mem_cons.mp h7 with rfl | h8
                · exact hpy
                · exact hAy a h8
            have hge : ∀ c ∈ y :: B, y ≤ c := by
              intro c hc
              rcases List.mem_cons.mp hc with rfl | h7
              · exact Nat.le_refl _
              · exact Nat.le_of_lt (hyB c h7)
            have e1 : L ++ R = (L ++ A) ++ (y :: B) := by rw [hA]; simp
            have e2 : L ++ p :: R = (L ++ p :: A) ++ (y :: B) := by rw [hA]; simp
            rw [e1, e2, predBelow_split _ _ y hlt1 hge, predBelow_split _ _ y hlt2 hge,
              List.getLast?_append_of_ne_nil L hAne,
              List.getLast?_append_of_ne_nil L (List.cons_ne_nil p A), getLastq_cons p A hAne]
        rw [hpb]
      · have hybu : y ∈ bu := by
          have h5 := hk
          simp only [inKeys, Bool.or_eq_true, decide_eq_true_eq, List.mem_append] at h5
          simp only [List.mem_append] at hyse
          tauto
        rw [lprev_buyBranch _ _ _ hy0 hymax hybu, lprev_buyBranch _ _ _ hy0 hymax hybu]

theorem lprev_memSells (bu A B : List ℕ) (x : ℕ)
    (h0 : x ≠ pmin) (hmax : x ≠ pmax) (hxb : x ∉ bu)
    (hA : ∀ a ∈ A, a < x) (hB : ∀ c ∈ B, x < c) :
    lprev bu (A ++ x :: B) (some x) = A.getLast? := by
  rw [lprev_sellBranch _ _ _ h0 hmax hxb]
  rw [predBelow_split A (x :: B) x hA (fun c hc => by
    rcases List.mem_cons.mp hc with rfl | h7
    · exact Nat.le_refl _
    · exact Nat.le_of_lt (hB c h7))]
  cases A.getLast? <;> rfl

theorem inKeys_insert (se L R : List ℕ) (p : ℕ) (k : Option ℕ) (hkp : k ≠ some p) :
    inKeys (L ++ p :: R) se k = inKeys (L ++ R) se k := by
  cases k with
  | none => rfl
  | some y =>
      have hyp : ¬ y = p := fun h2 => hkp (by rw [h2])
      simp [inKeys, List.mem_append, hyp]

theorem inKeys_insertS (bu L R : List ℕ) (p : ℕ) (k : Option ℕ) (hkp : k ≠ some p) :
    inKeys bu (L ++ p :: R) k = inKeys bu (L ++ R) k := by
  cases k with
  | none => rfl
  | some y =>
      have hyp : ¬ y = p := fun h2 => hkp (by rw [h2])
      simp [inKeys, List.mem_append, hyp]

theorem insertStoreBuy (se L R : List ℕ) (q : Option ℕ → List HashData) (p : ℕ)
    (h2 : HashData)
    (hsortb : List.Pairwise (· < ·) (L ++ R))
    (hB0 : ∀ y ∈ L ++ R, y ≠ pmin ∧ y ≠ pmax)
    (hbs : ∀ y ∈ L ++ R, y ∉ se)
    (hs0 : ∀ y ∈ se, y ≠ pmin ∧ y ≠ pmax)
    (hp0 : p ≠ pmin) (hpmax : p ≠ pmax) (hpb : p ∉ L ++ R) (hps : p ∉ se)
    (hL : ∀ a ∈ L, a < p) (hR : ∀ c ∈ R, p < c) :
    swrite (swrite (swrite (ladderStore (L ++ R) se q) (lastKeyB L)
        { lnode (L ++ R) se q (lastKeyB L) with next := some p })
        R.head? { lnode (L ++ R) se q R.head? with prev := some p })
      (some p)
      { price := some p, next := R.head?, prev := lastKeyB L, orders := [h2] } =
    ladderStore (L ++ p :: R) se (fupd q (some p) [h2]) := by
  have hsort2 : List.Pairwise (· < ·) (L ++ p :: R) := pairwise_insert_mid L R p hsortb hL hR
  have hmem12 : ∀ x ∈ L ++ R, x ∈ L ++ p :: R := by
    intro x hx
    rcases List.mem_append.mp hx with h3 | h3
    · exact List.mem_append_left _ h3
    · exact List.mem_append_right _ (List.mem_cons_of_mem p h3)
  have hLmem : ∀ a ∈ L, a ∈ L ++ R := fun a ha => List.mem_append_left R ha
  have hRmem : ∀ c ∈ R, c ∈ L ++ R := fun c hc => List.mem_append_right L hc
  have hB02 : ∀ y ∈ L ++ p :: R, y ≠ pmin ∧ y ≠ pmax := by
    intro y hy
    rcases List.mem_append.mp hy with h3 | h3
    · exact hB0 y (hLmem y h3)
    · rcases List.mem_cons.mp h3 with rfl | h4
      · exact ⟨hp0, hpmax⟩
      · exact hB0 y (hRmem y h4)
  have hbs2 : ∀ y ∈ L ++ p :: R, y ∉ se := by
    intro y hy
    rcases List.mem_append.mp hy with h3 | h3
    · exact hbs y (hLmem y h3)
    · rcases List.mem_cons.mp h3 with rfl | h4
      · exact hps
      · exact hbs y (hRmem y h4)
  have hkfK : inKeys (L ++ R) se (lastKeyB L) = true := inKeys_lastKeyB _ se L hLmem
  have hknK2 : inKeys (L ++ p :: R) se R.head? = true := by
    cases R with
    | nil => exact inKeys_head _ se
    | cons r R2 => exact inKeys_memB _ se r (hmem12 r (hRmem r (List.mem_cons_self r R2)))
  have hkfp : lastKeyB L ≠ some p := by
    rcases lastKeyB_cases L with h3 | ⟨x, hx, h3⟩
    · rw [h3]
      intro h4
      exact hp0 (Option.some_inj.mp h4).symm
    · rw [h3]
      intro h4
      have h5 := hL x hx
      rw [Option.some_inj.mp h4] at h5
      exact lt_irrefl p h5
  have hknp : R.head? ≠ some p := by
    cases R with
    | nil => simp
    | cons r R2 =>
        intro h4
        simp only [List.head?_cons, Option.some_inj] at h4
        subst h4
        exact absurd (hR r (List.mem_cons_self r R2)) (lt_irrefl r)
  have hkfkn : lastKeyB L ≠ R.head? := by
    rcases lastKeyB_cases L with h3 | ⟨x, hx, h3⟩
    · rw [h3]
      cases R with
      | nil => simp
      | cons r R2 =>
          intro h4
          simp only [List.head?_cons, Option.some_inj] at h4
          exact (hB0 r (hRmem r (List.mem_cons_self r R2))).1 h4.symm
    · rw [h3]
      cases R with
      | nil => simp
      | cons r R2 =>
          intro h4
          simp only [List.head?_cons, Option.some_inj] at h4
          have h5 : x < r := lt_trans (hL x hx) (hR r (List.mem_cons_self r R2))
          exact absurd h4 (by omega)
  have hnextp : lnext (L ++ p :: R) se (some p) = R.head? := by
    rw [lnext_buyBranch _ se p hpmax hps]
    have e : L ++ p :: R = (L ++ [p]) ++ R := by simp
    rw [e]
    exact succAbove_split (L ++ [p]) R p
      (fun a ha => by
        rcases List.mem_append.mp ha with h3 | h3
        · exact Nat.le_of_lt (hL a h3)
        · simp only [List.mem_singleton] at h3
          omega)
      hR
  have hprevp : lprev (L ++ p :: R) se (some p) = lastKeyB L :=
    lprev_memBuys se L R p hp0 hpmax hL hR
  have hnextkf2 : lnext (L ++ p :: R) se (lastKeyB L) = some p := by
    have h3 := lnext_lastKeyB se L (p :: R) (List.pairwise_append.mp hsort2).1
      (fun y hy => (hs0 y hy).1)
      (fun a ha => hbs2 a (List.mem_append_left _ ha))
      (fun a ha => (hB02 a (List.mem_append_left _ ha)).2)
      ((List.pairwise_append.mp hsort2).2.2)
      (fun c hc => (hB02 c (List.mem_append_right _ hc)).1)
    rw [h3]
    rfl
  have hprevkf : lprev (L ++ R) se (lastKeyB L) = lprev (L ++ p :: R) se (lastKeyB L) :=
    lprev_stable se L R p (lastKeyB L) hsort2 hbs2 hkfK hkfkn
  have hknK : inKeys (L ++ R) se R.head? = true := by
    cases R with
    | nil => exact inKeys_head _ se
    | cons r R2 => exact inKeys_memB _ se r (hRmem r (List.mem_cons_self r R2))
  have hnextkn : lnext (L ++ R) se R.head? = lnext (L ++ p :: R) se R.head? :=
    lnext_stable se L R p R.head? hsort2 hB02 hknK (fun h3 => hkfkn h3.symm)
  have hprevkn : lprev (L ++ p :: R) se R.head? = some p := by
    cases R with
    | nil =>
        simp only [List.head?_nil]
        rw [lprev_headKey]
        rw [show (L ++ p :: ([] : List ℕ)).getLast? = some p from by
          rw [List.getLast?_append_of_ne_nil L (by simp)]
          rfl]
    | cons r R2 =>
        simp only [List.head?_cons]
        have hrmem := hRmem r (List.mem_cons_self r R2)
        have hA : ∀ a ∈ L ++ [p], a < r := by
          intro a ha
          rcases List.mem_append.mp ha with h3 | h3
          · exact lt_trans (hL a h3) (hR r (List.mem_cons_self r R2))
          · simp only [List.mem_singleton] at h3
            subst h3
            exact hR r (List.mem_cons_self r R2)
        have hsortR : List.Pairwise (· < ·) (r :: R2) :=
          (List.pairwise_append.mp hsortb).2.1
        have hB : ∀ c ∈ R2, r < c := (List.pairwise_cons.mp hsortR).1
        have e : L ++ p :: r :: R2 = (L ++ [p]) ++ r :: R2 := by simp
        rw [e, lprev_memBuys se (L ++ [p]) R2 r (hB0 r hrmem).1 (hB0 r hrmem).2 hA hB,
          lastKeyB_concat]
  have hordp : fupd q (some p) [h2] (some p) = [h2] := if_pos rfl
  have hordne : ∀ k2 : Option ℕ, k2 ≠ some p → fupd q (some p) [h2] k2 = q k2 :=
    fun k2 hk2 => if_neg hk2
  funext k
  by_cases hk1 : k = some p
  · subst hk1
    rw [swrite_at, ladderStore_at (L ++ p :: R) se (fupd q (some p) [h2]) (some p)
      (inKeys_memB _ se p (List.mem_append_right L (List.mem_cons_self p R)))]
    simp only [lnode]
    rw [hnextp, hprevp, hordp]
  · by_cases hk2 : k = R.head?
    · subst hk2
      rw [swrite_ne _ _ _ _ hk1, swrite_at, ladderStore_at _ se _ _ hknK2]
      simp only [lnode]
      rw [hnextkn, hprevkn, hordne _ hk1]
    · by_cases hk3 : k = lastKeyB L
      · subst hk3
        rw [swrite_ne _ _ _ _ hkfp, swrite_ne _ _ _ _ hkfkn, swrite_at,
          ladderStore_at _ se _ _ (by rw [inKeys_insert se L R p _ hkfp]; exact hkfK)]
        simp only [lnode]
        rw [hnextkf2, hprevkf, hordne _ hkfp]
      · rw [swrite_ne _ _ _ _ hk1, swrite_ne _ _ _ _ hk2, swrite_ne _ _ _ _ hk3]
        cases hik : inKeys (L ++ R) se k with
        | false =>
            rw [ladderStore_not _ _ _ _ hik,
              ladderStore_not _ _ _ _ (by rw [inKeys_insert se L R p k hk1]; exact hik)]
        | true =>
            rw [ladderStore_at _ _ _ _ hik,
              ladderStore_at _ _ _ _ (by rw [inKeys_insert se L R p k hk1]; exact hik)]
            simp only [lnode]
            rw [lnext_stable se L R p k hsort2 hB02 hik hk3,
              lprev_stable se L R p k hsort2 hbs2 hik hk2,
              hordne k hk1]

theorem append_newBuy (se L R : List ℕ) (q : Option ℕ → List HashData) (p : ℕ)
    (h2 : HashData) (fuel : ℕ)
    (hsortb : List.Pairwise (· < ·) (L ++ R))
    (hB0 : ∀ y ∈ L ++ R, y ≠ pmin ∧ y ≠ pmax)
    (hbs : ∀ y ∈ L ++ R, y ∉ se)
    (hs0 : ∀ y ∈ se, y ≠ pmin ∧ y ≠ pmax)
    (hp0 : p ≠ pmin) (hpmax : p ≠ pmax) (hpb : p ∉ L ++ R) (hps : p ∉ se)
    (hL : ∀ a ∈ L, a < p) (hR : ∀ c ∈ R, p < c)
    (hfuel : L.length + 1 ≤ fuel) :
    append fuel (ladderStore (L ++ R) se q) p h2 OrderType.Buy =
      ladderStore (L ++ p :: R) se (fupd q (some p) [h2]) := by
  have hLmem : ∀ a ∈ L, a ∈ L ++ R := fun a ha => List.mem_append_left R ha
  have hRmem : ∀ c ∈ R, c ∈ L ++ R := fun c hc => List.mem_append_right L hc
  have hnotk : ladderStore (L ++ R) se q (some p) = none :=
    ladderStore_not _ _ _ _ (inKeys_false _ _ _ hp0 hpmax hpb hps)
  have hbot : lread (ladderStore (L ++ R) se q) (some pmin) =
      (lnode (L ++ R) se q (some pmin), ladderStore (L ++ R) se q) :=
    lread_at _ _ _ _ (inKeys_bottom _ _)
  have hwalk := walkBuy (L ++ R) se L R q p rfl hsortb hB0 hbs hs0 hL hR L [] fuel
    (by simp) hfuel
  rw [show lastKeyB ([] : List ℕ) = some pmin from rfl] at hwalk
  have hnextkf1 : lnext (L ++ R) se (lastKeyB L) = R.head? :=
    lnext_lastKeyB se L R (List.pairwise_append.mp hsortb).1
      (fun y hy => (hs0 y hy).1)
      (fun a ha => hbs a (hLmem a ha))
      (fun a ha => (hB0 a (hLmem a ha)).2)
      (fun a ha c hc => lt_trans (hL a ha) (hR c hc))
      (fun c hc => (hB0 c (hRmem c hc)).1)
  have hkfkn : lastKeyB L ≠ R.head? := by
    rcases lastKeyB_cases L with h3 | ⟨x, hx, h3⟩
    · rw [h3]
      cases R with
      | nil => simp
      | cons r R2 =>
          intro h4
          simp only [List.head?_cons, Option.some_inj] at h4
          exact (hB0 r (hRmem r (List.mem_cons_self r R2))).1 h4.symm
    · rw [h3]
      cases R with
      | nil => simp
      | cons r R2 =>
          intro h4
          simp only [List.head?_cons, Option.some_inj] at h4
          have h5 : x < r := lt_trans (hL x hx) (hR r (List.mem_cons_self r R2))
          exact absurd h4 (by omega)
  have hknK : inKeys (L ++ R) se R.head? = true := by
    cases R with
    | nil => exact inKeys_head _ se
    | cons r R2 => exact inKeys_memB _ se r (hRmem r (List.mem_cons_self r R2))
  have hlr2 : ∀ it : Item, lread (swrite (ladderStore (L ++ R) se q) (lastKeyB L) it)
      R.head? = (lnode (L ++ R) se q R.head?,
        swrite (ladderStore (L ++ R) se q) (lastKeyB L) it) := fun it =>
    lread_some _ _ _ (by
      rw [swrite_ne _ _ _ _ (fun h3 => hkfkn h3.symm), ladderStore_at _ _ _ _ hknK])
  simp only [append, hnotk, hbot, hwalk, lnode_next, lnode_price, hnextkf1, hlr2]
  exact insertStoreBuy se L R q p h2 hsortb hB0 hbs hs0 hp0 hpmax hpb hps hL hR

theorem append_existing (b se : List ℕ) (q : Option ℕ → List HashData) (p : ℕ)
    (h2 : HashData) (ot : OrderType) (fuel : ℕ)
    (hk : inKeys b se (some p) = true) :
    append fuel (ladderStore b se q) p h2 ot =
      ladderStore b se (fupd q (some p) (q (some p) ++ [h2])) := by
  simp only [append, ladderStore_at b se q (some p) hk]
  exact swrite_queue b se q p (q (some p) ++ [h2]) hk

theorem insertStoreSell (bu L R : List ℕ) (q : Option ℕ → List HashData) (p : ℕ)
    (h2 : HashData)
    (hsortse : List.Pairwise (· < ·) (L ++ R))
    (hS0 : ∀ y ∈ L ++ R, y ≠ pmin ∧ y ≠ pmax)
    (hsb : ∀ y ∈ L ++ R, y ∉ bu)
    (hp0 : p ≠ pmin) (hpmax : p ≠ pmax) (hpbu : p ∉ bu) (hpse : p ∉ L ++ R)
    (hL : ∀ a ∈ L, a < p) (hR : ∀ c ∈ R, p < c) :
    swrite (swrite (swrite (ladderStore bu (L ++ R) q) L.getLast?
        { lnode bu (L ++ R) q L.getLast? with next := some p })
        (headKeyS R) { lnode bu (L ++ R) q (headKeyS R) with prev := some p })
      (some p)
      { price := some p, next := headKeyS R, prev := L.getLast?, orders := [h2] } =
    ladderStore bu (L ++ p :: R) (fupd q (some p) [h2]) := by
  have hsort2 : List.Pairwise (· < ·) (L ++ p :: R) := pairwise_insert_mid L R p hsortse hL hR
  have hmem12 : ∀ x ∈ L ++ R, x ∈ L ++ p :: R := by
    intro x hx
    rcases List.mem_append.mp hx with h3 | h3
    · exact List.mem_append_left _ h3
    · exact List.mem_append_right _ (List.mem_cons_of_mem p h3)
  have hLmem : ∀ a ∈ L, a ∈ L ++ R := fun a ha => List.mem_append_left R ha
  have hRmem : ∀ c ∈ R, c ∈ L ++ R := fun c hc => List.mem_append_right L hc
  have hS02 : ∀ y ∈ L ++ p :: R, y ≠ pmin ∧ y ≠ pmax := by
    intro y hy
    rcases List.mem_append.mp hy with h3 | h3
    · exact hS0 y (hLmem y h3)
    · rcases List.mem_cons.mp h3 with rfl | h4
      · exact ⟨hp0, hpmax⟩
      · exact hS0 y (hRmem y h4)
  have hsb2 : ∀ y ∈ L ++ p :: R, y ∉ bu := by
    intro y hy
    rcases List.mem_append.mp hy with h3 | h3
    · exact hsb y (hLmem y h3)
    · rcases List.mem_cons.mp h3 with rfl | h4
      · exact hpbu
      · exact hsb y (hRmem y h4)
  have hkfK : inKeys bu (L ++ R) L.getLast? = true := by
    cases h3 : L.getLast? with
    | none => exact inKeys_head bu _
    | some x =>
        obtain ⟨L1, hL1⟩ := getLast?_decomp L x h3
        have hxL : x ∈ L := by rw [hL1]; simp
        exact inKeys_memS bu _ x (hLmem x hxL)
  have hknK : inKeys bu (L ++ R) (headKeyS R) = true := by
    cases R with
    | nil => exact inKeys_top bu _
    | cons r R2 => exact inKeys_memS bu _ r (hRmem r (List.mem_cons_self r R2))
  have hknK2 : inKeys bu (L ++ p :: R) (headKeyS R) = true := by
    cases R with
    | nil => exact inKeys_top bu _
    | cons r R2 => exact inKeys_memS bu _ r (hmem12 r (hRmem r (List.mem_cons_self r R2)))
  have hkfp : L.getLast? ≠ some p := by
    cases h3 : L.getLast? with
    | none => simp
    | some x =>
        obtain ⟨L1, hL1⟩ := getLast?_decomp L x h3
        have hxL : x ∈ L := by rw [hL1]; simp
        intro h4
        have h5 := hL x hxL
        rw [Option.some_inj.mp h4] at h5
        exact lt_irrefl p h5
  have hknp : headKeyS R ≠ some p := by
    cases R with
    | nil =>
        intro h4
        simp only [headKeyS, List.head?_nil] at h4
        exact hpmax (Option.some_inj.mp h4).symm
    | cons r R2 =>
        intro h4
        simp only [headKeyS, List.head?_cons] at h4
        have h5 := hR r (List.mem_cons_self r R2)
        rw [Option.some_inj.mp h4] at h5
        exact lt_irrefl p h5
  have hkfkn : L.getLast? ≠ headKeyS R := by
    cases h3 : L.getLast? with
    | none =>
        cases R with
        | nil => simp [headKeyS]
        | cons r R2 => simp [headKeyS]
    | some x =>
        obtain ⟨L1, hL1⟩ := getLast?_decomp L x h3
        have hxL : x ∈ L := by rw [hL1]; simp
        cases R with
        | nil =>
            intro h4
            simp only [headKeyS, List.head?_nil, Option.some_inj] at h4
            exact (hS0 x (hLmem x hxL)).2 h4
        | cons r R2 =>
            intro h4
            simp only [headKeyS, List.head?_cons, Option.some_inj] at h4
            have h5 : x < r := lt_trans (hL x hxL) (hR r (List.mem_cons_self r R2))
            exact absurd h4 (by omega)
  have hnextp : lnext bu (L ++ p :: R) (some p) = headKeyS R := by
    rw [lnext_sellBranch _ _ _ hpmax (List.mem_append_right L (List.mem_cons_self p R))]
    have e : L ++ p :: R = (L ++ [p]) ++ R := by simp
    rw [e, succAbove_split (L ++ [p]) R p
      (fun a ha => by
        rcases List.mem_append.mp ha with h3 | h3
        · exact Nat.le_of_lt (hL a h3)
        · simp only [List.mem_singleton] at h3
          omega)
      hR]
    unfold headKeyS
    rfl
  have hprevp : lprev bu (L ++ p :: R) (some p) = L.getLast? :=
    lprev_memSells bu L R p hp0 hpmax hpbu hL hR
  have hnextkf2 : lnext bu (L ++ p :: R) L.getLast? = some p := by
    have h3 := lnext_lastKeyS bu (L ++ p :: R) L (p :: R) rfl
      (List.pairwise_append.mp hsort2).1
      (fun a ha => (hS02 a (List.mem_append_left _ ha)).2)
      ((List.pairwise_append.mp hsort2).2.2)
    rw [h3]
    rfl
  have hprevkf : lprev bu (L ++ R) L.getLast? = lprev bu (L ++ p :: R) L.getLast? :=
    lprev_stableS bu L R p L.getLast? hsort2 hS02 hsb2 hkfK hkfkn
  have hnextkn : lnext bu (L ++ R) (headKeyS R) = lnext bu (L ++ p :: R) (headKeyS R) :=
    lnext_stableS bu L R p (headKeyS R) hsort2 hS02 hsb2 hknK (fun h3 => hkfkn h3.symm)
  have hprevkn : lprev bu (L ++ p :: R) (headKeyS R) = some p := by
    cases R with
    | nil =>
        simp only [headKeyS, List.head?_nil]
        rw [lprev_topKey]
        rw [show (L ++ p :: ([] : List ℕ)).getLast? = some p from by
          rw [List.getLast?_append_of_ne_nil L (by simp)]
          rfl]
    | cons r R2 =>
        simp only [headKeyS, List.head?_cons]
        have hrmem := hRmem r (List.mem_cons_self r R2)
        have hA : ∀ a ∈ L ++ [p], a < r := by
          intro a ha
          rcases List.mem_append.mp ha with h3 | h3
          · exact lt_trans (hL a h3) (hR r (List.mem_cons_self r R2))
          · simp only [List.mem_singleton] at h3
            subst h3
            exact hR r (List.mem_cons_self r R2)
        have hsortR : List.Pairwise (· < ·) (r :: R2) :=
          (List.pairwise_append.mp hsortse).2.1
        have hB : ∀ c ∈ R2, r < c := (List.pairwise_cons.mp hsortR).1
        have e : L ++ p :: r :: R2 = (L ++ [p]) ++ r :: R2 := by simp
        rw [e, lprev_memSells bu (L ++ [p]) R2 r (hS0 r hrmem).1 (hS0 r hrmem).2
          (hsb r hrmem) hA hB]
        rw [List.getLast?_append_of_ne_nil L (by simp)]
        rfl
  have hordp : fupd q (some p) [h2] (some p) = [h2] := if_pos rfl
  have hordne : ∀ k2 : Option ℕ, k2 ≠ some p → fupd q (some p) [h2] k2 = q k2 :=
    fun k2 hk2 => if_neg hk2
  funext k
  by_cases hk1 : k = some p
  · subst hk1
    rw [swrite_at, ladderStore_at bu (L ++ p :: R) (fupd q (some p) [h2]) (some p)
      (inKeys_memS bu _ p (List.mem_append_right L (List.mem_cons_self p R)))]
    simp only [lnode]
    rw [hnextp, hprevp, hordp]
  · by_cases hk2 : k = headKeyS R
    · subst hk2
      rw [swrite_ne _ _ _ _ hk1, swrite_at, ladderStore_at bu _ _ _ hknK2]
      simp only [lnode]
      rw [hnextkn, hprevkn, hordne _ hk1]
    · by_cases hk3 : k = L.getLast?
      · subst hk3
        rw [swrite_ne _ _ _ _ hkfp, swrite_ne _ _ _ _ hkfkn, swrite_at,
          ladderStore_at bu _ _ _ (by rw [inKeys_insertS bu L R p _ hkfp]; exact hkfK)]
        simp only [lnode]
        rw [hnextkf2, hprevkf, hordne _ hkfp]
      · rw [swrite_ne _ _ _ _ hk1, swrite_ne _ _ _ _ hk2, swrite_ne _ _ _ _ hk3]
        cases hik : inKeys bu (L ++ R) k with
        | false =>
            rw [ladderStore_not _ _ _ _ hik,
              ladderStore_not _ _ _ _ (by rw [inKeys_insertS bu L R p k hk1]; exact hik)]
        | true =>
            rw [ladderStore_at _ _ _ _ hik,
              ladderStore_at _ _ _ _ (by rw [inKeys_insertS bu L R p k hk1]; exact hik)]
            simp only [lnode]
            rw [lnext_stableS bu L R p k hsort2 hS02 hsb2 hik hk3,
              lprev_stableS bu L R p k hsort2 hS02 hsb2 hik hk2,
              hordne k hk1]

theorem append_newSell (bu L R : List ℕ) (q : Option ℕ → List HashData) (p : ℕ)
    (h2 : HashData) (fuel : ℕ)
    (hsortse : List.Pairwise (· < ·) (L ++ R))
    (hS0 : ∀ y ∈ L ++ R, y ≠ pmin ∧ y ≠ pmax)
    (hsb : ∀ y ∈ L ++ R, y ∉ bu)
    (hp0 : p ≠ pmin) (hpmax : p ≠ pmax) (hpbu : p ∉ bu) (hpse : p ∉ L ++ R)
    (hL : ∀ a ∈ L, a < p) (hR : ∀ c ∈ R, p < c)
    (hfuel : L.length + 1 ≤ fuel) :
    append fuel (ladderStore bu (L ++ R) q) p h2 OrderType.Sell =
      ladderStore bu (L ++ p :: R) (fupd q (some p) [h2]) := by
  have hLmem : ∀ a ∈ L, a ∈ L ++ R := fun a ha => List.mem_append_left R ha
  have hRmem : ∀ c ∈ R, c ∈ L ++ R := fun c hc => List.mem_append_right L hc
  have hnotk : ladderStore bu (L ++ R) q (some p) = none :=
    ladderStore_not _ _ _ _ (inKeys_false _ _ _ hp0 hpmax hpbu hpse)
  have hhead : lread (ladderStore bu (L ++ R) q) none =
      (lnode bu (L ++ R) q none, ladderStore bu (L ++ R) q) :=
    lread_at _ _ _ _ (inKeys_head _ _)
  have hwalk := walkSell bu (L ++ R) L R q p rfl hsortse hS0 hL hR L [] fuel
    (by simp) hfuel
  rw [show ([] : List ℕ).getLast? = (none : Option ℕ) from rfl] at hwalk
  have hnextkf1 : lnext bu (L ++ R) L.getLast? = headKeyS R :=
    lnext_lastKeyS bu (L ++ R) L R rfl (List.pairwise_append.mp hsortse).1
      (fun a ha => (hS0 a (hLmem a ha)).2)
      (fun a ha c hc => lt_trans (hL a ha) (hR c hc))
  have hkfkn : L.getLast? ≠ headKeyS R := by
    cases h3 : L.getLast? with
    | none =>
        cases R with
        | nil => simp [headKeyS]
        | cons r R2 => simp [headKeyS]
    | some x =>
        obtain ⟨L1, hL1⟩ := getLast?_decomp L x h3
        have hxL : x ∈ L := by rw [hL1]; simp
        cases R with
        | nil =>
            intro h4
            simp only [headKeyS, List.head?_nil, Option.some_inj] at h4
            exact (hS0 x (hLmem x hxL)).2 h4
        | cons r R2 =>
            intro h4
            simp only [headKeyS, List.head?_cons, Option.some_inj] at h4
            have h5 : x < r := lt_trans (hL x hxL) (hR r (List.mem_cons_self r R2))
            exact absurd h4 (by omega)
  have hknK : inKeys bu (L ++ R) (headKeyS R) = true := by
    cases R with
    | nil => exact inKeys_top bu _
    | cons r R2 => exact inKeys_memS bu _ r (hRmem r (List.mem_cons_self r R2))
  have hlr2 : ∀ it : Item, lread (swrite (ladderStore bu (L ++ R) q) L.getLast? it)
      (headKeyS R) = (lnode bu (L ++ R) q (headKeyS R),
        swrite (ladderStore bu (L ++ R) q) L.getLast? it) := fun it =>
    lread_some _ _ _ (by
      rw [swrite_ne _ _ _ _ (fun h3 => hkfkn h3.symm), ladderStore_at _ _ _ _ hknK])
  simp only [append, hnotk, hhead, hwalk, lnode_next, lnode_price, hnextkf1, hlr2]
  exact insertStoreSell bu L R q p h2 hsortse hS0 hsb hp0 hpmax hpbu hpse hL hR

theorem remove_absent (om : OrdersMap) (s : Store) (p : ℕ) (h : s (some p) = none) :
    remove_item om s p = (s, none) := by
  unfold remove_item
  rw [h]

theorem popOrders_ladder (om : OrdersMap) (b se : List ℕ) (p : ℕ)
    (hk : inKeys b se (some p) = true) :
    ∀ (l : List HashData) (q : Option ℕ → List HashData), q (some p) = l →
      ∃ q2 err, popOrders om p l (lnode b se q (some p)) (ladderStore b se q) =
        (ladderStore b se q2, err) ∧ (err = none → q2 (some p) = []) := by
  intro l
  induction l with
  | nil =>
      intro q hq
      exact ⟨q, none, rfl, fun _ => hq⟩
  | cons oh rest ih =>
      intro q hq
      cases hom : om oh with
      | none =>
          exact ⟨q, some "can not get order", by simp [popOrders, hom], by simp⟩
      | some ord =>
          cases hf : ord.is_finished with
          | false =>
              exact ⟨q, some "try to remove not finished order",
                by simp [popOrders, hom, hf], by simp⟩
          | true =>
              obtain ⟨q2, err, hrec, himp⟩ := ih (fupd q (some p) rest) (if_pos rfl)
              refine ⟨q2, err, ?_, himp⟩
              simp only [popOrders, hom, hf, if_true]
              show popOrders om p rest { lnode b se q (some p) with orders := rest }
                  (swrite (ladderStore b se q) (some p)
                    { lnode b se q (some p) with orders := rest }) =
                (ladderStore b se q2, err)
              rw [swrite_queue b se q p rest hk, lnode_queue]
              exact hrec

theorem deleteStoreBuy (se L R : List ℕ) (q1 : Option ℕ → List HashData) (p : ℕ)
    (hsortb : List.Pairwise (· < ·) (L ++ p :: R))
    (hB0 : ∀ y ∈ L ++ p :: R, y ≠ pmin ∧ y ≠ pmax)
    (hbs : ∀ y ∈ L ++ p :: R, y ∉ se)
    (hs0 : ∀ y ∈ se, y ≠ pmin ∧ y ≠ pmax) :
    swrite (swrite (fun k => if k = some p then none else ladderStore (L ++ p :: R) se q1 k)
        (lastKeyB L) { lnode (L ++ p :: R) se q1 (lastKeyB L) with next := R.head? })
      R.head? { lnode (L ++ p :: R) se q1 R.head? with prev := lastKeyB L } =
    ladderStore (L ++ R) se q1 := by
  obtain ⟨hLp, hpR⟩ := pairwise_parts L R p hsortb
  have hsortLR : List.Pairwise (· < ·) (L ++ R) := pairwise_drop_mid L R p hsortb
  have hmem12 : ∀ x ∈ L ++ R, x ∈ L ++ p :: R := by
    intro x hx
    rcases List.mem_append.mp hx with h3 | h3
    · exact List.mem_append_left _ h3
    · exact List.mem_append_right _ (List.mem_cons_of_mem p h3)
  have hpmem : p ∈ L ++ p :: R := List.mem_append_right L (List.mem_cons_self p R)
  have hp0 : p ≠ pmin := (hB0 p hpmem).1
  have hpmax : p ≠ pmax := (hB0 p hpmem).2
  have hpse : p ∉ se := hbs p hpmem
  have hLmem : ∀ a ∈ L, a ∈ L ++ R := fun a ha => List.mem_append_left R ha
  have hRmem : ∀ c ∈ R, c ∈ L ++ R := fun c hc => List.mem_append_right L hc
  have hB0r : ∀ y ∈ L ++ R, y ≠ pmin ∧ y ≠ pmax := fun y hy => hB0 y (hmem12 y hy)
  have hbsr : ∀ y ∈ L ++ R, y ∉ se := fun y hy => hbs y (hmem12 y hy)
  have hpL : p ∉ L := fun hc => lt_irrefl p (hLp p hc)
  have hpRm : p ∉ R := fun hc => lt_irrefl p (hpR p hc)
  have hpLR : p ∉ L ++ R := by
    intro hc
    rcases List.mem_append.mp hc with h3 | h3
    · exact hpL h3
    · exact hpRm h3
  have hpnotin : inKeys (L ++ R) se (some p) = false :=
    inKeys_false _ _ _ hp0 hpmax hpLR hpse
  have hkfK : inKeys (L ++ R) se (lastKeyB L) = true := inKeys_lastKeyB _ se L hLmem
  have hknK : inKeys (L ++ R) se R.head? = true := by
    cases R with
    | nil => exact inKeys_head _ se
    | cons r R2 => exact inKeys_memB _ se r (hRmem r (List.mem_cons_self r R2))
  have hkfp : lastKeyB L ≠ some p := by
    rcases lastKeyB_cases L with h3 | ⟨x, hx, h3⟩
    · rw [h3]
      intro h4
      exact hp0 (Option.some_inj.mp h4).symm
    · rw [h3]
      intro h4
      have h5 := hLp x hx
      rw [Option.some_inj.mp h4] at h5
      exact lt_irrefl p h5
  have hkfkn : lastKeyB L ≠ R.head? := by
    rcases lastKeyB_cases L with h3 | ⟨x, hx, h3⟩
    · rw [h3]
      cases R with
      | nil => simp
      | cons r R2 =>
          intro h4
          simp only [List.head?_cons, Option.some_inj] at h4
          exact (hB0r r (hRmem r (List.mem_cons_self r R2))).1 h4.symm
    · rw [h3]
      cases R with
      | nil => simp
      | cons r R2 =>
          intro h4
          simp only [List.head?_cons, Option.some_inj] at h4
          have h5 : x < r := lt_trans (hLp x hx) (hpR r (List.mem_cons_self r R2))
          exact absurd h4 (by omega)
  have hnextkf1 : lnext (L ++ R) se (lastKeyB L) = R.head? :=
    lnext_lastKeyB se L R (List.pairwise_append.mp hsortLR).1
      (fun y hy => (hs0 y hy).1)
      (fun a ha => hbsr a (hLmem a ha))
      (fun a ha => (hB0r a (hLmem a ha)).2)
      (fun a ha c hc => lt_trans (hLp a ha) (hpR c hc))
      (fun c hc => (hB0r c (hRmem c hc)).1)
  have hnextkf2 : lnext (L ++ p :: R) se (lastKeyB L) = some p := by
    have h3 := lnext_lastKeyB se L (p :: R) (List.pairwise_append.mp hsortb).1
      (fun y hy => (hs0 y hy).1)
      (fun a ha => hbs a (List.mem_append_left _ ha))
      (fun a ha => (hB0 a (List.mem_append_left _ ha)).2)
      ((List.pairwise_append.mp hsortb).2.2)
      (fun c hc => (hB0 c (List.mem_append_right _ hc)).1)
    rw [h3]
    rfl
  have hprevkf : lprev (L ++ R) se (lastKeyB L) = lprev (L ++ p :: R) se (lastKeyB L) :=
    lprev_stable se L R p (lastKeyB L) hsortb hbs hkfK hkfkn
  have hnextkn : lnext (L ++ R) se R.head? = lnext (L ++ p :: R) se R.head? :=
    lnext_stable se L R p R.head? hsortb hB0 hknK (fun h3 => hkfkn h3.symm)
  have hprevknOld : lprev (L ++ R) se R.head? = lastKeyB L := by
    cases R with
    | nil =>
        simp only [List.head?_nil]
        rw [lprev_headKey, List.append_nil]
        unfold lastKeyB
        rcases L.getLast? with _ | y <;> rfl
    | cons r R2 =>
        simp only [List.head?_cons]
        have hrmem := hRmem r (List.mem_cons_self r R2)
        have hAr : ∀ a ∈ L, a < r :=
          fun a ha => lt_trans (hLp a ha) (hpR r (List.mem_cons_self r R2))
        have hsortR : List.Pairwise (· < ·) (r :: R2) :=
          (List.pairwise_append.mp hsortLR).2.1
        have hBr : ∀ c ∈ R2, r < c := (List.pairwise_cons.mp hsortR).1
        exact lprev_memBuys se L R2 r (hB0r r hrmem).1 (hB0r r hrmem).2 hAr hBr
  funext k
  by_cases hk2 : k = R.head?
  · subst hk2
    rw [swrite_at, ladderStore_at _ _ _ _ hknK]
    simp only [lnode]
    rw [hnextkn, hprevknOld]
  · by_cases hk3 : k = lastKeyB L
    · subst hk3
      rw [swrite_ne _ _ _ _ hkfkn, swrite_at, ladderStore_at _ _ _ _ hkfK]
      simp only [lnode]
      rw [hnextkf1, hprevkf]
    · rw [swrite_ne _ _ _ _ hk2, swrite_ne _ _ _ _ hk3]
      show (if k = some p then none else ladderStore (L ++ p :: R) se q1 k) =
        ladderStore (L ++ R) se q1 k
      by_cases hk1 : k = some p
      · subst hk1
        rw [if_pos rfl, ladderStore_not _ _ _ _ hpnotin]
      · rw [if_neg hk1]
        cases hik : inKeys (L ++ R) se k with
        | false =>
            rw [ladderStore_not _ _ _ _ hik,
              ladderStore_not _ _ _ _ (by rw [inKeys_insert se L R p k hk1]; exact hik)]
        | true =>
            rw [ladderStore_at _ _ _ _ hik,
              ladderStore_at _ _ _ _ (by rw [inKeys_insert se L R p k hk1]; exact hik)]
            simp only [lnode]
            rw [lnext_stable se L R p k hsortb hB0 hik hk3,
              lprev_stable se L R p k hsortb hbs hik hk2]

theorem remove_buy (om : OrdersMap) (se L R : List ℕ) (q : Option ℕ → List HashData)
    (p : ℕ)
    (hsortb : List.Pairwise (· < ·) (L ++ p :: R))
    (hB0 : ∀ y ∈ L ++ p :: R, y ≠ pmin ∧ y ≠ pmax)
    (hbs : ∀ y ∈ L ++ p :: R, y ∉ se)
    (hs0 : ∀ y ∈ se, y ≠ pmin ∧ y ≠ pmax) :
    ∃ q2 err, remove_item om (ladderStore (L ++ p :: R) se q) p =
      ((match err with
        | some _ => ladderStore (L ++ p :: R) se q2
        | none => ladderStore (L ++ R) se q2), err) := by
  obtain ⟨hLp, hpR⟩ := pairwise_parts L R p hsortb
  have hpmem : p ∈ L ++ p :: R := List.mem_append_right L (List.mem_cons_self p R)
  have hp0 : p ≠ pmin := (hB0 p hpmem).1
  have hpmax : p ≠ pmax := (hB0 p hpmem).2
  have hpse : p ∉ se := hbs p hpmem
  have hk : inKeys (L ++ p :: R) se (some p) = true := inKeys_memB _ se p hpmem
  have hnode : ladderStore (L ++ p :: R) se q (some p) =
      some (lnode (L ++ p :: R) se q (some p)) := ladderStore_at _ _ _ _ hk
  obtain ⟨q1, err, hpop, himp⟩ :=
    popOrders_ladder om (L ++ p :: R) se p hk (q (some p)) q rfl
  have hprevp : lprev (L ++ p :: R) se (some p) = lastKeyB L :=
    lprev_memBuys se L R p hp0 hpmax hLp hpR
  have hnextp : lnext (L ++ p :: R) se (some p) = R.head? := by
    rw [lnext_buyBranch _ se p hpmax hpse]
    have e : L ++ p :: R = (L ++ [p]) ++ R := by simp
    rw [e]
    exact succAbove_split (L ++ [p]) R p
      (fun a ha => by
        rcases List.mem_append.mp ha with h3 | h3
        · exact Nat.le_of_lt (hLp a h3)
        · simp only [List.mem_singleton] at h3
          omega)
      hpR
  have hkfp : lastKeyB L ≠ some p := by
    rcases lastKeyB_cases L with h3 | ⟨x, hx, h3⟩
    · rw [h3]
      intro h4
      exact hp0 (Option.some_inj.mp h4).symm
    · rw [h3]
      intro h4
      have h5 := hLp x hx
      rw [Option.some_inj.mp h4] at h5
      exact lt_irrefl p h5
  have hknp : R.head? ≠ some p := by
    cases R with
    | nil => simp
    | cons r R2 =>
        intro h4
        simp only [List.head?_cons, Option.some_inj] at h4
        have h5 := hpR r (List.mem_cons_self r R2)
        rw [h4] at h5
        exact lt_irrefl p h5
  have hkfkn : lastKeyB L ≠ R.head? := by
    rcases lastKeyB_cases L with h3 | ⟨x, hx, h3⟩
    · rw [h3]
      cases R with
      | nil => simp
      | cons r R2 =>
          intro h4
          simp only [List.head?_cons, Option.some_inj] at h4
          exact (hB0 r (List.mem_append_right L (List.mem_cons_of_mem p
            (List.mem_cons_self r R2)))).1 h4.symm
    · rw [h3]
      cases R with
      | nil => simp
      | cons r R2 =>
          intro h4
          simp only [List.head?_cons, Option.some_inj] at h4
          have h5 : x < r := lt_trans (hLp x hx) (hpR r (List.mem_cons_self r R2))
          exact absurd h4 (by omega)
  have hknK2 : inKeys (L ++ p :: R) se R.head? = true := by
    cases R with
    | nil => exact inKeys_head _ se
    | cons r R2 =>
        exact inKeys_memB _ se r (List.mem_append_right L (List.mem_cons_of_mem p
          (List.mem_cons_self r R2)))
  have hif1 : (if lastKeyB L = some p then none
      else ladderStore (L ++ p :: R) se q1 (lastKeyB L)) =
      some (lnode (L ++ p :: R) se q1 (lastKeyB L)) := by
    rw [if_neg hkfp, ladderStore_at _ _ _ _ (by
      rw [show inKeys (L ++ p :: R) se (lastKeyB L) = true from
        inKeys_lastKeyB _ se L (fun a ha => List.mem_append_left _ ha)])]
  have hif2 : ∀ it : Item,
      swrite (fun k => if k = some p then none else ladderStore (L ++ p :: R) se q1 k)
        (lastKeyB L) it R.head? = some (lnode (L ++ p :: R) se q1 R.head?) := by
    intro it
    rw [swrite_ne _ _ _ _ (fun h3 => hkfkn h3.symm)]
    show (if R.head? = some p then none else ladderStore (L ++ p :: R) se q1 R.head?) = _
    rw [if_neg hknp, ladderStore_at _ _ _ _ hknK2]
  cases err with
  | some e =>
      refine ⟨q1, some e, ?_⟩
      simp only [remove_item, hnode, lnode_orders, hpop]
  | none =>
      refine ⟨q1, none, ?_⟩
      have hnode1 : ladderStore (L ++ p :: R) se q1 (some p) =
          some (lnode (L ++ p :: R) se q1 (some p)) := ladderStore_at _ _ _ _ hk
      simp only [remove_item, hnode, lnode_orders, hpop, hnode1, lnode_prev, lnode_next,
        lnode_price, hprevp, hnextp, hif1, hif2]
      exact congrArg (fun s => (s, (none : Option String)))
        (deleteStoreBuy se L R q1 p hsortb hB0 hbs hs0)

theorem deleteStoreSell (bu L R : List ℕ) (q1 : Option ℕ → List HashData) (p : ℕ)
    (hsortse : List.Pairwise (· < ·) (L ++ p :: R))
    (hS0 : ∀ y ∈ L ++ p :: R, y ≠ pmin ∧ y ≠ pmax)
    (hsb : ∀ y ∈ L ++ p :: R, y ∉ bu) :
    swrite (swrite (fun k => if k = some p then none else ladderStore bu (L ++ p :: R) q1 k)
        L.getLast? { lnode bu (L ++ p :: R) q1 L.getLast? with next := headKeyS R })
      (headKeyS R) { lnode bu (L ++ p :: R) q1 (headKeyS R) with prev := L.getLast? } =
    ladderStore bu (L ++ R) q1 := by
  obtain ⟨hLp, hpR⟩ := pairwise_parts L R p hsortse
  have hsortLR : List.Pairwise (· < ·) (L ++ R) := pairwise_drop_mid L R p hsortse
  have hmem12 : ∀ x ∈ L ++ R, x ∈ L ++ p :: R := by
    intro x hx
    rcases List.mem_append.mp hx with h3 | h3
    · exact List.mem_append_left _ h3
    · exact List.mem_append_right _ (List.mem_cons_of_mem p h3)
  have hpmem : p ∈ L ++ p :: R := List.mem_append_right L (List.mem_cons_self p R)
  have hp0 : p ≠ pmin := (hS0 p hpmem).1
  have hpmax : p ≠ pmax := (hS0 p hpmem).2
  have hpbu : p ∉ bu := hsb p hpmem
  have hLmem : ∀ a ∈ L, a ∈ L ++ R := fun a ha => List.mem_append_left R ha
  have hRmem : ∀ c ∈ R, c ∈ L ++ R := fun c hc => List.mem_append_right L hc
  have hS0r : ∀ y ∈ L ++ R, y ≠ pmin ∧ y ≠ pmax := fun y hy => hS0 y (hmem12 y hy)
  have hsbr : ∀ y ∈ L ++ R, y ∉ bu := fun y hy => hsb y (hmem12 y hy)
  have hpL : p ∉ L := fun hc => lt_irrefl p (hLp p hc)
  have hpRm : p ∉ R := fun hc => lt_irrefl p (hpR p hc)
  have hpLR : p ∉ L ++ R := by
    intro hc
    rcases List.mem_append.mp hc with h3 | h3
    · exact hpL h3
    · exact hpRm h3
  have hpnotin : inKeys bu (L ++ R) (some p) = false :=
    inKeys_false _ _ _ hp0 hpmax hpbu hpLR
  have hkfK : inKeys bu (L ++ R) L.getLast? = true := by
    cases h3 : L.getLast? with
    | none => exact inKeys_head bu _
    | some x =>
        obtain ⟨L1, hL1⟩ := getLast?_decomp L x h3
        have hxL : x ∈ L := by rw [hL1]; simp
        exact inKeys_memS bu _ x (hLmem x hxL)
  have hknK : inKeys bu (L ++ R) (headKeyS R) = true := by
    cases R with
    | nil => exact inKeys_top bu _
    | cons r R2 => exact inKeys_memS bu _ r (hRmem r (List.mem_cons_self r R2))
  have hkfp : L.getLast? ≠ some p := by
    cases h3 : L.getLast? with
    | none => simp
    | some x =>
        obtain ⟨L1, hL1⟩ := getLast?_decomp L x h3
        have hxL : x ∈ L := by rw [hL1]; simp
        intro h4
        have h5 := hLp x hxL
        rw [Option.some_inj.mp h4] at h5
        exact lt_irrefl p h5
  have hkfkn : L.getLast? ≠ headKeyS R := by
    cases h3 : L.getLast? with
    | none =>
        cases R with
        | nil => simp [headKeyS]
        | cons r R2 => simp [headKeyS]
    | some x =>
        obtain ⟨L1, hL1⟩ := getLast?_decomp L x h3
        have hxL : x ∈ L := by rw [hL1]; simp
        cases R with
        | nil =>
            intro h4
            simp only [headKeyS, List.head?_nil, Option.some_inj] at h4
            exact (hS0r x (hLmem x hxL)).2 h4
        | cons r R2 =>
            intro h4
            simp only [headKeyS, List.head?_cons, Option.some_inj] at h4
            have h5 : x < r := lt_trans (hLp x hxL) (hpR r (List.mem_cons_self r R2))
            exact absurd h4 (by omega)
  have hnextkf1 : lnext bu (L ++ R) L.getLast? = headKeyS R :=
    lnext_lastKeyS bu (L ++ R) L R rfl (List.pairwise_append.mp hsortLR).1
      (fun a ha => (hS0r a (hLmem a ha)).2)
      (fun a ha c hc => lt_trans (hLp a ha) (hpR c hc))
  have hprevkf : lprev bu (L ++ R) L.getLast? = lprev bu (L ++ p :: R) L.getLast? :=
    lprev_stableS bu L R p L.getLast? hsortse hS0 hsb hkfK hkfkn
  have hnextkn : lnext bu (L ++ R) (headKeyS R) = lnext bu (L ++ p :: R) (headKeyS R) :=
    lnext_stableS bu L R p (headKeyS R) hsortse hS0 hsb hknK (fun h3 => hkfkn h3.symm)
  have hprevknOld : lprev bu (L ++ R) (headKeyS R) = L.getLast? := by
    cases R with
    | nil =>
        simp only [headKeyS, List.head?_nil]
        rw [lprev_topKey, List.append_nil]
        rcases L.getLast? with _ | y <;> rfl
    | cons r R2 =>
        simp only [headKeyS, List.head?_cons]
        have hrmem := hRmem r (List.mem_cons_self r R2)
        have hAr : ∀ a ∈ L, a < r :=
          fun a ha => lt_trans (hLp a ha) (hpR r (List.mem_cons_self r R2))
        have hsortR : List.Pairwise (· < ·) (r :: R2) :=
          (List.pairwise_append.mp hsortLR).2.1
        have hBr : ∀ c ∈ R2, r < c := (List.pairwise_cons.mp hsortR).1
        exact lprev_memSells bu L R2 r (hS0r r hrmem).1 (hS0r r hrmem).2
          (hsbr r hrmem) hAr hBr
  funext k
  by_cases hk2 : k = headKeyS R
  · subst hk2
    rw [swrite_at, ladderStore_at _ _ _ _ hknK]
    simp only [lnode]
    rw [hnextkn, hprevknOld]
  · by_cases hk3 : k = L.getLast?
    · subst hk3
      rw [swrite_ne _ _ _ _ hkfkn, swrite_at, ladderStore_at _ _ _ _ hkfK]
      simp only [lnode]
      rw [hnextkf1, hprevkf]
    · rw [swrite_ne _ _ _ _ hk2, swrite_ne _ _ _ _ hk3]
      show (if k = some p then none else ladderStore bu (L ++ p :: R) q1 k) =
        ladderStore bu (L ++ R) q1 k
      by_cases hk1 : k = some p
      · subst hk1
        rw [if_pos rfl, ladderStore_not _ _ _ _ hpnotin]
      · rw [if_neg hk1]
        cases hik : inKeys bu (L ++ R) k with
        | false =>
            rw [ladderStore_not _ _ _ _ hik,
              ladderStore_not _ _ _ _ (by rw [inKeys_insertS bu L R p k hk1]; exact hik)]
        | true =>
            rw [ladderStore_at _ _ _ _ hik,
              ladderStore_at _ _ _ _ (by rw [inKeys_insertS bu L R p k hk1]; exact hik)]
            simp only [lnode]
            rw [lnext_stableS bu L R p k hsortse hS0 hsb hik hk3,
              lprev_stableS bu L R p k hsortse hS0 hsb hik hk2]

theorem remove_sell (om : OrdersMap) (bu L R : List ℕ) (q : Option ℕ → List HashData)
    (p : ℕ)
    (hsortse : List.Pairwise (· < ·) (L ++ p :: R))
    (hS0 : ∀ y ∈ L ++ p :: R, y ≠ pmin ∧ y ≠ pmax)
    (hsb : ∀ y ∈ L ++ p :: R, y ∉ bu) :
    ∃ q2 err, remove_item om (ladderStore bu (L ++ p :: R) q) p =
      ((match err with
        | some _ => ladderStore bu (L ++ p :: R) q2
        | none => ladderStore bu (L ++ R) q2), err) := by
  obtain ⟨hLp, hpR⟩ := pairwise_parts L R p hsortse
  have hpmem : p ∈ L ++ p :: R := List.mem_append_right L (List.mem_cons_self p R)
  have hp0 : p ≠ pmin := (hS0 p hpmem).1
  have hpmax : p ≠ pmax := (hS0 p hpmem).2
  have hpbu : p ∉ bu := hsb p hpmem
  have hk : inKeys bu (L ++ p :: R) (some p) = true := inKeys_memS bu _ p hpmem
  have hnode : ladderStore bu (L ++ p :: R) q (some p) =
      some (lnode bu (L ++ p :: R) q (some p)) := ladderStore_at _ _ _ _ hk
  obtain ⟨q1, err, hpop, himp⟩ :=
    popOrders_ladder om bu (L ++ p :: R) p hk (q (some p)) q rfl
  have hprevp : lprev bu (L ++ p :: R) (some p) = L.getLast? :=
    lprev_memSells bu L R p hp0 hpmax hpbu hLp hpR
  have hnextp : lnext bu (L ++ p :: R) (some p) = headKeyS R := by
    rw [lnext_sellBranch _ _ _ hpmax hpmem]
    have e : L ++ p :: R = (L ++ [p]) ++ R := by simp
    rw [e, succAbove_split (L ++ [p]) R p
      (fun a ha => by
        rcases List.mem_append.mp ha with h3 | h3
        · exact Nat.le_of_lt (hLp a h3)
        · simp only [List.mem_singleton] at h3
          omega)
      hpR]
    unfold headKeyS
    rfl
  have hkfp : L.getLast? ≠ some p := by
    cases h3 : L.getLast? with
    | none => simp
    | some x =>
        obtain ⟨L1, hL1⟩ := getLast?_decomp L x h3
        have hxL : x ∈ L := by rw [hL1]; simp
        intro h4
        have h5 := hLp x hxL
        rw [Option.some_inj.mp h4] at h5
        exact lt_irrefl p h5
  have hknp : headKeyS R ≠ some p := by
    cases R with
    | nil =>
        intro h4
        simp only [headKeyS, List.head?_nil] at h4
        exact hpmax (Option.some_inj.mp h4).symm
    | cons r R2 =>
        intro h4
        simp only [headKeyS, List.head?_cons] at h4
        have h5 := hpR r (List.mem_cons_self r R2)
        rw [Option.some_inj.mp h4] at h5
        exact lt_irrefl p h5
  have hkfkn : L.getLast? ≠ headKeyS R := by
    cases h3 : L.getLast? with
    | none =>
        cases R with
        | nil => simp [headKeyS]
        | cons r R2 => simp [headKeyS]
    | some x =>
        obtain ⟨L1, hL1⟩ := getLast?_decomp L x h3
        have hxL : x ∈ L := by rw [hL1]; simp
        cases R with
        | nil =>
            intro h4
            simp only [headKeyS, List.head?_nil, Option.some_inj] at h4
            exact (hS0 x (List.mem_append_left _ hxL)).2 h4
        | cons r R2 =>
            intro h4
            simp only [headKeyS, List.head?_cons, Option.some_inj] at h4
            have h5 : x < r := lt_trans (hLp x hxL) (hpR r (List.mem_cons_self r R2))
            exact absurd h4 (by omega)
  have hknK2 : inKeys bu (L ++ p :: R) (headKeyS R) = true := by
    cases R with
    | nil => exact inKeys_top bu _
    | cons r R2 =>
        exact inKeys_memS bu _ r (List.mem_append_right L (List.mem_cons_of_mem p
          (List.mem_cons_self r R2)))
  have hif1 : (if L.getLast? = some p then none
      else ladderStore bu (L ++ p :: R) q1 L.getLast?) =
      some (lnode bu (L ++ p :: R) q1 L.getLast?) := by
    rw [if_neg hkfp]
    refine ladderStore_at _ _ _ _ ?_
    cases h3 : L.getLast? with
    | none => exact inKeys_head bu _
    | some x =>
        obtain ⟨L1, hL1⟩ := getLast?_decomp L x h3
        have hxL : x ∈ L := by rw [hL1]; simp
        exact inKeys_memS bu _ x (List.mem_append_left _ hxL)
  have hif2 : ∀ it : Item,
      swrite (fun k => if k = some p then none else ladderStore bu (L ++ p :: R) q1 k)
        L.getLast? it (headKeyS R) = some (lnode bu (L ++ p :: R) q1 (headKeyS R)) := by
    intro it
    rw [swrite_ne _ _ _ _ (fun h3 => hkfkn h3.symm)]
    show (if headKeyS R = some p then none else ladderStore bu (L ++ p :: R) q1 (headKeyS R)) = _
    rw [if_neg hknp, ladderStore_at _ _ _ _ hknK2]
  cases err with
  | some e =>
      refine ⟨q1, some e, ?_⟩
      simp only [remove_item, hnode, lnode_orders, hpop]
  | none =>
      refine ⟨q1, none, ?_⟩
      have hnode1 : ladderStore bu (L ++ p :: R) q1 (some p) =
          some (lnode bu (L ++ p :: R) q1 (some p)) := ladderStore_at _ _ _ _ hk
      simp only [remove_item, hnode, lnode_orders, hpop, hnode1, lnode_prev, lnode_next,
        lnode_price, hprevp, hnextp, hif1, hif2]
      exact congrArg (fun s => (s, (none : Option String)))
        (deleteStoreSell bu L R q1 p hsortse hS0 hsb)

theorem sorted_split (l : List ℕ) (p : ℕ) (hsort : List.Pairwise (· < ·) l) (hp : p ∉ l) :
    ∃ L R, l = L ++ R ∧ (∀ a ∈ L, a < p) ∧ (∀ c ∈ R, p < c) := by
  induction l with
  | nil => exact ⟨[], [], rfl, by simp, by simp⟩
  | cons x xs ih =>
      have hx : x ≠ p := fun h => hp (h ▸ List.mem_cons_self x xs)
      by_cases hxp : x < p
      · obtain ⟨L, R, hLR, hL, hR⟩ := ih (List.pairwise_cons.mp hsort).2
          (fun hc => hp (List.mem_cons_of_mem x hc))
        refine ⟨x :: L, R, by rw [hLR]; rfl, ?_, hR⟩
        intro a ha
        rcases List.mem_cons.mp ha with rfl | h4
        · exact hxp
        · exact hL a h4
      · have hpx : p < x := by omega
        refine ⟨[], x :: xs, rfl, by simp, ?_⟩
        intro c hc
        rcases List.mem_cons.mp hc with rfl | h4
        · exact hpx
        · exact lt_trans hpx ((List.pairwise_cons.mp hsort).1 c h4)

theorem goodInsertB (se L R : List ℕ) (p : ℕ)
    (hgb : GoodLadder (L ++ R) se)
    (hp0 : p ≠ pmin) (hpmax : p ≠ pmax) (hps : p ∉ se)
    (hL : ∀ a ∈ L, a < p) (hR : ∀ c ∈ R, p < c) :
    GoodLadder (L ++ p :: R) se := by
  obtain ⟨h1, h2, h3, h4, h5⟩ := hgb
  refine ⟨pairwise_insert_mid L R p h1 hL hR, h2, ?_, h4, ?_⟩
  · intro y hy
    rcases List.mem_append.mp hy with h6 | h6
    · exact h3 y (List.mem_append_left R h6)
    · rcases List.mem_cons.mp h6 with rfl | h7
      · exact ⟨hp0, hpmax⟩
      · exact h3 y (List.mem_append_right L h7)
  · intro y hy
    rcases List.mem_append.mp hy with h6 | h6
    · exact h5 y (List.mem_append_left R h6)
    · rcases List.mem_cons.mp h6 with rfl | h7
      · exact hps
      · exact h5 y (List.mem_append_right L h7)

theorem goodInsertS (b L R : List ℕ) (p : ℕ)
    (hgb : GoodLadder b (L ++ R))
    (hp0 : p ≠ pmin) (hpmax : p ≠ pmax) (hpb : p ∉ b)
    (hL : ∀ a ∈ L, a < p) (hR : ∀ c ∈ R, p < c) :
    GoodLadder b (L ++ p :: R) := by
  obtain ⟨h1, h2, h3, h4, h5⟩ := hgb
  refine ⟨h1, pairwise_insert_mid L R p h2 hL hR, h3, ?_, ?_⟩
  · intro y hy
    rcases List.mem_append.mp hy with h6 | h6
    · exact h4 y (List.mem_append_left R h6)
    · rcases List.mem_cons.mp h6 with rfl | h7
      · exact ⟨hp0, hpmax⟩
      · exact h4 y (List.mem_append_right L h7)
  · intro x hx hc
    rcases List.mem_append.mp hc with h6 | h6
    · exact h5 x hx (List.mem_append_left R h6)
    · rcases List.mem_cons.mp h6 with h7 | h7
      · exact hpb (h7 ▸ hx)
      · exact h5 x hx (List.mem_append_right L h7)

theorem goodDropB (se L R : List ℕ) (p : ℕ) (hgb : GoodLadder (L ++ p :: R) se) :
    GoodLadder (L ++ R) se := by
  obtain ⟨h1, h2, h3, h4, h5⟩ := hgb
  have hmem : ∀ x ∈ L ++ R, x ∈ L ++ p :: R := by
    intro x hx
    rcases List.mem_append.mp hx with h6 | h6
    · exact List.mem_append_left _ h6
    · exact List.mem_append_right _ (List.mem_cons_of_mem p h6)
  exact ⟨pairwise_drop_mid L R p h1, h2, fun y hy => h3 y (hmem y hy), h4,
    fun y hy => h5 y (hmem y hy)⟩

theorem goodDropS (b L R : List ℕ) (p : ℕ) (hgb : GoodLadder b (L ++ p :: R)) :
    GoodLadder b (L ++ R) := by
  obtain ⟨h1, h2, h3, h4, h5⟩ := hgb
  have hmem : ∀ x ∈ L ++ R, x ∈ L ++ p :: R := by
    intro x hx
    rcases List.mem_append.mp hx with h6 | h6
    · exact List.mem_append_left _ h6
    · exact List.mem_append_right _ (List.mem_cons_of_mem p h6)
  exact ⟨h1, pairwise_drop_mid L R p h2, h3, fun y hy => h4 y (hmem y hy),
    fun x hx hc => h5 x hx (hmem x hc)⟩

theorem step_ladder (op : LOp) (fuel : ℕ) (b se : List ℕ) (q : Option ℕ → List HashData)
    (hop : op.nonSentinel) (hgb : GoodLadder b se)
    (hfuel : b.length + se.length + 1 ≤ fuel) :
    ∃ b2 se2 q2, GoodLadder b2 se2 ∧
      runLOps fuel [op] (ladderStore b se q) = ladderStore b2 se2 q2 ∧
      b2.length + se2.length ≤ b.length + se.length + 1 := by
  obtain ⟨hsortb, hsortse, hB0, hS0, hdisj⟩ := hgb
  cases op with
  | appendOp p h ot =>
      cases hik : inKeys b se (some p) with
      | true =>
          refine ⟨b, se, fupd q (some p) (q (some p) ++ [h]),
            ⟨hsortb, hsortse, hB0, hS0, hdisj⟩, ?_, by omega⟩
          show append fuel (ladderStore b se q) p h ot = _
          exact append_existing b se q p h ot fuel hik
      | false =>
          have h5 : ¬ (p = pmin ∨ p = pmax ∨ p ∈ b ∨ p ∈ se) := by
            intro hcon
            have h6 : inKeys b se (some p) = true := by
              simp only [inKeys, Bool.or_eq_true, decide_eq_true_eq]
              tauto
            rw [h6] at hik
            simp at hik
          push_neg at h5
          obtain ⟨hp0, hpmax, hpb, hps⟩ := h5
          cases ot with
          | Buy =>
              obtain ⟨L, R, hb, hL, hR⟩ := sorted_split b p hsortb hpb
              subst hb
              refine ⟨L ++ p :: R, se, fupd q (some p) [h],
                goodInsertB se L R p ⟨hsortb, hsortse, hB0, hS0, hdisj⟩
                  hp0 hpmax hps hL hR, ?_, ?_⟩
              · show append fuel (ladderStore (L ++ R) se q) p h OrderType.Buy = _
                exact append_newBuy se L R q p h fuel hsortb hB0 hdisj hS0
                  hp0 hpmax hpb hps hL hR
                  (by simp only [List.length_append] at hfuel ⊢; omega)
              · simp only [List.length_append, List.length_cons]
                omega
          | Sell =>
              obtain ⟨L, R, hse2, hL, hR⟩ := sorted_split se p hsortse hps
              subst hse2
              have hsb : ∀ y ∈ L ++ R, y ∉ b := fun y hy hc => hdisj y hc hy
              refine ⟨b, L ++ p :: R, fupd q (some p) [h],
                goodInsertS b L R p ⟨hsortb, hsortse, hB0, hS0, hdisj⟩
                  hp0 hpmax hpb hL hR, ?_, ?_⟩
              · show append fuel (ladderStore b (L ++ R) q) p h OrderType.Sell = _
                exact append_newSell b L R q p h fuel hsortse hS0 hsb
                  hp0 hpmax hpb hps hL hR
                  (by simp only [List.length_append] at hfuel ⊢; omega)
              · simp only [List.length_append, List.length_cons]
                omega
  | removeOp om p =>
      obtain ⟨hp0, hpmax⟩ := hop
      by_cases hpb : p ∈ b
      · obtain ⟨L, R, hb⟩ := List.append_of_mem hpb
        subst hb
        obtain ⟨q2, err, hrem⟩ := remove_buy om se L R q p hsortb hB0 hdisj hS0
        cases err with
        | some e =>
            refine ⟨L ++ p :: R, se, q2, ⟨hsortb, hsortse, hB0, hS0, hdisj⟩, ?_, by omega⟩
            show (remove_item om (ladderStore (L ++ p :: R) se q) p).1 = _
            rw [hrem]
        | none =>
            refine ⟨L ++ R, se, q2,
              goodDropB se L R p ⟨hsortb, hsortse, hB0, hS0, hdisj⟩, ?_, ?_⟩
            · show (remove_item om (ladderStore (L ++ p :: R) se q) p).1 = _
              rw [hrem]
            · simp only [List.length_append, List.length_cons]
              omega
      · by_cases hps : p ∈ se
        · obtain ⟨L, R, hse2⟩ := List.append_of_mem hps
          subst hse2
          have hsb : ∀ y ∈ L ++ p :: R, y ∉ b := fun y hy hc => hdisj y hc hy
          obtain ⟨q2, err, hrem⟩ := remove_sell om b L R q p hsortse hS0 hsb
          cases err with
          | some e =>
              refine ⟨b, L ++ p :: R, q2, ⟨hsortb, hsortse, hB0, hS0, hdisj⟩, ?_, by omega⟩
              show (remove_item om (ladderStore b (L ++ p :: R) q) p).1 = _
              rw [hrem]
          | none =>
              refine ⟨b, L ++ R, q2,
                goodDropS b L R p ⟨hsortb, hsortse, hB0, hS0, hdisj⟩, ?_, ?_⟩
              · show (remove_item om (ladderStore b (L ++ p :: R) q) p).1 = _
                rw [hrem]
              · simp only [List.length_append, List.length_cons]
                omega
        · have hnone : ladderStore b se q (some p) = none :=
            ladderStore_not _ _ _ _ (inKeys_false b se p hp0 hpmax hpb hps)
          refine ⟨b, se, q, ⟨hsortb, hsortse, hB0, hS0, hdisj⟩, ?_, by omega⟩
          show (remove_item om (ladderStore b se q) p).1 = _
          rw [remove_absent om _ p hnone]

theorem runLOps_preserves (fuel : ℕ) (ops : List LOp) :
    ∀ (b se : List ℕ) (q : Option ℕ → List HashData),
      (∀ op ∈ ops, op.nonSentinel) → GoodLadder b se →
      b.length + se.length + ops.length + 1 ≤ fuel →
      ∃ b2 se2 q2, GoodLadder b2 se2 ∧
        runLOps fuel ops (ladderStore b se q) = ladderStore b2 se2 q2 ∧
        b2.length + se2.length ≤ b.length + se.length + ops.length := by
  induction ops with
  | nil =>
      intro b se q hops hgb hfuel
      exact ⟨b, se, q, hgb, rfl, by omega⟩
  | cons op rest ih =>
      intro b se q hops hgb hfuel
      obtain ⟨b1, se1, q1, hgb1, hstep, hlen1⟩ := step_ladder op fuel b se q
        (hops op (List.mem_cons_self op rest)) hgb
        (by simp only [List.length_cons] at hfuel; omega)
      have hsplit : runLOps fuel (op :: rest) (ladderStore b se q) =
          runLOps fuel rest (runLOps fuel [op] (ladderStore b se q)) := by
        cases op <;> rfl
      rw [hsplit, hstep]
      obtain ⟨b2, se2, q2, hgb2, hrun, hlen2⟩ := ih b1 se1 q1
        (fun op2 hop2 => hops op2 (List.mem_cons_of_mem op hop2)) hgb1
        (by simp only [List.length_cons] at hfuel; omega)
      refine ⟨b2, se2, q2, hgb2, hrun, ?_⟩
      simp only [List.length_cons]
      omega

theorem ladderInit_eq : ladderInit = ladderStore [] [] (fun _ => []) := by
  funext k
  show swrite (swrite (swrite emptyStore none headItem) (some pmin) bottomItem)
      (some pmax) topItem k = ladderStore [] [] (fun _ => []) k
  rcases k with _ | y
  · rfl
  · by_cases h1 : y = pmax
    · subst h1
      rw [swrite_at, ladderStore_at _ _ _ _ (inKeys_top _ _)]
      simp only [lnode]
      rw [lnext_topKey, lprev_topKey]
      rfl
    · by_cases h2 : y = pmin
      · subst h2
        rw [swrite_ne _ _ _ _ (fun hc => pmin_ne_pmax (Option.some_inj.mp hc)), swrite_at,
          ladderStore_at _ _ _ _ (inKeys_bottom _ _)]
        simp only [lnode]
        rw [lnext_buyBranch [] [] pmin pmin_ne_pmax (by simp), lprev_bottomKey]
        rfl
      · rw [swrite_ne _ _ _ _ (fun hc => h1 (Option.some_inj.mp hc)),
          swrite_ne _ _ _ _ (fun hc => h2 (Option.some_inj.mp hc)),
          swrite_ne _ _ _ _ (by simp),
          ladderStore_not _ _ _ _ (inKeys_false [] [] y h2 h1 (by simp) (by simp))]
        rfl

theorem sellsChainAux (b se : List ℕ) (q : Option ℕ → List HashData)
    (hgb : GoodLadder b se) (M : List ℕ) :
    ∀ (L : List ℕ) (fuel : ℕ), se = L ++ M → M.length + 1 ≤ fuel →
      nextChain (ladderStore b se q) fuel (headKeyS M) =
        M.map some ++ [some pmax] := by
  induction M with
  | nil =>
      intro L fuel hse hfuel
      obtain ⟨f, rfl⟩ : ∃ f, fuel = f + 1 := ⟨fuel - 1, by omega⟩
      show nextChain _ (f + 1) (headKeyS []) = [some pmax]
      simp only [headKeyS, List.head?_nil]
      simp only [nextChain]
      rw [ladderStore_at _ _ _ _ (inKeys_top b se)]
      simp
  | cons m M2 ih =>
      intro L fuel hse hfuel
      obtain ⟨f, rfl⟩ : ∃ f, fuel = f + 1 := ⟨fuel - 1, by omega⟩
      have hmse : m ∈ se := by
        rw [hse]; exact List.mem_append_right L (List.mem_cons_self m M2)
      have hmmax : m ≠ pmax := (hgb.2.2.2.1 m hmse).2
      have hat : ladderStore b se q (some m) = some (lnode b se q (some m)) :=
        ladderStore_at _ _ _ _ (inKeys_memS b se m hmse)
      have hse2 : se = (L ++ [m]) ++ M2 := by rw [hse]; simp
      have hsort2 : List.Pairwise (· < ·) ((L ++ [m]) ++ M2) := by
        rw [← hse2]; exact hgb.2.1
      have hnext : lnext b se (some m) = headKeyS M2 := by
        have h3 := lnext_lastKeyS b se (L ++ [m]) M2 hse2
          (List.pairwise_append.mp hsort2).1
          (fun a ha => (hgb.2.2.2.1 a (by rw [hse2]; exact List.mem_append_left _ ha)).2)
          ((List.pairwise_append.mp hsort2).2.2)
        rw [List.getLast?_append_of_ne_nil L (by simp)] at h3
        exact h3
      simp only [headKeyS, List.head?_cons]
      simp only [nextChain, hat, lnode_next, hnext]
      rw [if_neg (fun hc => hmmax (Option.some_inj.mp hc))]
      rw [ih (L ++ [m]) f (by rw [hse]; simp)
        (by simp only [List.length_cons] at hfuel; omega)]
      simp

theorem headChainAux (b se : List ℕ) (q : Option ℕ → List HashData)
    (hgb : GoodLadder b se) (fuel : ℕ) (hfuel : se.length + 2 ≤ fuel) :
    nextChain (ladderStore b se q) fuel none =
      none :: (se.map some ++ [some pmax]) := by
  obtain ⟨f, rfl⟩ : ∃ f, fuel = f + 1 := ⟨fuel - 1, by omega⟩
  have hat : ladderStore b se q none = some (lnode b se q none) :=
    ladderStore_at _ _ _ _ (inKeys_head b se)
  have hnext : lnext b se none = headKeyS se := by
    rw [lnext_headKey]
    unfold headKeyS
    rfl
  simp only [nextChain, hat, lnode_next, hnext]
  rw [if_neg (by simp : ¬ (none : Option ℕ) = some pmax)]
  rw [sellsChainAux b se q hgb se [] f (by simp) (by omega)]

theorem buysChainAux (b se : List ℕ) (q : Option ℕ → List HashData)
    (hgb : GoodLadder b se) (M : List ℕ) :
    ∀ (L : List ℕ) (fuel : ℕ), b = L ++ M → M.length + se.length + 2 ≤ fuel →
      nextChain (ladderStore b se q) fuel M.head? =
        M.map some ++ (none :: (se.map some ++ [some pmax])) := by
  induction M with
  | nil =>
      intro L fuel hb hfuel
      simp only [List.head?_nil, List.map_nil, List.nil_append]
      exact headChainAux b se q hgb fuel (by omega)
  | cons m M2 ih =>
      intro L fuel hb hfuel
      obtain ⟨f, rfl⟩ : ∃ f, fuel = f + 1 := ⟨fuel - 1, by omega⟩
      have hmem : m ∈ b := by
        rw [hb]; exact List.mem_append_right L (List.mem_cons_self m M2)
      have hmmax : m ≠ pmax := (hgb.2.2.1 m hmem).2
      have hmse : m ∉ se := hgb.2.2.2.2 m hmem
      have hat : ladderStore b se q (some m) = some (lnode b se q (some m)) :=
        ladderStore_at _ _ _ _ (inKeys_memB b se m hmem)
      obtain ⟨hLm, hmM2⟩ := pairwise_parts L M2 m (by rw [← hb]; exact hgb.1)
      have hnext : lnext b se (some m) = M2.head? := by
        rw [lnext_buyBranch b se m hmmax hmse]
        have hb2 : b = (L ++ [m]) ++ M2 := by rw [hb]; simp
        rw [hb2]
        exact succAbove_split (L ++ [m]) M2 m
          (fun a ha => by
            rcases List.mem_append.mp ha with h3 | h3
            · exact Nat.le_of_lt (hLm a h3)
            · simp only [List.mem_singleton] at h3
              omega)
          hmM2
      simp only [List.head?_cons]
      simp only [nextChain, hat, lnode_next, hnext]
      rw [if_neg (fun hc => hmmax (Option.some_inj.mp hc))]
      rw [ih (L ++ [m]) f (by rw [hb]; simp)
        (by simp only [List.length_cons] at hfuel; omega)]
      simp

theorem nextChain_ladder (b se : List ℕ) (q : Option ℕ → List HashData)
    (hgb : GoodLadder b se) (fuel : ℕ) (hfuel : b.length + se.length + 3 ≤ fuel) :
    nextChain (ladderStore b se q) fuel (some pmin) =
      some pmin :: (b.map some ++ (none :: (se.map some ++ [some pmax]))) := by
  obtain ⟨f, rfl⟩ : ∃ f, fuel = f + 1 := ⟨fuel - 1, by omega⟩
  have hat : ladderStore b se q (some pmin) = some (lnode b se q (some pmin)) :=
    ladderStore_at _ _ _ _ (inKeys_bottom b se)
  have hpminse : pmin ∉ se := fun hc => (hgb.2.2.2.1 pmin hc).1 rfl
  have hnext : lnext b se (some pmin) = b.head? := by
    rw [lnext_buyBranch b se pmin pmin_ne_pmax hpminse]
    exact succAbove_all b pmin (fun y hy => Nat.pos_of_ne_zero ((hgb.2.2.1 y hy).1))
  simp only [nextChain, hat, lnode_next, hnext]
  rw [if_neg (fun hc => pmin_ne_pmax (Option.some_inj.mp hc))]
  rw [buysChainAux b se q hgb b [] f (by simp) (by omega)]

theorem prevsChainAux (b se : List ℕ) (q : Option ℕ → List HashData)
    (hgb : GoodLadder b se) (L : List ℕ) :
    ∀ (M : List ℕ) (fuel : ℕ), b = L ++ M → L.length + 1 ≤ fuel →
      prevChain (ladderStore b se q) fuel (lastKeyB L) =
        L.reverse.map some ++ [some pmin] := by
  induction L using List.reverseRecOn with
  | nil =>
      intro M fuel hb hfuel
      obtain ⟨f, rfl⟩ : ∃ f, fuel = f + 1 := ⟨fuel - 1, by omega⟩
      show prevChain _ (f + 1) (some pmin) = [some pmin]
      simp only [prevChain]
      rw [ladderStore_at _ _ _ _ (inKeys_bottom b se)]
      simp
  | append_singleton L2 x ih =>
      intro M fuel hb hfuel
      obtain ⟨f, rfl⟩ : ∃ f, fuel = f + 1 := ⟨fuel - 1, by omega⟩
      have hb2 : b = L2 ++ x :: M := by rw [hb]; simp
      have hmem : x ∈ b := by
        rw [hb2]; exact List.mem_append_right L2 (List.mem_cons_self x M)
      have hx0 : x ≠ pmin := (hgb.2.2.1 x hmem).1
      have hxmax : x ≠ pmax := (hgb.2.2.1 x hmem).2
      have hat : ladderStore b se q (some x) = some (lnode b se q (some x)) :=
        ladderStore_at _ _ _ _ (inKeys_memB b se x hmem)
      obtain ⟨hL2x, hxM⟩ := pairwise_parts L2 M x (by rw [← hb2]; exact hgb.1)
      have hprev : lprev b se (some x) = lastKeyB L2 := by
        rw [hb2]
        exact lprev_memBuys se L2 M x hx0 hxmax hL2x hxM
      simp only [lastKeyB_concat]
      simp only [prevChain, hat, lnode_prev, hprev]
      rw [if_neg (fun hc => hx0 (Option.some_inj.mp hc))]
      rw [ih (x :: M) f (by rw [hb]; simp)
        (by simp only [List.length_append, List.length_cons] at hfuel; omega)]
      simp

theorem headPrevChainAux (b se : List ℕ) (q : Option ℕ → List HashData)
    (hgb : GoodLadder b se) (fuel : ℕ) (hfuel : b.length + 2 ≤ fuel) :
    prevChain (ladderStore b se q) fuel none =
      none :: (b.reverse.map some ++ [some pmin]) := by
  obtain ⟨f, rfl⟩ : ∃ f, fuel = f + 1 := ⟨fuel - 1, by omega⟩
  have hat : ladderStore b se q none = some (lnode b se q none) :=
    ladderStore_at _ _ _ _ (inKeys_head b se)
  have hprev : lprev b se none = lastKeyB b := by
    rw [lprev_headKey]
    unfold lastKeyB
    rfl
  simp only [prevChain, hat, lnode_prev, hprev]
  rw [if_neg (by simp : ¬ (none : Option ℕ) = some pmin)]
  rw [prevsChainAux b se q hgb b [] f (by simp) (by omega)]

theorem sellPrevChainAux (b se : List ℕ) (q : Option ℕ → List HashData)
    (hgb : GoodLadder b se) (L : List ℕ) :
    ∀ (M : List ℕ) (fuel : ℕ), se = L ++ M → L.length + b.length + 2 ≤ fuel →
      prevChain (ladderStore b se q) fuel L.getLast? =
        L.reverse.map some ++ (none :: (b.reverse.map some ++ [some pmin])) := by
  induction L using List.reverseRecOn with
  | nil =>
      intro M fuel hse hfuel
      simp only [List.getLast?_nil, List.reverse_nil, List.map_nil, List.nil_append]
      exact headPrevChainAux b se q hgb fuel (by omega)
  | append_singleton L2 x ih =>
      intro M fuel hse hfuel
      obtain ⟨f, rfl⟩ : ∃ f, fuel = f + 1 := ⟨fuel - 1, by omega⟩
      have hse2 : se = L2 ++ x :: M := by rw [hse]; simp
      have hmem : x ∈ se := by
        rw [hse2]; exact List.mem_append_right L2 (List.mem_cons_self x M)
      have hx0 : x ≠ pmin := (hgb.2.2.2.1 x hmem).1
      have hxmax : x ≠ pmax := (hgb.2.2.2.1 x hmem).2
      have hxb : x ∉ b := fun hc => hgb.2.2.2.2 x hc hmem
      have hat : ladderStore b se q (some x) = some (lnode b se q (some x)) :=
        ladderStore_at _ _ _ _ (inKeys_memS b se x hmem)
      obtain ⟨hL2x, hxM⟩ := pairwise_parts L2 M x (by rw [← hse2]; exact hgb.2.1)
      have hprev : lprev b se (some x) = L2.getLast? := by
        rw [hse2]
        exact lprev_memSells b L2 M x hx0 hxmax hxb hL2x hxM
      have hkey : (L2 ++ [x]).getLast? = some x := by
        rw [List.getLast?_append_of_ne_nil L2 (by simp)]
        rfl
      simp only [hkey]
      simp only [prevChain, hat, lnode_prev, hprev]
      rw [if_neg (fun hc => hx0 (Option.some_inj.mp hc))]
      rw [ih (x :: M) f (by rw [hse]; simp)
        (by simp only [List.length_append, List.length_cons] at hfuel; omega)]
      simp

theorem prevChain_ladder (b se : List ℕ) (q : Option ℕ → List HashData)
    (hgb : GoodLadder b se) (fuel : ℕ) (hfuel : b.length + se.length + 3 ≤ fuel) :
    prevChain (ladderStore b se q) fuel (some pmax) =
      some pmax :: (se.reverse.map some ++ (none :: (b.reverse.map some ++ [some pmin]))) := by
  obtain ⟨f, rfl⟩ : ∃ f, fuel = f + 1 := ⟨fuel - 1, by omega⟩
  have hat : ladderStore b se q (some pmax) = some (lnode b se q (some pmax)) :=
    ladderStore_at _ _ _ _ (inKeys_top b se)
  have hprev : lprev b se (some pmax) = se.getLast? := by
    rw [lprev_topKey]
    rcases se.getLast? with _ | y <;> rfl
  simp only [prevChain, hat, lnode_prev, hprev]
  rw [if_neg (fun hc => pmin_ne_pmax (Option.some_inj.mp hc).symm)]
  rw [sellPrevChainAux b se q hgb se [] f (by simp) (by omega)]

/-- Claim C2, amended: starting from a freshly initialised trade pair, after
any sequence of `append` calls (at arbitrary prices) and `remove_item` calls
at non-sentinel prices, the per-pair ladder slice is exactly the canonical
store of some buy-level list and some sell-level list, each strictly
increasing, none touching the sentinel prices and mutually disjoint; its
`next` chain from Bottom visits Bottom, the buy levels in ascending order,
Head, the sell levels in ascending order, then Top, and its `prev` chain
from Top visits the same nodes in exactly the reverse order.  Each side is
separately sorted, but nothing relates the last buy price to the first sell
price, so the shape alone does not exclude a crossed book. -/
theorem claim2_amended (ops : List LOp) (fuel cfuel : ℕ)
    (hops : ∀ op ∈ ops, op.nonSentinel)
    (hfuel : ops.length + 1 ≤ fuel) (hcfuel : ops.length + 3 ≤ cfuel) :
    ∃ b se q, GoodLadder b se ∧
      runLOps fuel ops ladderInit = ladderStore b se q ∧
      nextChain (ladderStore b se q) cfuel (some pmin) =
        some pmin :: (b.map some ++ (none :: (se.map some ++ [some pmax]))) ∧
      prevChain (ladderStore b se q) cfuel (some pmax) =
        some pmax :: (se.reverse.map some ++ (none :: (b.reverse.map some ++ [some pmin]))) := by
  have hgb0 : GoodLadder [] [] :=
    ⟨List.Pairwise.nil, List.Pairwise.nil, by simp, by simp, by simp⟩
  obtain ⟨b, se, q, hgb, hrun, hlen⟩ := runLOps_preserves fuel ops [] []
    (fun _ => []) hops hgb0 (by simp only [List.length_nil]; omega)
  refine ⟨b, se, q, hgb, ?_, ?_, ?_⟩
  · rw [ladderInit_eq]
    exact hrun
  · refine nextChain_ladder b se q hgb cfuel ?_
    simp only [List.length_nil] at hlen
    omega
  · refine prevChain_ladder b se q hgb cfuel ?_
    simp only [List.length_nil] at hlen
    omega

/-- Claim C2, amended, witness: the canonical-shape theorem applied to the
concrete run that appends a Buy at 30, a Sell at 20 and then removes the
level at 30. -/
theorem claim2_amended_witness :
    ∃ b se q, GoodLadder b se ∧
      runLOps 10 [LOp.appendOp 30 (HashData.token 1) OrderType.Buy,
          LOp.appendOp 20 (HashData.token 2) OrderType.Sell,
          LOp.removeOp (fun _ => none) 30] ladderInit = ladderStore b se q ∧
      nextChain (ladderStore b se q) 10 (some pmin) =
        some pmin :: (b.map some ++ (none :: (se.map some ++ [some pmax]))) ∧
      prevChain (ladderStore b se q) 10 (some pmax) =
        some pmax :: (se.reverse.map some ++ (none :: (b.reverse.map some ++ [some pmin]))) :=
  claim2_amended [LOp.appendOp 30 (HashData.token 1) OrderType.Buy,
      LOp.appendOp 20 (HashData.token 2) OrderType.Sell,
      LOp.removeOp (fun _ => none) 30]
    10 10
    (by
      intro op hop
      rcases List.mem_cons.mp hop with rfl | hop
      · exact trivial
      rcases List.mem_cons.mp hop with rfl | hop
      · exact trivial
      rcases List.mem_cons.mp hop with rfl | hop
      · exact ⟨by decide, by decide⟩
      · simp at hop)
    (by decide) (by decide)

end Dex
